import Mathlib

/-!
Verification of the constant-promotion pass (`src/librustc_mir/transform/promote_consts.rs`).

The pass is embedded shallowly: the MIR data model that the pass manipulates
(`rustc::mir::repr`, not part of the sources under review) is modelled from the
specification's data-model section, while every function of the pass itself
(`TempCollector::visit_lvalue`, `collect_temps`, `Promoter::new_block`,
`Promoter::assign`, `Promoter::promote_temp`, `Promoter::promote_candidate`,
`promote_candidates`) is translated statement by statement from the source.

Rust panics (`span_bug!`, `bug!`, failed `unwrap`, out-of-range indexing on a
path the pass itself guards) are modelled as the `Bug` error of an `Except`
monad; the unbounded recursion of `promote_temp` is modelled with an explicit
fuel argument whose exhaustion is the distinguishable `OutOfFuel` error, so
that termination claims can be stated about fuel sufficiency.
-/

set_option autoImplicit false

namespace PC

/-- Index of a basic block inside a body (`BasicBlock` in the source). -/
abbrev BasicBlock := Nat

/-- Interned types are opaque to this pass; modelled as codes. -/
abbrev Ty := Nat

/-- Source spans are opaque to this pass; modelled as codes. -/
abbrev Span := Nat

/-- Modelled from the spec: a definition site, `{block, statement_index}`. -/
structure Location where
  block : BasicBlock
  statement_index : Nat
deriving DecidableEq, Repr

/-- State of a temporary during collection and promotion (`TempState`). -/
inductive TempState where
  | Undefined
  | Defined (location : Location) (uses : Nat)
  | Unpromotable
  | PromotedOut
deriving DecidableEq, Repr

/-- Direct translation of `TempState::is_promotable`. -/
def TempState.is_promotable : TempState → Bool
  | .Defined _ uses => uses > 0
  | _ => false

/-- A root candidate for promotion (`Candidate`). -/
inductive Candidate where
  | Ref (location : Location)
  | ShuffleIndices (bb : BasicBlock)
deriving DecidableEq, Repr

/-- Modelled from the spec: borrow kinds carried by a `Ref` rvalue. -/
inductive BorrowKind where
  | Shared
  | Mut
deriving DecidableEq, Repr

/-- Modelled from the spec: lvalues relevant to this pass.  Temporaries are the
pass's subject; `Var` stands for the other named storage slots; `ReturnPointer`
is the return slot of a body. -/
inductive Lvalue where
  | Temp (index : Nat)
  | Var (index : Nat)
  | ReturnPointer
deriving DecidableEq, Repr

/-- Modelled from the spec: constant literals, including the promoted-value
cross-reference `{index}` into the owning body's extracted-body list. -/
inductive Literal where
  | Value (value : Nat)
  | Promoted (index : Nat)
deriving DecidableEq, Repr

/-- Modelled from the spec: a constant operand. -/
structure Constant where
  span : Span
  ty : Ty
  literal : Literal
deriving DecidableEq, Repr

/-- Modelled from the spec: operands either consume an lvalue or are constants. -/
inductive Operand where
  | Consume (lv : Lvalue)
  | Constant (c : Constant)
deriving DecidableEq, Repr

/-- Modelled from the spec: binary operators appearing in rvalues. -/
inductive BinOp where
  | Add
  | Mul
deriving DecidableEq, Repr

/-- Modelled from the spec: aggregate kinds; `Tuple` is the one the pass itself
builds (the unit value left behind by a moved assignment). -/
inductive AggregateKind where
  | Tuple
  | Array
deriving DecidableEq, Repr

/-- Modelled from the spec: right-hand-side expressions. -/
inductive Rvalue where
  | Use (operand : Operand)
  | Ref (kind : BorrowKind) (lv : Lvalue)
  | Len (lv : Lvalue)
  | BinaryOp (op : BinOp) (a : Operand) (b : Operand)
  | Aggregate (kind : AggregateKind) (operands : List Operand)
deriving DecidableEq, Repr

/-- Modelled from the spec: the single statement kind, an assignment. -/
inductive StatementKind where
  | Assign (dest : Lvalue) (rvalue : Rvalue)
deriving DecidableEq, Repr

/-- Modelled from the spec: a statement with its span and scope. -/
structure Statement where
  span : Span
  scope : Nat
  kind : StatementKind
deriving DecidableEq, Repr

/-- Modelled from the spec: terminator kinds relevant to this pass. -/
inductive TerminatorKind where
  | Goto (target : BasicBlock)
  | Return
  | Resume
  | Drop (value : Lvalue) (target : BasicBlock) (unwind : Option BasicBlock)
  | Call (func : Operand) (args : List Operand)
         (destination : Option (Lvalue × BasicBlock)) (cleanup : Option BasicBlock)
deriving DecidableEq, Repr

/-- Modelled from the spec: a terminator with its span and scope. -/
structure Terminator where
  span : Span
  scope : Nat
  kind : TerminatorKind
deriving DecidableEq, Repr

/-- Modelled from the spec: a basic block.  In the source the terminator is an
`Option` that is always present during this pass (`terminator()` unwraps it);
it is modelled as always present. -/
structure BasicBlockData where
  statements : List Statement
  terminator : Terminator
  is_cleanup : Bool
deriving DecidableEq, Repr

/-- Modelled from the spec: declaration of a temporary, carrying its type. -/
structure TempDecl where
  ty : Ty
deriving DecidableEq, Repr

/-- Modelled from the spec: a function body.  `promoted` is the appendable list
of extracted bodies (only ever non-empty for the source body during this pass);
`return_ty` is `some` for a converging function (`FnConverging`), matching the
`.unwrap()` the pass performs on it. -/
inductive Mir where
  | mk (basic_blocks : List BasicBlockData) (promoted : List Mir)
       (return_ty : Option Ty) (var_decls : List Ty)
       (temp_decls : List TempDecl) (span : Span)

instance : Inhabited TerminatorKind := ⟨.Return⟩

instance : Inhabited Terminator := ⟨⟨0, 0, .Return⟩⟩

instance : Inhabited BasicBlockData := ⟨⟨[], default, false⟩⟩

instance : Inhabited Statement := ⟨⟨0, 0, .Assign .ReturnPointer (.Aggregate .Tuple [])⟩⟩

instance : Inhabited TempDecl := ⟨⟨0⟩⟩

instance : Inhabited Mir := ⟨.mk [] [] none [] [] 0⟩

def Mir.basic_blocks : Mir → List BasicBlockData
  | .mk bbs _ _ _ _ _ => bbs

def Mir.promoted : Mir → List Mir
  | .mk _ p _ _ _ _ => p

def Mir.return_ty : Mir → Option Ty
  | .mk _ _ r _ _ _ => r

def Mir.var_decls : Mir → List Ty
  | .mk _ _ _ v _ _ => v

def Mir.temp_decls : Mir → List TempDecl
  | .mk _ _ _ _ t _ => t

def Mir.span : Mir → Span
  | .mk _ _ _ _ _ sp => sp

/-- Replace the element at an index of a list, leaving the list unchanged when
the index is out of range (in-range use mirrors Rust's `v[i] = x`). -/
def listModify {α : Type} (f : α → α) : Nat → List α → List α
  | _, [] => []
  | 0, x :: xs => f x :: xs
  | n + 1, x :: xs => x :: listModify f n xs

/-- Update the basic-block list of a body. -/
def Mir.setBlocks : Mir → List BasicBlockData → Mir
  | .mk _ p r v t sp, bbs => .mk bbs p r v t sp

/-- The block at an index (`mir[bb]`); the out-of-range default is never
reached on the panic-free paths the theorems describe. -/
def Mir.blockD (m : Mir) (bb : BasicBlock) : BasicBlockData :=
  m.basic_blocks.getD bb default

/-- Apply a function to one block of a body (in-place mutation in the source). -/
def Mir.modifyBlock (m : Mir) (bb : BasicBlock) (f : BasicBlockData → BasicBlockData) : Mir :=
  m.setBlocks (listModify f bb m.basic_blocks)

/-- Append an extracted body to the `promoted` list (`self.source.promoted.push`). -/
def Mir.pushPromoted : Mir → Mir → Mir
  | .mk b p r v t sp, m => .mk b (p ++ [m]) r v t sp

/-- Append a temporary declaration (`self.promoted.temp_decls.push`). -/
def Mir.pushTempDecl : Mir → TempDecl → Mir
  | .mk b p r v t sp, d => .mk b p r v (t ++ [d]) sp

/-- Append a basic block (`self.promoted.basic_blocks.push`). -/
def Mir.pushBlock : Mir → BasicBlockData → Mir
  | .mk b p r v t sp, blk => .mk (b ++ [blk]) p r v t sp

/-! ## The temp-state analyzer (`TempCollector`) -/

/-- Modelled from the spec: the context classifying each lvalue occurrence
(`LvalueContext` of `rustc::mir::visit`): drop, inspect, borrow, slice,
projection, direct store, call destination, consume. -/
inductive LvalueContext where
  | Inspect
  | Store
  | Call
  | Drop
  | Borrow
  | Slice
  | Projection
  | Consume
deriving DecidableEq, Repr

/-- Direct translation of `TempCollector::visit_lvalue` (the per-occurrence
classification step): drop contexts are ignored; a store or call-destination
write on an `Undefined` entry defines it at the current location with zero
uses; a borrow, consume or inspect on a `Defined` entry increments its use
count; every other combination makes the entry `Unpromotable`. -/
def collectLvalue (temps : List TempState) (location : Location)
    (lvalue : Lvalue) (context : LvalueContext) : List TempState :=
  match lvalue with
  | .Temp index =>
    -- Ignore drops: if the temp gets promoted the drop is a noop.
    if context = .Drop then temps
    else
      let temp := temps.getD index .Undefined
      if temp = .Undefined then
        match context with
        | .Store | .Call =>
          temps.set index (.Defined location 0)
        | _ => temps.set index .Unpromotable
      else
        match temp with
        | .Defined loc uses =>
          match context with
          | .Borrow | .Consume | .Inspect =>
            temps.set index (.Defined loc (uses + 1))
          | _ => temps.set index .Unpromotable
        | _ => temps.set index .Unpromotable
  | _ => temps

/-- Modelled from the spec: the lvalue occurrences (with their contexts) that
the visitor reports inside an operand — a consumed lvalue is a read. -/
def operandOccs : Operand → List (Lvalue × LvalueContext)
  | .Consume lv => [(lv, .Consume)]
  | .Constant _ => []

/-- Modelled from the spec: the lvalue occurrences inside an rvalue — a borrow
reports its lvalue in borrow context, a length check in inspect context, and
operands report consumes. -/
def rvalueOccs : Rvalue → List (Lvalue × LvalueContext)
  | .Use op => operandOccs op
  | .Ref _ lv => [(lv, .Borrow)]
  | .Len lv => [(lv, .Inspect)]
  | .BinaryOp _ a b => operandOccs a ++ operandOccs b
  | .Aggregate _ ops => (ops.map operandOccs).flatten

/-- Modelled from the spec: the occurrences of a statement — the assignment
destination in store context, then the right-hand side's occurrences. -/
def statementOccs : StatementKind → List (Lvalue × LvalueContext)
  | .Assign dest rv => (dest, .Store) :: rvalueOccs rv

/-- Modelled from the spec: the occurrences of a terminator — a drop reports
its value in drop context; a call reports its function and argument operands
and its destination in call-destination context. -/
def terminatorOccs : TerminatorKind → List (Lvalue × LvalueContext)
  | .Goto _ => []
  | .Return => []
  | .Resume => []
  | .Drop value _ _ => [(value, .Drop)]
  | .Call func args dest _ =>
    operandOccs func ++ (args.map operandOccs).flatten ++
      (match dest with
       | some (lv, _) => [(lv, .Call)]
       | none => [])

/-- Fold the classification step over a list of occurrences at one location. -/
def collectOccs (temps : List TempState) (location : Location) :
    List (Lvalue × LvalueContext) → List TempState
  | [] => temps
  | (lv, ctx) :: rest => collectOccs (collectLvalue temps location lv ctx) location rest

/-- One statement of a block: occurrences are classified at the statement's
location (`visit_statement` advances `statement_index` afterwards). -/
def collectStatement (temps : List TempState) (bb : BasicBlock) (idx : Nat)
    (st : Statement) : List TempState :=
  collectOccs temps ⟨bb, idx⟩ (statementOccs st.kind)

/-- Statements of a block in order, numbering occurrences by statement index. -/
def collectStatements (temps : List TempState) (bb : BasicBlock) (idx : Nat) :
    List Statement → List TempState
  | [] => temps
  | st :: rest => collectStatements (collectStatement temps bb idx st) bb (idx + 1) rest

/-- One block: its statements, then its terminator.  The terminator's
occurrences are classified at `statement_index = statements.length`, the value
`visit_statement` leaves behind — this is how a call-destination definition is
later recognized as a terminator definition by `promote_temp`. -/
def collectBlock (temps : List TempState) (bb : BasicBlock)
    (data : BasicBlockData) : List TempState :=
  let temps := collectStatements temps bb 0 data.statements
  collectOccs temps ⟨bb, data.statements.length⟩ (terminatorOccs data.terminator.kind)

/-- Blocks in the supplied order. -/
def collectBlocks (mir : Mir) (temps : List TempState) : List BasicBlock → List TempState
  | [] => temps
  | bb :: rest => collectBlocks mir (collectBlock temps bb (mir.blockD bb)) rest

/-- Direct translation of `collect_temps`: start from all-`Undefined` (one
entry per declared temporary) and visit every block.  The reverse-postorder
enumeration itself lives in the `traversal` module, outside the sources under
review; it is passed in here as the list `rpo` of block indices, as the source
receives an already-built `ReversePostorder` iterator. -/
def collect_temps (mir : Mir) (rpo : List BasicBlock) : List TempState :=
  collectBlocks mir (List.replicate mir.temp_decls.length .Undefined) rpo

/-! ## The extraction engine (`Promoter`) -/

/-- Failure modes of the promotion engine: `Bug` models the fatal
internal-defect aborts of the source (`span_bug!`, `bug!`, failed unwraps and
out-of-range indexing); `OutOfFuel` is exhaustion of the explicit recursion
fuel of the embedding. -/
inductive PromoteError where
  | OutOfFuel
  | Bug
deriving DecidableEq, Repr

abbrev PRes (α : Type) := Except PromoteError α

/-- The extraction engine's state (`struct Promoter`). -/
structure Promoter where
  source : Mir
  promoted : Mir
  temps : List TempState
  keep_original : Bool

/-- Direct translation of `Promoter::new_block`: append to the extracted body
a block holding only a return terminator, and yield its index. -/
def Promoter.new_block (s : Promoter) : Promoter × BasicBlock :=
  let index := s.promoted.basic_blocks.length
  let data : BasicBlockData :=
    { statements := [],
      terminator := { span := s.promoted.span, scope := 0, kind := .Return },
      is_cleanup := false }
  ({ s with promoted := s.promoted.pushBlock data }, index)

/-- Direct translation of `Promoter::assign`: push an assignment onto the last
block of the in-progress extracted body (which always exists on the engine's
own paths: the engine is started with one block). -/
def Promoter.assign (s : Promoter) (dest : Lvalue) (rvalue : Rvalue) (span : Span) :
    Promoter :=
  let statement : Statement := { span := span, scope := 0, kind := .Assign dest rvalue }
  let f : BasicBlockData → BasicBlockData :=
    fun data => { data with statements := data.statements ++ [statement] }
  { s with promoted := s.promoted.modifyBlock (s.promoted.basic_blocks.length - 1) f }

/-- Replace the right-hand side of an assignment statement; as with
`mem::replace(rhs, ...)` in the source, destination and span stay in place. -/
def rhsSet (rv : Rvalue) (st : Statement) : Statement :=
  { st with kind := match st.kind with
                    | .Assign dest _ => .Assign dest rv }

/-- Replace the right-hand side of the assignment at a statement site. -/
def Mir.setStmtRhs (m : Mir) (bb : BasicBlock) (idx : Nat) (rv : Rvalue) : Mir :=
  m.modifyBlock bb fun data =>
    { data with statements := listModify (rhsSet rv) idx data.statements }

/-- Replace the kind of a block's terminator, keeping its span and scope. -/
def Mir.setTermKind (m : Mir) (bb : BasicBlock) (kind : TerminatorKind) : Mir :=
  m.modifyBlock bb fun data =>
    { data with terminator := { data.terminator with kind := kind } }

/-- The shape of `promote_temp` at a fixed fuel, threaded through the
rewriting visitor (`impl MutVisitor for Promoter`). -/
abbrev PTFun := Promoter → Nat → PRes (Promoter × Nat)

/-- Direct translation of the `MutVisitor` override
`Promoter::visit_lvalue`: every temporary reference is replaced by its
promoted counterpart, obtained from `promote_temp`. -/
def pvLvalue (pt : PTFun) (s : Promoter) (lv : Lvalue) : PRes (Promoter × Lvalue) :=
  match lv with
  | .Temp index => do
    let (s, index) ← pt s index
    pure (s, .Temp index)
  | lv => pure (s, lv)

/-- Modelled from the spec: the rewriting visitor's traversal of an operand
(`super_operand`) — a consumed lvalue is visited, a constant is not. -/
def pvOperand (pt : PTFun) (s : Promoter) (op : Operand) : PRes (Promoter × Operand) :=
  match op with
  | .Consume lv => do
    let (s, lv) ← pvLvalue pt s lv
    pure (s, .Consume lv)
  | .Constant c => pure (s, .Constant c)

/-- The rewriting visitor's traversal of an operand list, left to right. -/
def pvOperands (pt : PTFun) (s : Promoter) :
    List Operand → PRes (Promoter × List Operand)
  | [] => pure (s, [])
  | op :: rest => do
    let (s, op) ← pvOperand pt s op
    let (s, rest) ← pvOperands pt s rest
    pure (s, op :: rest)

/-- Modelled from the spec: the rewriting visitor's traversal of an rvalue
(`super_rvalue`) — every temporary reference nested inside it is resolved. -/
def pvRvalue (pt : PTFun) (s : Promoter) (rv : Rvalue) : PRes (Promoter × Rvalue) :=
  match rv with
  | .Use op => do
    let (s, op) ← pvOperand pt s op
    pure (s, .Use op)
  | .Ref k lv => do
    let (s, lv) ← pvLvalue pt s lv
    pure (s, .Ref k lv)
  | .Len lv => do
    let (s, lv) ← pvLvalue pt s lv
    pure (s, .Len lv)
  | .BinaryOp op a b => do
    let (s, a) ← pvOperand pt s a
    let (s, b) ← pvOperand pt s b
    pure (s, .BinaryOp op a b)
  | .Aggregate k ops => do
    let (s, ops) ← pvOperands pt s ops
    pure (s, .Aggregate k ops)

/-- Modelled from the spec: the rewriting visitor's traversal of a taken
terminator kind — "every temporary reference nested inside the taken
expression/call is itself resolved via `extract_temp`", i.e. the call's
function and argument operands (and a drop's value); block edges, the
destination slot (rewired by the engine itself afterwards) and the cleanup
edge are not value references and are left as they are. -/
def pvTermKind (pt : PTFun) (s : Promoter) (kind : TerminatorKind) :
    PRes (Promoter × TerminatorKind) :=
  match kind with
  | .Call func args dest cleanup => do
    let (s, func) ← pvOperand pt s func
    let (s, args) ← pvOperands pt s args
    pure (s, .Call func args dest cleanup)
  | .Drop value target unwind => do
    let (s, value) ← pvLvalue pt s value
    pure (s, .Drop value target unwind)
  | kind => pure (s, kind)

/-- The entry stage of `Promoter::promote_temp` (source lines 192 to 210):
force `keep_original` while `uses > 1`, then flip the entry to `PromotedOut`
unless `keep_original` is (now) set. -/
def ptEnter (s0 : Promoter) (index : Nat) (uses : Nat) : Promoter :=
  let s1 := if uses > 1 then { s0 with keep_original := true } else s0
  if s1.keep_original then s1
  else { s1 with temps := s1.temps.set index .PromotedOut }

/-- The body of `Promoter::promote_temp`, parametrized by the function used
for the recursive calls (one fuel step lower).  Translated clause by clause
from the source: classify the temp (anything but `Defined` with `uses > 0` is
a `span_bug!`), enter via `ptEnter`, take the defining rvalue (statement
case) or call terminator (otherwise) out of the source body — or clone it
under `keep_original` — recurse into the taken value, emit it into the
extracted body under a freshly declared temp, and restore `keep_original`. -/
def promoteTempBody (pt : PTFun) (s0 : Promoter) (index : Nat) : PRes (Promoter × Nat) :=
  let old_keep_original := s0.keep_original
  match s0.temps.getD index .Undefined with
  | .Defined { block := bb, statement_index := stmt_idx } uses =>
    if uses > 0 then
      let s2 := ptEnter s0 index uses
      let no_stmts := (s2.source.blockD bb).statements.length
      if stmt_idx < no_stmts then
        -- Defined by an assignment statement.
        let statement := (s2.source.blockD bb).statements.getD stmt_idx default
        match statement.kind with
        | .Assign _ rhs =>
          let span := statement.span
          let s3 := if s2.keep_original then s2
                    else { s2 with source :=
                      s2.source.setStmtRhs bb stmt_idx (.Aggregate .Tuple []) }
          do
            let (s4, rvalue) ← pvRvalue pt s3 rhs
            let new_index := s4.promoted.temp_decls.length
            let new_temp := Lvalue.Temp new_index
            let decl : TempDecl := ⟨(s4.source.temp_decls.getD index default).ty⟩
            let s5 := { s4 with promoted := s4.promoted.pushTempDecl decl }
            let s6 := s5.assign new_temp rvalue span
            pure ({ s6 with keep_original := old_keep_original }, new_index)
      else
        -- Defined by the block's call terminator.
        let terminator := (s2.source.blockD bb).terminator
        let span := terminator.span
        do
          let (s3, call) ←
            if s2.keep_original then
              pure (s2, terminator.kind)
            else
              match terminator.kind with
              | .Call func args (some (_, target)) _ =>
                -- No cleanup necessary; a new destination is put in later.
                let src' := s2.source.setTermKind bb (.Goto target)
                pure (({ s2 with source := src' } : Promoter),
                      TerminatorKind.Call func args none none)
              | _ => .error .Bug
          let (s4, call) ← pvTermKind pt s3 call
          let new_index := s4.promoted.temp_decls.length
          let new_temp := Lvalue.Temp new_index
          let decl : TempDecl := ⟨(s4.source.temp_decls.getD index default).ty⟩
          let s5 := { s4 with promoted := s4.promoted.pushTempDecl decl }
          let last := s5.promoted.basic_blocks.length - 1
          let (s6, new_target) := s5.new_block
          match call with
          | .Call func args _ cleanup =>
            let f : BasicBlockData → BasicBlockData := fun data =>
              let kind := TerminatorKind.Call func args (some (new_temp, new_target)) cleanup
              let term := { data.terminator with span := span, kind := kind }
              { data with terminator := term }
            let s7 := { s6 with promoted := s6.promoted.modifyBlock last f }
            pure ({ s7 with keep_original := old_keep_original }, new_index)
          | _ => .error .Bug
    else .error .Bug
  | _ => .error .Bug

/-- Direct translation of `Promoter::promote_temp`, with explicit fuel: each
nesting level of the recursion consumes one unit. -/
def Promoter.promote_temp (fuel : Nat) : PTFun :=
  Nat.rec (motive := fun _ => PTFun)
    (fun _ _ => .error .OutOfFuel)
    (fun _ ih => promoteTempBody ih)
    fuel

/-- Direct translation of `Promoter::promote_candidate`: build the
promoted-value literal carrying the present length of the source's
extracted-body list, swap it into the root site (the assignment's right-hand
side for `Ref`, the call's third argument for `ShuffleIndices`), extract the
swapped-out rvalue into the extracted body's return place, and append the
finished body to the source's list. -/
def Promoter.promote_candidate (fuel : Nat) (s : Promoter) (candidate : Candidate) :
    PRes (Mir × List TempState) := do
  let span := s.promoted.span
  let ty ← match s.promoted.return_ty with
    | some ty => pure ty
    | none => .error .Bug
  let new_operand := Operand.Constant
    { span := span, ty := ty, literal := .Promoted s.source.promoted.length }
  let (s, rvalue) ←
    match candidate with
    | .Ref { block := bb, statement_index := stmt_idx } =>
      match (s.source.blockD bb).statements.get? stmt_idx with
      | some statement =>
        match statement.kind with
        | .Assign _ rhs =>
          let src' := s.source.setStmtRhs bb stmt_idx (.Use new_operand)
          pure (({ s with source := src' } : Promoter), rhs)
      | none => .error .Bug
    | .ShuffleIndices bb =>
      match (s.source.blockD bb).terminator.kind with
      | .Call func args dest cleanup =>
        match args.get? 2 with
        | some arg2 =>
          let src' := s.source.setTermKind bb
            (.Call func (args.set 2 new_operand) dest cleanup)
          pure (({ s with source := src' } : Promoter), Rvalue.Use arg2)
        | none => .error .Bug
      | _ => .error .Bug
  let (s, rvalue) ← pvRvalue (Promoter.promote_temp fuel) s rvalue
  let s := s.assign .ReturnPointer rvalue span
  pure (s.source.pushPromoted s.promoted, s.temps)

/-! ## Driver and cleanup (`promote_candidates`) -/

/-- Modelled from the spec: the static type of an lvalue (`mir.lvalue_ty`
resolves it through the type context, which is outside the sources under
review). -/
def Mir.lvalue_ty (m : Mir) : Lvalue → Option Ty
  | .Temp index => (m.temp_decls.get? index).map TempDecl.ty
  | .Var index => m.var_decls.get? index
  | .ReturnPointer => m.return_ty

/-- Modelled from the spec: the static type of an operand (`mir.operand_ty`). -/
def Mir.operand_ty (m : Mir) : Operand → Option Ty
  | .Consume lv => m.lvalue_ty lv
  | .Constant c => some c.ty

/-- One iteration of the candidate loop of `promote_candidates`: the skip
guard for `Ref` roots whose destination temp is already `PromotedOut`, the
computation of the candidate's span and static result type, the construction
of a fresh `Promoter` whose extracted body carries that return type and one
starting block, and the call to `promote_candidate`.  A skipped candidate
leaves the pair unchanged. -/
def processCandidate (fuel : Nat) (mir : Mir) (temps : List TempState)
    (candidate : Candidate) : PRes (Mir × List TempState) := do
  let info ← match candidate with
    | .Ref { block := bb, statement_index := stmt_idx } =>
      match (mir.blockD bb).statements.get? stmt_idx with
      | some statement =>
        match statement.kind with
        | .Assign dest _ =>
          match dest with
          | .Temp index =>
            if temps.getD index .Undefined = .PromotedOut then
              -- Already promoted.
              pure none
            else match mir.lvalue_ty dest with
              | some ty => pure (some (statement.span, ty))
              | none => .error .Bug
          | _ =>
            match mir.lvalue_ty dest with
            | some ty => pure (some (statement.span, ty))
            | none => .error .Bug
      | none => .error .Bug
    | .ShuffleIndices bb =>
      let terminator := (mir.blockD bb).terminator
      match terminator.kind with
      | .Call _ args _ _ =>
        match args.get? 2 with
        | some arg2 =>
          match mir.operand_ty arg2 with
          | some ty => pure (some (terminator.span, ty))
          | none => .error .Bug
        | none => .error .Bug
      | _ => .error .Bug
  match info with
  | none => pure (mir, temps)
  | some (span, ty) =>
    let promoter : Promoter :=
      { source := mir,
        promoted := .mk [] [] (some ty) [] [] span,
        temps := temps,
        keep_original := false }
    let promoter := promoter.new_block.1
    promoter.promote_candidate fuel candidate

/-- The candidate loop of `promote_candidates`, over an already-reversed
candidate list. -/
def promoteLoop (fuel : Nat) :
    List Candidate → Mir → List TempState → PRes (Mir × List TempState)
  | [], mir, temps => pure (mir, temps)
  | candidate :: rest, mir, temps => do
    let (mir, temps) ← processCandidate fuel mir temps candidate
    promoteLoop fuel rest mir temps

/-- Whether a temp's table entry is `PromotedOut` (the `promoted` closure of
the cleanup loop in `promote_candidates`). -/
def isPromotedOut (temps : List TempState) (index : Nat) : Bool :=
  temps.getD index .Undefined = .PromotedOut

/-- The final cleanup of one block (the closing loop of
`promote_candidates`): retain only statements that are not assignments to a
promoted temp, and degrade a drop of a promoted temp to a plain goto to the
drop's target. -/
def sweepBlock (temps : List TempState) (block : BasicBlockData) : BasicBlockData :=
  { block with
    statements := block.statements.filter fun statement =>
      match statement.kind with
      | .Assign (.Temp index) _ => ! isPromotedOut temps index
      | _ => true,
    terminator :=
      match block.terminator.kind with
      | .Drop (.Temp index) target _ =>
        if isPromotedOut temps index then
          { block.terminator with kind := .Goto target }
        else block.terminator
      | _ => block.terminator }

/-- The final cleanup sweep over every block of the source body. -/
def sweep (temps : List TempState) (mir : Mir) : Mir :=
  mir.setBlocks (mir.basic_blocks.map (sweepBlock temps))

/-- Direct translation of `promote_candidates`: visit the candidates in
reverse (in case they are nested), then eliminate assignments to, and drops
of, promoted temps. -/
def promote_candidates (fuel : Nat) (mir : Mir) (temps : List TempState)
    (candidates : List Candidate) : PRes (Mir × List TempState) := do
  let (mir, temps) ← promoteLoop fuel candidates.reverse mir temps
  pure (sweep temps mir, temps)

/-! ## Derived notions used by the verification -/

/-- The statement at a site (out-of-range access yields the default; the
theorems only inspect sites their hypotheses keep in range). -/
def stmtAt (m : Mir) (bb : BasicBlock) (k : Nat) : Statement :=
  (m.blockD bb).statements.getD k default

/-- The terminator of a block. -/
def termAt (m : Mir) (bb : BasicBlock) : Terminator :=
  (m.blockD bb).terminator

/-- The destination lvalue of a statement kind. -/
def StatementKind.destOf : StatementKind → Lvalue
  | .Assign dest _ => dest

/-- The right-hand side of a statement kind. -/
def StatementKind.rhsOf : StatementKind → Rvalue
  | .Assign _ rv => rv

/-- The temporaries read through one lvalue occurrence. -/
def lvReadTemps : Lvalue → List Nat
  | .Temp index => [index]
  | _ => []

/-- The temporaries read by an operand. -/
def opReadTemps : Operand → List Nat
  | .Consume lv => lvReadTemps lv
  | .Constant _ => []

/-- The temporaries read by a list of operands. -/
def opsReadTemps (ops : List Operand) : List Nat :=
  (ops.map opReadTemps).flatten

/-- The temporaries read by an rvalue, in the order the rewriting visitor
resolves them. -/
def rvReadTemps : Rvalue → List Nat
  | .Use op => opReadTemps op
  | .Ref _ lv => lvReadTemps lv
  | .Len lv => lvReadTemps lv
  | .BinaryOp _ a b => opReadTemps a ++ opReadTemps b
  | .Aggregate _ ops => opsReadTemps ops

/-- The temporaries read by a terminator, in the order the rewriting visitor
resolves them (a drop's value is a drop occurrence, not a read, for the
analyzer, but the rewriting visitor does rewrite it; it is counted here as
what the promoter would consult). -/
def termReadTemps : TerminatorKind → List Nat
  | .Call func args _ _ => opReadTemps func ++ opsReadTemps args
  | .Drop value _ _ => lvReadTemps value
  | _ => []

/-- Whether a terminator defines a temp as its call destination. -/
def termWritesTemp (index : Nat) : TerminatorKind → Bool
  | .Call _ _ (some (.Temp d, _)) _ => d == index
  | _ => false

/-- The monotone order on table entries claimed by the spec:
`Undefined → Defined → {Unpromotable | PromotedOut}`, with use counts only
growing (at an unchanged location) within `Defined`, and with the two
terminal states absorbing: nothing is above `Unpromotable` except itself, and
nothing is above `PromotedOut` except itself. -/
def tsLe : TempState → TempState → Prop
  | .Undefined, _ => True
  | .Defined l u, .Defined l' u' => l = l' ∧ u ≤ u'
  | .Defined _ _, .Unpromotable => True
  | .Defined _ _, .PromotedOut => True
  | .Unpromotable, .Unpromotable => True
  | .PromotedOut, .PromotedOut => True
  | _, _ => False

/-- How the promotion phase evolves the table: lengths are kept and each
entry is either unchanged or flips from `Defined` to `PromotedOut`. -/
def promoteEvolve (t t' : List TempState) : Prop :=
  t'.length = t.length ∧
  ∀ j, t'.getD j .Undefined = t.getD j .Undefined ∨
    ((∃ l u, t.getD j .Undefined = .Defined l u) ∧ t'.getD j .Undefined = .PromotedOut)

/-- What one engine step (a `promote_temp` call or one leg of the rewriting
visitor) may do to the source body and the table: the table evolves by
`Defined → PromotedOut` flips only; block count, statement counts,
declarations and the extracted-body list of the source are untouched; a
statement may change only by its right-hand side becoming the unit aggregate,
and then some temp registered as defined at exactly that site was flipped; a
terminator may change only from a call with a destination into a goto to the
call's return target, and then some temp registered at that terminator site
was flipped; and conversely every flipped temp's registered definition site
ends emptied — its assignment right-hand side reads nothing, or its
terminator has become a goto. -/
def SrcCore (s s' : Promoter) : Prop :=
  promoteEvolve s.temps s'.temps ∧
  s'.source.basic_blocks.length = s.source.basic_blocks.length ∧
  s'.source.promoted = s.source.promoted ∧
  s'.source.temp_decls = s.source.temp_decls ∧
  s'.source.var_decls = s.source.var_decls ∧
  s'.source.return_ty = s.source.return_ty ∧
  (∀ bb, (s'.source.blockD bb).statements.length
       = (s.source.blockD bb).statements.length) ∧
  (∀ bb k, stmtAt s'.source bb k = stmtAt s.source bb k ∨
    ((stmtAt s'.source bb k).span = (stmtAt s.source bb k).span ∧
     (stmtAt s'.source bb k).scope = (stmtAt s.source bb k).scope ∧
     (stmtAt s'.source bb k).kind =
       .Assign (stmtAt s.source bb k).kind.destOf (.Aggregate .Tuple []) ∧
     ∃ t u, s.temps.getD t .Undefined = .Defined ⟨bb, k⟩ u ∧
            s'.temps.getD t .Undefined = .PromotedOut)) ∧
  (∀ bb, termAt s'.source bb = termAt s.source bb ∨
    ((termAt s'.source bb).span = (termAt s.source bb).span ∧
     (termAt s'.source bb).scope = (termAt s.source bb).scope ∧
     (∃ func args dlv target cl,
        (termAt s.source bb).kind = .Call func args (some (dlv, target)) cl ∧
        (termAt s'.source bb).kind = .Goto target) ∧
     ∃ t u k, (s.source.blockD bb).statements.length ≤ k ∧
       s.temps.getD t .Undefined = .Defined ⟨bb, k⟩ u ∧
       s'.temps.getD t .Undefined = .PromotedOut)) ∧
  (∀ t l u, s.temps.getD t .Undefined = .Defined l u →
    s'.temps.getD t .Undefined = .PromotedOut →
    (l.statement_index < (s.source.blockD l.block).statements.length →
      rvReadTemps (stmtAt s'.source l.block l.statement_index).kind.rhsOf = []) ∧
    ((s.source.blockD l.block).statements.length ≤ l.statement_index →
      ∃ target, (termAt s'.source l.block).kind = .Goto target))

/-- A full engine step: the core property together with restoration of the
`keep_original` flag. -/
def SrcStep (s s' : Promoter) : Prop :=
  SrcCore s s' ∧ s'.keep_original = s.keep_original

/-- What an engine step does when entered under `keep_original = true`:
nothing at all to the source or the table — everything is duplicated into the
extracted body, whose block count can only grow. -/
def KeepStep (s s' : Promoter) : Prop :=
  s'.source = s.source ∧ s'.temps = s.temps ∧ s'.keep_original = s.keep_original ∧
  s.promoted.basic_blocks.length ≤ s'.promoted.basic_blocks.length

/-- What the candidate loop (before the final sweep) may do to the source
body and the table, coarse enough to compose root swaps with extractions:
the table only flips `Defined` entries to `PromotedOut`; the block structure,
statement counts, destinations and spans are untouched; reads and
call-destination writes at every site only shrink; gotos persist; extracted
bodies are only appended; and a flipped temp's registered definition site
ends with no reads at all (its assignment right-hand side was emptied, or
its call terminator was degraded to a goto). -/
def LoopStep (mir : Mir) (temps : List TempState)
    (mir' : Mir) (temps' : List TempState) : Prop :=
  promoteEvolve temps temps' ∧
  mir'.basic_blocks.length = mir.basic_blocks.length ∧
  (∃ suffix, mir'.promoted = mir.promoted ++ suffix) ∧
  mir'.temp_decls = mir.temp_decls ∧
  mir'.var_decls = mir.var_decls ∧
  mir'.return_ty = mir.return_ty ∧
  (∀ bb, (mir'.blockD bb).statements.length = (mir.blockD bb).statements.length) ∧
  (∀ bb k, (stmtAt mir' bb k).span = (stmtAt mir bb k).span ∧
           (stmtAt mir' bb k).kind.destOf = (stmtAt mir bb k).kind.destOf) ∧
  (∀ bb k j, j ∈ rvReadTemps (stmtAt mir' bb k).kind.rhsOf →
             j ∈ rvReadTemps (stmtAt mir bb k).kind.rhsOf) ∧
  (∀ bb, (termAt mir' bb).span = (termAt mir bb).span) ∧
  (∀ bb j, j ∈ termReadTemps (termAt mir' bb).kind →
           j ∈ termReadTemps (termAt mir bb).kind) ∧
  (∀ bb j, termWritesTemp j (termAt mir' bb).kind = true →
           termWritesTemp j (termAt mir bb).kind = true) ∧
  (∀ bb target, (termAt mir bb).kind = .Goto target →
                (termAt mir' bb).kind = .Goto target) ∧
  (∀ t l u, temps.getD t .Undefined = .Defined l u →
            temps'.getD t .Undefined = .PromotedOut →
    (l.statement_index < (mir.blockD l.block).statements.length →
       rvReadTemps (stmtAt mir' l.block l.statement_index).kind.rhsOf = []) ∧
    ((mir.blockD l.block).statements.length ≤ l.statement_index →
       ∃ target, (termAt mir' l.block).kind = .Goto target))

/-- The temps read at a table-registered definition site: the right-hand side
of the statement there, or the block's terminator when the index points past
the statement list. -/
def siteReadTemps (m : Mir) (l : Location) : List Nat :=
  if l.statement_index < (m.blockD l.block).statements.length then
    rvReadTemps (stmtAt m l.block l.statement_index).kind.rhsOf
  else
    termReadTemps (termAt m l.block).kind

/-- The spec's acyclicity assumption on well-formed input, phrased through a
ranking of the temps: every temp read at the registered definition site of a
`Defined` temp has strictly smaller rank.  Decidable, so concrete inputs can
be checked. -/
def siteRanksOk (rk : Nat → Nat) (s : Promoter) : Bool :=
  (List.range s.temps.length).all fun t =>
    match s.temps.getD t .Undefined with
    | .Defined l _ => (siteReadTemps s.source l).all fun j => decide (rk j < rk t)
    | _ => true

/-! ## Concrete inputs for witnesses and counterexamples -/

/-- A scalar constant operand of type code 10. -/
def constOp (n : Nat) : Operand :=
  .Constant { span := 0, ty := 10, literal := .Value n }

/-- The fresh one-block `Promoter` the driver builds for a candidate. -/
def mkPromoter (mir : Mir) (temps : List TempState) (span : Span) (ty : Ty) : Promoter :=
  (({ source := mir,
      promoted := .mk [] [] (some ty) [] [] span,
      temps := temps,
      keep_original := false } : Promoter)).new_block.1

/-- Extract the body from a driver result (defaulting on error). -/
def okMir (r : PRes (Mir × List TempState)) : Mir :=
  match r with
  | .ok p => p.1
  | .error _ => default

/-- Extract the table from a driver result (defaulting on error). -/
def okTemps (r : PRes (Mir × List TempState)) : List TempState :=
  match r with
  | .ok p => p.2
  | .error _ => []

/-- Scenario A (spec scenario 1): `t0 = 1 + 2` (one use), `t1 = &t0` (the
`Ref` root), `var0 = t1`. -/
def mirA : Mir := .mk
  [ { statements :=
        [ { span := 0, scope := 0,
            kind := .Assign (.Temp 0) (.BinaryOp .Add (constOp 1) (constOp 2)) },
          { span := 1, scope := 0, kind := .Assign (.Temp 1) (.Ref .Shared (.Temp 0)) },
          { span := 2, scope := 0, kind := .Assign (.Var 0) (.Use (.Consume (.Temp 1))) } ],
      terminator := { span := 3, scope := 0, kind := .Return },
      is_cleanup := false } ]
  [] (some 0) [11] [⟨10⟩, ⟨11⟩] 9

def tempsA : List TempState := collect_temps mirA [0]

def candsA : List Candidate := [.Ref ⟨0, 1⟩]

def runA : PRes (Mir × List TempState) := promote_candidates 10 mirA tempsA candsA

def mirA1 : Mir := okMir runA

def tempsA1 : List TempState := okTemps runA

/-- Scenario A processed a second time with the table the first run left. -/
def runA2 : PRes (Mir × List TempState) := promote_candidates 10 mirA1 tempsA1 candsA

/-- Scenario C: `t0` (one use) feeding `t1` (two uses) feeding `t2` (the
extracted tree) rooted at `t3 = &t2`. -/
def mirC : Mir := .mk
  [ { statements :=
        [ { span := 0, scope := 0, kind := .Assign (.Temp 0) (.Use (constOp 1)) },
          { span := 1, scope := 0, kind := .Assign (.Temp 1) (.Use (.Consume (.Temp 0))) },
          { span := 2, scope := 0,
            kind := .Assign (.Temp 2)
              (.BinaryOp .Add (.Consume (.Temp 1)) (.Consume (.Temp 1))) },
          { span := 3, scope := 0, kind := .Assign (.Temp 3) (.Ref .Shared (.Temp 2)) },
          { span := 4, scope := 0, kind := .Assign (.Var 0) (.Use (.Consume (.Temp 3))) } ],
      terminator := { span := 5, scope := 0, kind := .Return },
      is_cleanup := false } ]
  [] (some 0) [11] [⟨10⟩, ⟨10⟩, ⟨10⟩, ⟨11⟩] 9

def tempsC : List TempState := collect_temps mirC [0]

def candsC : List Candidate := [.Ref ⟨0, 3⟩]

def runC : PRes (Mir × List TempState) := promote_candidates 10 mirC tempsC candsC

def mirC1 : Mir := okMir runC

def tempsC1 : List TempState := okTemps runC

/-- Scenario D: `t0` defined by a call terminator with a cleanup edge, one
use, rooted at `t1 = &t0` (the move case for a call definition). -/
def mirD : Mir := .mk
  [ { statements := [],
      terminator := { span := 0, scope := 0, kind := .Call (constOp 7) [] (some (.Temp 0, 1)) (some 2) },
      is_cleanup := false },
    { statements :=
        [ { span := 1, scope := 0, kind := .Assign (.Temp 1) (.Ref .Shared (.Temp 0)) },
          { span := 2, scope := 0, kind := .Assign (.Var 0) (.Use (.Consume (.Temp 1))) } ],
      terminator := { span := 3, scope := 0, kind := .Return },
      is_cleanup := false },
    { statements := [],
      terminator := { span := 4, scope := 0, kind := .Resume },
      is_cleanup := true } ]
  [] (some 0) [11] [⟨10⟩, ⟨11⟩] 9

def tempsD : List TempState := collect_temps mirD [0, 1, 2]

/-- Scenario E: `t0` defined by a call terminator with a cleanup edge and
used twice (the duplicate case for a call definition). -/
def mirE : Mir := .mk
  [ { statements := [],
      terminator := { span := 0, scope := 0, kind := .Call (constOp 7) [] (some (.Temp 0, 1)) (some 2) },
      is_cleanup := false },
    { statements :=
        [ { span := 1, scope := 0,
            kind := .Assign (.Temp 1)
              (.BinaryOp .Add (.Consume (.Temp 0)) (.Consume (.Temp 0))) },
          { span := 2, scope := 0, kind := .Assign (.Temp 2) (.Ref .Shared (.Temp 1)) },
          { span := 3, scope := 0, kind := .Assign (.Var 0) (.Use (.Consume (.Temp 2))) } ],
      terminator := { span := 4, scope := 0, kind := .Return },
      is_cleanup := false },
    { statements := [],
      terminator := { span := 5, scope := 0, kind := .Resume },
      is_cleanup := true } ]
  [] (some 0) [11] [⟨10⟩, ⟨10⟩, ⟨11⟩] 9

def tempsE : List TempState := collect_temps mirE [0, 1, 2]

def candsE : List Candidate := [.Ref ⟨1, 1⟩]

def runE : PRes (Mir × List TempState) := promote_candidates 10 mirE tempsE candsE

def mirE1 : Mir := okMir runE

def tempsE1 : List TempState := okTemps runE


/-- A promoter state over scenario C about to process the doubly-used `t1`. -/
def sC2 : Promoter := mkPromoter mirC tempsC 3 11

def runC2 : PRes (Promoter × Nat) := Promoter.promote_temp 5 sC2 1

def sC2' : Promoter :=
  match runC2 with
  | .ok p => p.1
  | .error _ => sC2

def nC2 : Nat :=
  match runC2 with
  | .ok p => p.2
  | .error _ => 0


/-- The extraction phase of scenario A alone (the candidate loop before the
final sweep). -/
def runALoop : PRes (Mir × List TempState) := promoteLoop 10 candsA.reverse mirA tempsA

def mirAL : Mir := okMir runALoop

def tempsAL : List TempState := okTemps runALoop


/-- A promoter over scenario D about to extract the call-defined `t0`
(single use: the move case). -/
def sD : Promoter := mkPromoter mirD tempsD 1 10

def runD : PRes (Promoter × Nat) := Promoter.promote_temp 5 sD 0

def sD' : Promoter :=
  match runD with
  | .ok p => p.1
  | .error _ => sD

def nD : Nat :=
  match runD with
  | .ok p => p.2
  | .error _ => 0

/-- A promoter over scenario E about to extract the call-defined, doubly-used
`t0` (the clone case). -/
def sE : Promoter := mkPromoter mirE tempsE 2 10

def runE0 : PRes (Promoter × Nat) := Promoter.promote_temp 5 sE 0

def sE' : Promoter :=
  match runE0 with
  | .ok p => p.1
  | .error _ => sE

def nE : Nat :=
  match runE0 with
  | .ok p => p.2
  | .error _ => 0


/-- The promoter the driver builds for scenario A's `Ref` candidate. -/
def sC8 : Promoter := mkPromoter mirA tempsA 1 11

def runC8 : PRes (Mir × List TempState) := Promoter.promote_candidate 10 sC8 (.Ref ⟨0, 1⟩)

def mirC8 : Mir := okMir runC8

def tempsC8 : List TempState := okTemps runC8

/-! ## Basic lemmas -/

@[simp] theorem Mir.basic_blocks_mk (b : List BasicBlockData) (p : List Mir)
    (r : Option Ty) (v : List Ty) (t : List TempDecl) (sp : Span) :
    (Mir.mk b p r v t sp).basic_blocks = b := rfl

@[simp] theorem Mir.promoted_mk (b : List BasicBlockData) (p : List Mir)
    (r : Option Ty) (v : List Ty) (t : List TempDecl) (sp : Span) :
    (Mir.mk b p r v t sp).promoted = p := rfl

@[simp] theorem Mir.return_ty_mk (b : List BasicBlockData) (p : List Mir)
    (r : Option Ty) (v : List Ty) (t : List TempDecl) (sp : Span) :
    (Mir.mk b p r v t sp).return_ty = r := rfl

@[simp] theorem Mir.var_decls_mk (b : List BasicBlockData) (p : List Mir)
    (r : Option Ty) (v : List Ty) (t : List TempDecl) (sp : Span) :
    (Mir.mk b p r v t sp).var_decls = v := rfl

@[simp] theorem Mir.temp_decls_mk (b : List BasicBlockData) (p : List Mir)
    (r : Option Ty) (v : List Ty) (t : List TempDecl) (sp : Span) :
    (Mir.mk b p r v t sp).temp_decls = t := rfl

@[simp] theorem Mir.span_mk (b : List BasicBlockData) (p : List Mir)
    (r : Option Ty) (v : List Ty) (t : List TempDecl) (sp : Span) :
    (Mir.mk b p r v t sp).span = sp := rfl

@[simp] theorem listModify_nil {α : Type} (f : α → α) (n : Nat) :
    listModify f n [] = [] := by cases n <;> rfl

@[simp] theorem listModify_cons_zero {α : Type} (f : α → α) (x : α) (xs : List α) :
    listModify f 0 (x :: xs) = f x :: xs := rfl

@[simp] theorem listModify_cons_succ {α : Type} (f : α → α) (n : Nat) (x : α) (xs : List α) :
    listModify f (n + 1) (x :: xs) = x :: listModify f n xs := rfl

theorem listModify_length {α : Type} (f : α → α) (n : Nat) (l : List α) :
    (listModify f n l).length = l.length := by
  induction l generalizing n with
  | nil => simp
  | cons x xs ih => cases n <;> simp [ih]

theorem listModify_getD_ne {α : Type} (f : α → α) (n m : Nat) (l : List α) (d : α)
    (h : n ≠ m) : (listModify f n l).getD m d = l.getD m d := by
  induction l generalizing n m with
  | nil => simp
  | cons x xs ih =>
    cases n with
    | zero => cases m with
      | zero => exact absurd rfl h
      | succ m => simp
    | succ n => cases m with
      | zero => simp
      | succ m => simpa using ih n m (by omega)

theorem listModify_getD_eq {α : Type} (f : α → α) (n : Nat) (l : List α) (d : α)
    (h : n < l.length) : (listModify f n l).getD n d = f (l.getD n d) := by
  induction l generalizing n with
  | nil => simp at h
  | cons x xs ih =>
    cases n with
    | zero => simp
    | succ n => simpa using ih n (by simpa using h)

@[simp] theorem Mir.setBlocks_basic_blocks (m : Mir) (bbs : List BasicBlockData) :
    (m.setBlocks bbs).basic_blocks = bbs := by cases m; rfl

@[simp] theorem Mir.setBlocks_promoted (m : Mir) (bbs : List BasicBlockData) :
    (m.setBlocks bbs).promoted = m.promoted := by cases m; rfl

@[simp] theorem Mir.setBlocks_return_ty (m : Mir) (bbs : List BasicBlockData) :
    (m.setBlocks bbs).return_ty = m.return_ty := by cases m; rfl

@[simp] theorem Mir.setBlocks_var_decls (m : Mir) (bbs : List BasicBlockData) :
    (m.setBlocks bbs).var_decls = m.var_decls := by cases m; rfl

@[simp] theorem Mir.setBlocks_temp_decls (m : Mir) (bbs : List BasicBlockData) :
    (m.setBlocks bbs).temp_decls = m.temp_decls := by cases m; rfl

@[simp] theorem Mir.setBlocks_span (m : Mir) (bbs : List BasicBlockData) :
    (m.setBlocks bbs).span = m.span := by cases m; rfl

@[simp] theorem Mir.pushPromoted_basic_blocks (m p : Mir) :
    (m.pushPromoted p).basic_blocks = m.basic_blocks := by cases m; rfl

@[simp] theorem Mir.pushPromoted_promoted (m p : Mir) :
    (m.pushPromoted p).promoted = m.promoted ++ [p] := by cases m; rfl

@[simp] theorem Mir.pushPromoted_temp_decls (m p : Mir) :
    (m.pushPromoted p).temp_decls = m.temp_decls := by cases m; rfl

@[simp] theorem Mir.pushTempDecl_basic_blocks (m : Mir) (d : TempDecl) :
    (m.pushTempDecl d).basic_blocks = m.basic_blocks := by cases m; rfl

@[simp] theorem Mir.pushTempDecl_promoted (m : Mir) (d : TempDecl) :
    (m.pushTempDecl d).promoted = m.promoted := by cases m; rfl

@[simp] theorem Mir.pushTempDecl_temp_decls (m : Mir) (d : TempDecl) :
    (m.pushTempDecl d).temp_decls = m.temp_decls ++ [d] := by cases m; rfl

@[simp] theorem Mir.pushTempDecl_span (m : Mir) (d : TempDecl) :
    (m.pushTempDecl d).span = m.span := by cases m; rfl

@[simp] theorem Mir.pushBlock_basic_blocks (m : Mir) (blk : BasicBlockData) :
    (m.pushBlock blk).basic_blocks = m.basic_blocks ++ [blk] := by cases m; rfl

@[simp] theorem Mir.pushBlock_promoted (m : Mir) (blk : BasicBlockData) :
    (m.pushBlock blk).promoted = m.promoted := by cases m; rfl

@[simp] theorem Mir.pushBlock_temp_decls (m : Mir) (blk : BasicBlockData) :
    (m.pushBlock blk).temp_decls = m.temp_decls := by cases m; rfl

@[simp] theorem Mir.pushBlock_span (m : Mir) (blk : BasicBlockData) :
    (m.pushBlock blk).span = m.span := by cases m; rfl

@[simp] theorem Mir.modifyBlock_basic_blocks (m : Mir) (bb : BasicBlock)
    (f : BasicBlockData → BasicBlockData) :
    (m.modifyBlock bb f).basic_blocks = listModify f bb m.basic_blocks := by
  simp [Mir.modifyBlock]

@[simp] theorem Mir.modifyBlock_promoted (m : Mir) (bb : BasicBlock)
    (f : BasicBlockData → BasicBlockData) :
    (m.modifyBlock bb f).promoted = m.promoted := by simp [Mir.modifyBlock]

@[simp] theorem Mir.modifyBlock_temp_decls (m : Mir) (bb : BasicBlock)
    (f : BasicBlockData → BasicBlockData) :
    (m.modifyBlock bb f).temp_decls = m.temp_decls := by simp [Mir.modifyBlock]

@[simp] theorem Mir.modifyBlock_span (m : Mir) (bb : BasicBlock)
    (f : BasicBlockData → BasicBlockData) :
    (m.modifyBlock bb f).span = m.span := by simp [Mir.modifyBlock]

@[simp] theorem promote_temp_zero :
    Promoter.promote_temp 0 = fun _ _ => (.error .OutOfFuel : PRes (Promoter × Nat)) :=
  rfl

@[simp] theorem promote_temp_succ (fuel : Nat) :
    Promoter.promote_temp (fuel + 1) = promoteTempBody (Promoter.promote_temp fuel) :=
  rfl

/-! ## Analyzer lemmas -/

theorem collectLvalue_drop (temps : List TempState) (loc : Location) (index : Nat) :
    collectLvalue temps loc (.Temp index) .Drop = temps := rfl

theorem collectLvalue_define (temps : List TempState) (loc : Location) (index : Nat)
    (ctx : LvalueContext) (hu : temps.getD index .Undefined = .Undefined)
    (hctx : ctx = .Store ∨ ctx = .Call) :
    collectLvalue temps loc (.Temp index) ctx = temps.set index (.Defined loc 0) := by
  rcases hctx with h | h <;> subst h <;>
    · simp only [collectLvalue, hu]
      simp

theorem collectLvalue_use (temps : List TempState) (loc : Location) (index : Nat)
    (ctx : LvalueContext) (l : Location) (u : Nat)
    (hd : temps.getD index .Undefined = .Defined l u)
    (hctx : ctx = .Borrow ∨ ctx = .Consume ∨ ctx = .Inspect) :
    collectLvalue temps loc (.Temp index) ctx = temps.set index (.Defined l (u + 1)) := by
  rcases hctx with h | h | h <;> subst h <;>
    · simp only [collectLvalue, hd]
      simp

theorem collectLvalue_unpromotable (temps : List TempState) (loc : Location)
    (index : Nat) (ctx : LvalueContext) (hdrop : ctx ≠ .Drop)
    (hdef : temps.getD index .Undefined = .Undefined → ctx ≠ .Store ∧ ctx ≠ .Call)
    (huse : ∀ l u, temps.getD index .Undefined = .Defined l u →
      ctx ≠ .Borrow ∧ ctx ≠ .Consume ∧ ctx ≠ .Inspect) :
    collectLvalue temps loc (.Temp index) ctx = temps.set index .Unpromotable := by
  rcases hst : temps.getD index .Undefined with _ | ⟨l, u⟩ | _ | _ <;> cases ctx <;>
    first
    | exact absurd rfl hdrop
    | exact absurd rfl (hdef hst).1
    | exact absurd rfl (hdef hst).2
    | exact absurd rfl (huse _ _ hst).1
    | exact absurd rfl (huse _ _ hst).2.1
    | exact absurd rfl (huse _ _ hst).2.2
    | (simp only [collectLvalue, hst]; simp)

/-! ## Sweep lemmas -/

theorem sweep_blockD (temps : List TempState) (mir : Mir) (bb : Nat)
    (h : bb < mir.basic_blocks.length) :
    (sweep temps mir).blockD bb = sweepBlock temps (mir.blockD bb) := by
  simp only [sweep, Mir.blockD, Mir.setBlocks_basic_blocks]
  rw [List.getD_eq_getElem?_getD, List.getElem?_map, List.getD_eq_getElem?_getD,
    List.getElem?_eq_getElem h]
  simp

theorem sweep_statements_filter (temps : List TempState) (mir : Mir) (bb : Nat)
    (h : bb < mir.basic_blocks.length) :
    ((sweep temps mir).blockD bb).statements =
      (mir.blockD bb).statements.filter fun statement =>
        match statement.kind with
        | .Assign (.Temp index) _ => ! isPromotedOut temps index
        | _ => true := by
  rw [sweep_blockD temps mir bb h]; rfl

theorem sweep_termAt (temps : List TempState) (mir : Mir) (bb : Nat)
    (h : bb < mir.basic_blocks.length) :
    termAt (sweep temps mir) bb = (sweepBlock temps (mir.blockD bb)).terminator := by
  rw [termAt, sweep_blockD temps mir bb h]

/-- C3: the analyzer classifies each occurrence of a temporary by context.
A drop-context occurrence leaves the table unchanged; a direct-store or
call-destination write on an `Undefined` entry makes it `Defined` at the
current position with zero uses; a borrow, consume or inspect occurrence on a
`Defined` entry increments its use count; any other combination makes the
entry `Unpromotable` (translated from `TempCollector::visit_lvalue`). -/
theorem C3_analyzer_classification (temps : List TempState) (loc : Location)
    (index : Nat) (ctx : LvalueContext) (h : index < temps.length) :
    (ctx = .Drop → collectLvalue temps loc (.Temp index) ctx = temps) ∧
    (temps.getD index .Undefined = .Undefined → (ctx = .Store ∨ ctx = .Call) →
      collectLvalue temps loc (.Temp index) ctx = temps.set index (.Defined loc 0)) ∧
    (∀ l u, temps.getD index .Undefined = .Defined l u →
      (ctx = .Borrow ∨ ctx = .Consume ∨ ctx = .Inspect) →
      collectLvalue temps loc (.Temp index) ctx = temps.set index (.Defined l (u + 1))) ∧
    (ctx ≠ .Drop →
      (temps.getD index .Undefined = .Undefined → ctx ≠ .Store ∧ ctx ≠ .Call) →
      (∀ l u, temps.getD index .Undefined = .Defined l u →
        ctx ≠ .Borrow ∧ ctx ≠ .Consume ∧ ctx ≠ .Inspect) →
      collectLvalue temps loc (.Temp index) ctx = temps.set index .Unpromotable) := by
  refine ⟨fun hctx => ?_, fun hu hctx => ?_, fun l u hd hctx => ?_,
    fun hdrop hdef huse => ?_⟩
  · subst hctx; exact collectLvalue_drop temps loc index
  · exact collectLvalue_define temps loc index ctx hu hctx
  · exact collectLvalue_use temps loc index ctx l u hd hctx
  · exact collectLvalue_unpromotable temps loc index ctx hdrop hdef huse

/-- A concrete instance of `C3_analyzer_classification`: a store into an
undefined temp defines it at the current position. -/
theorem C3_analyzer_classification_witness :
    collectLvalue [TempState.Undefined] ⟨0, 0⟩ (.Temp 0) .Store
      = [.Defined ⟨0, 0⟩ 0] := by
  have h := (C3_analyzer_classification [TempState.Undefined] ⟨0, 0⟩ 0 .Store
    (by decide)).2.1 rfl (Or.inl rfl)
  simpa using h

/-- C6: the cleanup sweep deletes exactly the assignments whose destination
temp is `PromotedOut`, rewrites exactly the drop terminators of `PromotedOut`
temps into plain gotos to the drop's target, and leaves every other statement
and terminator unchanged (translated from the closing loop of
`promote_candidates`). -/
theorem C6_cleanup_sweep (temps : List TempState) (mir : Mir) (bb : Nat)
    (h : bb < mir.basic_blocks.length) :
    (((sweep temps mir).blockD bb).statements =
      (mir.blockD bb).statements.filter fun statement =>
        match statement.kind with
        | .Assign (.Temp index) _ => ! isPromotedOut temps index
        | _ => true) ∧
    ((sweep temps mir).blockD bb).statements.Sublist (mir.blockD bb).statements ∧
    (∀ st ∈ (mir.blockD bb).statements,
      (st ∈ ((sweep temps mir).blockD bb).statements ↔
        ¬ ∃ index rv, st.kind = .Assign (.Temp index) rv ∧
            temps.getD index .Undefined = .PromotedOut)) ∧
    (∀ index target unwind,
      (termAt mir bb).kind = .Drop (.Temp index) target unwind →
      termAt (sweep temps mir) bb =
        (if temps.getD index .Undefined = .PromotedOut
         then { termAt mir bb with kind := .Goto target }
         else termAt mir bb)) ∧
    ((∀ index target unwind,
        (termAt mir bb).kind ≠ .Drop (.Temp index) target unwind) →
      termAt (sweep temps mir) bb = termAt mir bb) := by
  refine ⟨sweep_statements_filter temps mir bb h, ?_, ?_, ?_, ?_⟩
  · rw [sweep_statements_filter temps mir bb h]
    exact List.filter_sublist _
  · intro st hst
    rw [sweep_statements_filter temps mir bb h, List.mem_filter]
    constructor
    · rintro ⟨-, hpred⟩ ⟨index, rv, hkind, hpo⟩
      rw [hkind] at hpred
      simp only [isPromotedOut, hpo] at hpred
      simp at hpred
    · intro hno
      refine ⟨hst, ?_⟩
      rcases hk : st.kind with ⟨dest, rv⟩
      rcases dest with i | i | _
      · simp only [isPromotedOut]
        rcases hpo : temps.getD i .Undefined with _ | _ | _ | _ <;> try simp
        exact absurd ⟨i, rv, hk, hpo⟩ hno
      · simp
      · simp
  · intro index target unwind hdrop
    rw [sweep_termAt temps mir bb h]
    simp only [sweepBlock, termAt] at hdrop ⊢
    rw [hdrop]
    simp only [isPromotedOut]
    by_cases hpo : temps.getD index .Undefined = .PromotedOut
    · rw [if_pos (by rw [List.getD_eq_getElem?_getD] at hpo; simp [hpo]), if_pos hpo]
    · rw [if_neg (by rw [List.getD_eq_getElem?_getD] at hpo; simp [hpo]), if_neg hpo]
  · intro hno
    rw [sweep_termAt temps mir bb h]
    simp only [sweepBlock, termAt]
    rcases hk : (mir.blockD bb).terminator.kind with t | _ | _ | ⟨value, target, unwind⟩ | f
    · rfl
    · rfl
    · rfl
    · rcases value with i | i | _
      · exact absurd hk (hno i target unwind)
      · rfl
      · rfl
    · rfl

/-- A concrete instance of `C6_cleanup_sweep`, on scenario A before its
sweep: the assignment to the promoted-out `t0` is deleted. -/
theorem C6_cleanup_sweep_witness :
    ((sweep [TempState.PromotedOut] mirA).blockD 0).statements =
      (mirA.blockD 0).statements.filter fun statement =>
        match statement.kind with
        | .Assign (.Temp index) _ => ! isPromotedOut [TempState.PromotedOut] index
        | _ => true :=
  (C6_cleanup_sweep [TempState.PromotedOut] mirA 0 (by decide)).1
/-! ## Step-relation algebra -/

theorem getD_set_self {α : Type} (l : List α) (i : Nat) (x d : α) (h : i < l.length) :
    (l.set i x).getD i d = x := by
  rw [List.getD_eq_getElem?_getD, List.getElem?_set_eq_of_lt x h]
  rfl

theorem getD_set_other {α : Type} (l : List α) (i j : Nat) (x d : α) (h : i ≠ j) :
    (l.set i x).getD j d = l.getD j d := by
  rw [List.getD_eq_getElem?_getD, List.getElem?_set_ne h, ← List.getD_eq_getElem?_getD]

theorem tsLe_refl (s : TempState) : tsLe s s := by
  cases s with
  | Defined l u => exact ⟨rfl, le_rfl⟩
  | _ => trivial

theorem promoteEvolve_refl (t : List TempState) : promoteEvolve t t :=
  ⟨rfl, fun _ => .inl rfl⟩

theorem promoteEvolve_trans {a b c : List TempState}
    (h1 : promoteEvolve a b) (h2 : promoteEvolve b c) : promoteEvolve a c := by
  refine ⟨h2.1.trans h1.1, fun j => ?_⟩
  rcases h2.2 j with h | ⟨⟨l, u, hb⟩, hc⟩
  · rcases h1.2 j with h' | ⟨hd, hb'⟩
    · exact .inl (h.trans h')
    · exact .inr ⟨hd, h.trans hb'⟩
  · rcases h1.2 j with h' | ⟨hd, _⟩
    · exact .inr ⟨⟨l, u, h'.symm.trans hb⟩, hc⟩
    · exact .inr ⟨hd, hc⟩

theorem promoteEvolve_defined_back {a b : List TempState} (h : promoteEvolve a b)
    {j : Nat} {l : Location} {u : Nat}
    (hb : b.getD j .Undefined = .Defined l u) : a.getD j .Undefined = .Defined l u := by
  rcases h.2 j with h' | ⟨_, hpo⟩
  · exact h'.symm.trans hb
  · rw [hb] at hpo; cases hpo

theorem promoteEvolve_po_persist {a b : List TempState} (h : promoteEvolve a b)
    {j : Nat} (ha : a.getD j .Undefined = .PromotedOut) :
    b.getD j .Undefined = .PromotedOut := by
  rcases h.2 j with h' | ⟨_, hpo⟩
  · exact h'.trans ha
  · exact hpo

theorem promoteEvolve_unprom_persist {a b : List TempState} (h : promoteEvolve a b)
    {j : Nat} (ha : a.getD j .Undefined = .Unpromotable) :
    b.getD j .Undefined = .Unpromotable := by
  rcases h.2 j with h' | ⟨⟨l, u, hd⟩, _⟩
  · exact h'.trans ha
  · rw [ha] at hd; cases hd

theorem promoteEvolve_tsLe {a b : List TempState} (h : promoteEvolve a b) (j : Nat) :
    tsLe (a.getD j .Undefined) (b.getD j .Undefined) := by
  rcases h.2 j with h' | ⟨⟨l, u, hd⟩, hpo⟩
  · rw [h']; exact tsLe_refl _
  · rw [hd, hpo]; trivial

theorem SrcCore_refl (s : Promoter) : SrcCore s s := by
  refine ⟨promoteEvolve_refl _, rfl, rfl, rfl, rfl, rfl, fun _ => rfl,
    fun _ _ => .inl rfl, fun _ => .inl rfl, fun t l u hd hp => ?_⟩
  rw [hd] at hp
  cases hp

theorem SrcStep_refl (s : Promoter) : SrcStep s s := ⟨SrcCore_refl s, rfl⟩

theorem SrcCore_trans {a b c : Promoter} (h1 : SrcCore a b) (h2 : SrcCore b c) :
    SrcCore a c := by
  obtain ⟨e1, bl1, p1, td1, vd1, rt1, sl1, st1, tm1, fe1⟩ := h1
  obtain ⟨e2, bl2, p2, td2, vd2, rt2, sl2, st2, tm2, fe2⟩ := h2
  refine ⟨promoteEvolve_trans e1 e2, bl2.trans bl1, p2.trans p1,
    td2.trans td1, vd2.trans vd1, rt2.trans rt1, fun bb => (sl2 bb).trans (sl1 bb),
    ?_, ?_, ?_⟩
  · intro bb k
    rcases st2 bb k with h | ⟨sp2, sc2, kd2, t2, u2, hd2, hp2⟩
    · rcases st1 bb k with h' | ⟨sp1, sc1, kd1, t1, u1, hd1, hp1⟩
      · exact .inl (h.trans h')
      · refine .inr ⟨?_, ?_, ?_, t1, u1, hd1, promoteEvolve_po_persist e2 hp1⟩
        · rw [h]; exact sp1
        · rw [h]; exact sc1
        · rw [h]; exact kd1
    · rcases st1 bb k with h' | ⟨sp1, sc1, kd1, t1, u1, hd1, hp1⟩
      · refine .inr ⟨?_, ?_, ?_, t2, u2, promoteEvolve_defined_back e1 hd2, hp2⟩
        · rw [sp2, h']
        · rw [sc2, h']
        · rw [kd2, h']
      · refine .inr ⟨sp2.trans sp1, sc2.trans sc1, ?_, t1, u1, hd1,
          promoteEvolve_po_persist e2 hp1⟩
        rw [kd2, kd1]
        simp [StatementKind.destOf]
  · intro bb
    rcases tm2 bb with h | ⟨sp2, sc2, ⟨f2, a2, d2, tg2, c2, hb2, hc2⟩, t2, u2, k2, hk2, hd2, hp2⟩
    · rcases tm1 bb with h' | ⟨sp1, sc1, hg1, t1, u1, k1', hk1, hd1, hp1⟩
      · exact .inl (h.trans h')
      · refine .inr ⟨?_, ?_, ?_, t1, u1, k1', hk1, hd1, promoteEvolve_po_persist e2 hp1⟩
        · rw [h]; exact sp1
        · rw [h]; exact sc1
        · obtain ⟨f1, a1, d1, tg1, c1, hb1, hc1⟩ := hg1
          exact ⟨f1, a1, d1, tg1, c1, hb1, by rw [h]; exact hc1⟩
    · rcases tm1 bb with h' | ⟨sp1, sc1, ⟨f1, a1, d1, tg1, c1, hb1, hc1⟩, t1, u1, k1', hk1, hd1, hp1⟩
      · refine .inr ⟨?_, ?_, ⟨f2, a2, d2, tg2, c2, ?_, hc2⟩, t2, u2, k2, ?_,
          promoteEvolve_defined_back e1 hd2, hp2⟩
        · rw [sp2, h']
        · rw [sc2, h']
        · rw [← h']; exact hb2
        · rw [sl1 bb] at hk2; exact hk2
      · rw [hc1] at hb2
        cases hb2
  · intro t l u hda hpc
    rcases e1.2 t with hsame | ⟨-, hpb⟩
    · -- not flipped between a and b: still Defined in b, apply the second step
      have hdb : b.temps.getD t .Undefined = .Defined l u := hsame.trans hda
      have := fe2 t l u hdb hpc
      constructor
      · intro hlt
        exact this.1 (by rw [sl1 l.block]; exact hlt)
      · intro hge
        exact this.2 (by rw [sl1 l.block]; exact hge)
    · -- flipped already in b: site emptied in b, preserved into c
      have hfe := fe1 t l u hda hpb
      constructor
      · intro hlt
        have hmid := hfe.1 hlt
        rcases st2 l.block l.statement_index with heq | ⟨-, -, hkd, -⟩
        · rw [heq]; exact hmid
        · rw [hkd]
          simp [StatementKind.rhsOf, rvReadTemps, opsReadTemps]
      · intro hge
        obtain ⟨target, hmid⟩ := hfe.2 hge
        rcases tm2 l.block with heq | ⟨-, -, ⟨f2, a2, d2, tg2, c2, hb2, -⟩, -⟩
        · exact ⟨target, by rw [heq]; exact hmid⟩
        · rw [hmid] at hb2
          cases hb2

theorem SrcStep_trans {a b c : Promoter} (h1 : SrcStep a b) (h2 : SrcStep b c) :
    SrcStep a c :=
  ⟨SrcCore_trans h1.1 h2.1, h2.2.trans h1.2⟩
/-! ## Effect of the primitive mutations -/

@[simp] theorem Mir.modifyBlock_var_decls (m : Mir) (bb : BasicBlock)
    (f : BasicBlockData → BasicBlockData) :
    (m.modifyBlock bb f).var_decls = m.var_decls := by simp [Mir.modifyBlock]

@[simp] theorem Mir.modifyBlock_return_ty (m : Mir) (bb : BasicBlock)
    (f : BasicBlockData → BasicBlockData) :
    (m.modifyBlock bb f).return_ty = m.return_ty := by simp [Mir.modifyBlock]

@[simp] theorem Mir.pushPromoted_var_decls (m p : Mir) :
    (m.pushPromoted p).var_decls = m.var_decls := by cases m; rfl

@[simp] theorem Mir.pushPromoted_return_ty (m p : Mir) :
    (m.pushPromoted p).return_ty = m.return_ty := by cases m; rfl

@[simp] theorem Mir.pushPromoted_span (m p : Mir) :
    (m.pushPromoted p).span = m.span := by cases m; rfl

@[simp] theorem Mir.pushTempDecl_var_decls (m : Mir) (d : TempDecl) :
    (m.pushTempDecl d).var_decls = m.var_decls := by cases m; rfl

@[simp] theorem Mir.pushTempDecl_return_ty (m : Mir) (d : TempDecl) :
    (m.pushTempDecl d).return_ty = m.return_ty := by cases m; rfl

@[simp] theorem Mir.pushBlock_var_decls (m : Mir) (blk : BasicBlockData) :
    (m.pushBlock blk).var_decls = m.var_decls := by cases m; rfl

@[simp] theorem Mir.pushBlock_return_ty (m : Mir) (blk : BasicBlockData) :
    (m.pushBlock blk).return_ty = m.return_ty := by cases m; rfl

theorem listModify_getD_any {α : Type} (f : α → α) (n m : Nat) (l : List α) (d : α) :
    (listModify f n l).getD m d =
      if m = n ∧ n < l.length then f (l.getD n d) else l.getD m d := by
  by_cases h : m = n
  · subst h
    by_cases hl : m < l.length
    · rw [listModify_getD_eq f m l d hl, if_pos ⟨rfl, hl⟩]
    · rw [if_neg (by tauto)]
      rw [List.getD_eq_default _ _ (by rw [listModify_length]; omega),
        List.getD_eq_default _ _ (by omega)]
  · rw [listModify_getD_ne f n m l d (fun hh => h hh.symm), if_neg (by tauto)]

theorem blockD_modifyBlock (m : Mir) (bb bb' : BasicBlock)
    (f : BasicBlockData → BasicBlockData) :
    (m.modifyBlock bb f).blockD bb' =
      if bb' = bb ∧ bb < m.basic_blocks.length then f (m.blockD bb)
      else m.blockD bb' := by
  simp only [Mir.blockD, Mir.modifyBlock_basic_blocks]
  exact listModify_getD_any f bb bb' m.basic_blocks default

theorem rhsSet_eq (rv : Rvalue) (st : Statement) :
    rhsSet rv st = { st with kind := .Assign st.kind.destOf rv } := by
  cases hk : st.kind
  rw [rhsSet, hk]
  rfl

theorem setStmtRhs_blockD (m : Mir) (bb k : Nat) (rv : Rvalue) (bb' : BasicBlock) :
    (m.setStmtRhs bb k rv).blockD bb' =
      if bb' = bb ∧ bb < m.basic_blocks.length then
        { m.blockD bb with statements := listModify (rhsSet rv) k (m.blockD bb).statements }
      else m.blockD bb' := by
  rw [Mir.setStmtRhs, blockD_modifyBlock]

theorem setStmtRhs_stmts_len (m : Mir) (bb k : Nat) (rv : Rvalue) (bb' : BasicBlock) :
    ((m.setStmtRhs bb k rv).blockD bb').statements.length
      = (m.blockD bb').statements.length := by
  rw [setStmtRhs_blockD]
  split
  · rcases ‹bb' = bb ∧ _› with ⟨h, _⟩
    subst h
    simp [listModify_length]
  · rfl

theorem setStmtRhs_blocks_len (m : Mir) (bb k : Nat) (rv : Rvalue) :
    (m.setStmtRhs bb k rv).basic_blocks.length = m.basic_blocks.length := by
  simp [Mir.setStmtRhs, listModify_length]

theorem setStmtRhs_termAt (m : Mir) (bb k : Nat) (rv : Rvalue) (bb' : BasicBlock) :
    termAt (m.setStmtRhs bb k rv) bb' = termAt m bb' := by
  rw [termAt, termAt, setStmtRhs_blockD]
  split
  · rcases ‹bb' = bb ∧ _› with ⟨h, _⟩
    subst h
    rfl
  · rfl

theorem setStmtRhs_stmtAt (m : Mir) (bb k : Nat) (rv : Rvalue) (bb' k' : Nat) :
    stmtAt (m.setStmtRhs bb k rv) bb' k' =
      if bb' = bb ∧ bb < m.basic_blocks.length ∧ k' = k ∧
          k < (m.blockD bb).statements.length then
        { stmtAt m bb k with kind := .Assign (stmtAt m bb k).kind.destOf rv }
      else stmtAt m bb' k' := by
  rw [stmtAt, setStmtRhs_blockD]
  by_cases hb : bb' = bb ∧ bb < m.basic_blocks.length
  · rw [if_pos hb]
    rcases hb with ⟨hbb, hlen⟩
    subst hbb
    show (listModify (rhsSet rv) k (m.blockD bb').statements).getD k' default = _
    rw [listModify_getD_any]
    by_cases hk : k' = k ∧ k < (m.blockD bb').statements.length
    · rw [if_pos hk, if_pos ⟨rfl, hlen, hk.1, hk.2⟩, rhsSet_eq]
      rfl
    · rw [if_neg hk, if_neg (by tauto)]
      rfl
  · rw [if_neg hb, if_neg (by tauto)]
    rfl

theorem setTermKind_blockD (m : Mir) (bb : BasicBlock) (kind : TerminatorKind)
    (bb' : BasicBlock) :
    (m.setTermKind bb kind).blockD bb' =
      if bb' = bb ∧ bb < m.basic_blocks.length then
        { m.blockD bb with terminator := { (m.blockD bb).terminator with kind := kind } }
      else m.blockD bb' := by
  rw [Mir.setTermKind, blockD_modifyBlock]

theorem setTermKind_stmtAt (m : Mir) (bb : BasicBlock) (kind : TerminatorKind)
    (bb' k' : Nat) : stmtAt (m.setTermKind bb kind) bb' k' = stmtAt m bb' k' := by
  rw [stmtAt, stmtAt, setTermKind_blockD]
  split
  · rcases ‹bb' = bb ∧ _› with ⟨h, _⟩
    subst h
    rfl
  · rfl

theorem setTermKind_stmts_len (m : Mir) (bb : BasicBlock) (kind : TerminatorKind)
    (bb' : BasicBlock) :
    ((m.setTermKind bb kind).blockD bb').statements.length
      = (m.blockD bb').statements.length := by
  rw [setTermKind_blockD]
  split
  · rcases ‹bb' = bb ∧ _› with ⟨h, _⟩
    subst h
    rfl
  · rfl

theorem setTermKind_blocks_len (m : Mir) (bb : BasicBlock) (kind : TerminatorKind) :
    (m.setTermKind bb kind).basic_blocks.length = m.basic_blocks.length := by
  simp [Mir.setTermKind, listModify_length]

theorem setTermKind_termAt (m : Mir) (bb : BasicBlock) (kind : TerminatorKind)
    (bb' : BasicBlock) :
    termAt (m.setTermKind bb kind) bb' =
      if bb' = bb ∧ bb < m.basic_blocks.length then
        { termAt m bb with kind := kind }
      else termAt m bb' := by
  rw [termAt, termAt, setTermKind_blockD]
  split
  · rcases ‹bb' = bb ∧ _› with ⟨h, _⟩
    subst h
    rfl
  · rfl

theorem promoteEvolve_set_po (temps : List TempState) (index : Nat) (l : Location)
    (u : Nat) (hdef : temps.getD index .Undefined = .Defined l u) :
    promoteEvolve temps (temps.set index .PromotedOut) := by
  refine ⟨List.length_set temps index _, fun j => ?_⟩
  by_cases hj : j = index
  · subst hj
    by_cases hlen : j < temps.length
    · exact .inr ⟨⟨l, u, hdef⟩, getD_set_self temps j _ _ hlen⟩
    · left
      rw [List.set_eq_of_length_le (by omega)]
  · left
    exact getD_set_other temps index j _ _ (fun hh => hj hh.symm)
theorem SrcCore_eq (s s' : Promoter) (hsrc : s'.source = s.source)
    (htm : s'.temps = s.temps) : SrcCore s s' := by
  refine ⟨htm ▸ promoteEvolve_refl _, by rw [hsrc], by rw [hsrc], by rw [hsrc],
    by rw [hsrc], by rw [hsrc], fun bb => by rw [hsrc],
    fun bb k => .inl (by rw [hsrc]), fun bb => .inl (by rw [hsrc]),
    fun t l u hd hp => ?_⟩
  rw [htm, hd] at hp
  cases hp

theorem getD_defined_lt (temps : List TempState) (index : Nat) (l : Location)
    (u : Nat) (hdef : temps.getD index .Undefined = .Defined l u) :
    index < temps.length := by
  by_contra hge
  rw [List.getD_eq_default _ _ (by omega)] at hdef
  cases hdef

theorem SrcCore_move_stmt (s s' : Promoter) (index bb k u : Nat)
    (hdef : s.temps.getD index .Undefined = .Defined ⟨bb, k⟩ u)
    (hk : k < (s.source.blockD bb).statements.length)
    (hsrc : s'.source = s.source.setStmtRhs bb k (.Aggregate .Tuple []))
    (htm : s'.temps = s.temps.set index .PromotedOut) : SrcCore s s' := by
  have hidx : index < s.temps.length := getD_defined_lt _ _ _ _ hdef
  have hbb : bb < s.source.basic_blocks.length := by
    by_contra hge
    rw [Mir.blockD, List.getD_eq_default _ _ (by omega)] at hk
    simp [default] at hk
  refine ⟨htm ▸ promoteEvolve_set_po _ _ _ _ hdef, by rw [hsrc, setStmtRhs_blocks_len],
    by rw [hsrc]; simp [Mir.setStmtRhs], by rw [hsrc]; simp [Mir.setStmtRhs],
    by rw [hsrc]; simp [Mir.setStmtRhs], by rw [hsrc]; simp [Mir.setStmtRhs],
    fun bb' => by rw [hsrc, setStmtRhs_stmts_len], ?_, ?_, ?_⟩
  · intro bb' k'
    rw [hsrc, setStmtRhs_stmtAt]
    split
    case isTrue hcond =>
      obtain ⟨hbb', hblen, hkk, hklen⟩ := hcond
      subst hbb'
      subst hkk
      refine .inr ⟨rfl, rfl, rfl, index, u, hdef, ?_⟩
      rw [htm]
      exact getD_set_self _ _ _ _ hidx
    case isFalse hcond => exact .inl rfl
  · intro bb'
    exact .inl (by rw [hsrc, setStmtRhs_termAt])
  · intro t l u' hd hp
    by_cases ht : t = index
    · subst ht
      rw [hdef] at hd
      injection hd with hd1 hd2
      subst hd1
      constructor
      · intro _
        rw [hsrc, setStmtRhs_stmtAt, if_pos ⟨rfl, hbb, rfl, hk⟩]
        simp [StatementKind.rhsOf, rvReadTemps, opsReadTemps]
      · intro hge
        exact absurd hk (not_lt.mpr hge)
    · rw [htm, getD_set_other _ _ _ _ _ (fun hh => ht hh.symm), hd] at hp
      cases hp

theorem SrcCore_move_call (s s' : Promoter) (index bb k u : Nat) (func : Operand)
    (args : List Operand) (dlv : Lvalue) (target : BasicBlock)
    (cl : Option BasicBlock)
    (hdef : s.temps.getD index .Undefined = .Defined ⟨bb, k⟩ u)
    (hk : (s.source.blockD bb).statements.length ≤ k)
    (hterm : (s.source.blockD bb).terminator.kind
      = .Call func args (some (dlv, target)) cl)
    (hsrc : s'.source = s.source.setTermKind bb (.Goto target))
    (htm : s'.temps = s.temps.set index .PromotedOut) : SrcCore s s' := by
  have hidx : index < s.temps.length := getD_defined_lt _ _ _ _ hdef
  refine ⟨htm ▸ promoteEvolve_set_po _ _ _ _ hdef, by rw [hsrc, setTermKind_blocks_len],
    by rw [hsrc]; simp [Mir.setTermKind], by rw [hsrc]; simp [Mir.setTermKind],
    by rw [hsrc]; simp [Mir.setTermKind], by rw [hsrc]; simp [Mir.setTermKind],
    fun bb' => by rw [hsrc, setTermKind_stmts_len], ?_, ?_, ?_⟩
  · intro bb' k'
    exact .inl (by rw [hsrc, setTermKind_stmtAt])
  · intro bb'
    rw [hsrc, setTermKind_termAt]
    split
    case isTrue hcond =>
      obtain ⟨hbb, hblen⟩ := hcond
      subst hbb
      refine .inr ⟨rfl, rfl, ⟨func, args, dlv, target, cl, hterm, rfl⟩,
        index, u, k, hk, hdef, ?_⟩
      rw [htm]
      exact getD_set_self _ _ _ _ hidx
    case isFalse hcond => exact .inl rfl
  · intro t l u' hd hp
    by_cases ht : t = index
    · subst ht
      rw [hdef] at hd
      injection hd with hd1 hd2
      subst hd1
      have hbb : bb < s.source.basic_blocks.length := by
        by_contra hge
        rw [Mir.blockD, List.getD_eq_default _ _ (by omega)] at hterm
        cases hterm
      constructor
      · intro hlt
        exact absurd hlt (not_lt.mpr hk)
      · intro _
        rw [hsrc, setTermKind_termAt, if_pos ⟨rfl, hbb⟩]
        exact ⟨target, rfl⟩
    · rw [htm, getD_set_other _ _ _ _ _ (fun hh => ht hh.symm), hd] at hp
      cases hp

/-! ## Monadic plumbing -/

theorem bind_ok_iff {α β : Type} (x : PRes α) (f : α → PRes β) (b : β) :
    (x >>= f) = .ok b ↔ ∃ a, x = .ok a ∧ f a = .ok b := by
  cases x <;> simp [Bind.bind, Except.bind]

theorem pure_ok_iff {α : Type} (a b : α) :
    (pure a : PRes α) = .ok b ↔ a = b := by
  simp [pure, Except.pure]
/-! ## The rewriting visitor preserves the step relation -/

theorem pvLvalue_step (pt : PTFun)
    (hpt : ∀ s i s' n, pt s i = .ok (s', n) → SrcStep s s') :
    ∀ s lv s' lv', pvLvalue pt s lv = .ok (s', lv') → SrcStep s s' := by
  intro s lv s' lv' h
  cases lv with
  | Temp index =>
    simp only [pvLvalue] at h
    rw [bind_ok_iff] at h
    obtain ⟨⟨s1, n⟩, hp, hrest⟩ := h
    simp only [pure_ok_iff, Prod.mk.injEq] at hrest
    obtain ⟨h1, -⟩ := hrest
    subst h1
    exact hpt s index _ n hp
  | Var index =>
    simp only [pvLvalue, pure_ok_iff, Prod.mk.injEq] at h
    obtain ⟨h1, -⟩ := h
    subst h1
    exact SrcStep_refl _
  | ReturnPointer =>
    simp only [pvLvalue, pure_ok_iff, Prod.mk.injEq] at h
    obtain ⟨h1, -⟩ := h
    subst h1
    exact SrcStep_refl _

theorem pvOperand_step (pt : PTFun)
    (hpt : ∀ s i s' n, pt s i = .ok (s', n) → SrcStep s s') :
    ∀ s op s' op', pvOperand pt s op = .ok (s', op') → SrcStep s s' := by
  intro s op s' op' h
  cases op with
  | Consume lv =>
    simp only [pvOperand] at h
    rw [bind_ok_iff] at h
    obtain ⟨⟨s1, lv1⟩, hp, hrest⟩ := h
    simp only [pure_ok_iff, Prod.mk.injEq] at hrest
    obtain ⟨h1, -⟩ := hrest
    subst h1
    exact pvLvalue_step pt hpt s lv _ lv1 hp
  | Constant c =>
    simp only [pvOperand, pure_ok_iff, Prod.mk.injEq] at h
    obtain ⟨h1, -⟩ := h
    subst h1
    exact SrcStep_refl _

theorem pvOperands_step (pt : PTFun)
    (hpt : ∀ s i s' n, pt s i = .ok (s', n) → SrcStep s s') :
    ∀ ops s s' ops', pvOperands pt s ops = .ok (s', ops') → SrcStep s s' := by
  intro ops
  induction ops with
  | nil =>
    intro s s' ops' h
    simp only [pvOperands, pure_ok_iff, Prod.mk.injEq] at h
    obtain ⟨h1, -⟩ := h
    subst h1
    exact SrcStep_refl _
  | cons op rest ih =>
    intro s s' ops' h
    simp only [pvOperands] at h
    rw [bind_ok_iff] at h
    obtain ⟨⟨s1, op1⟩, h1, h⟩ := h
    rw [bind_ok_iff] at h
    obtain ⟨⟨s2, rest1⟩, h2, h⟩ := h
    simp only [pure_ok_iff, Prod.mk.injEq] at h
    obtain ⟨h3, -⟩ := h
    subst h3
    exact SrcStep_trans (pvOperand_step pt hpt s op s1 op1 h1) (ih s1 _ rest1 h2)

theorem pvRvalue_step (pt : PTFun)
    (hpt : ∀ s i s' n, pt s i = .ok (s', n) → SrcStep s s') :
    ∀ s rv s' rv', pvRvalue pt s rv = .ok (s', rv') → SrcStep s s' := by
  intro s rv s' rv' h
  cases rv with
  | Use op =>
    simp only [pvRvalue] at h
    rw [bind_ok_iff] at h
    obtain ⟨⟨s1, op1⟩, h1, h⟩ := h
    simp only [pure_ok_iff, Prod.mk.injEq] at h
    obtain ⟨h2, -⟩ := h
    subst h2
    exact pvOperand_step pt hpt s op _ op1 h1
  | Ref k lv =>
    simp only [pvRvalue] at h
    rw [bind_ok_iff] at h
    obtain ⟨⟨s1, lv1⟩, h1, h⟩ := h
    simp only [pure_ok_iff, Prod.mk.injEq] at h
    obtain ⟨h2, -⟩ := h
    subst h2
    exact pvLvalue_step pt hpt s lv _ lv1 h1
  | Len lv =>
    simp only [pvRvalue] at h
    rw [bind_ok_iff] at h
    obtain ⟨⟨s1, lv1⟩, h1, h⟩ := h
    simp only [pure_ok_iff, Prod.mk.injEq] at h
    obtain ⟨h2, -⟩ := h
    subst h2
    exact pvLvalue_step pt hpt s lv _ lv1 h1
  | BinaryOp op a b =>
    simp only [pvRvalue] at h
    rw [bind_ok_iff] at h
    obtain ⟨⟨s1, a1⟩, h1, h⟩ := h
    rw [bind_ok_iff] at h
    obtain ⟨⟨s2, b1⟩, h2, h⟩ := h
    simp only [pure_ok_iff, Prod.mk.injEq] at h
    obtain ⟨h3, -⟩ := h
    subst h3
    exact SrcStep_trans (pvOperand_step pt hpt s a s1 a1 h1)
      (pvOperand_step pt hpt s1 b _ b1 h2)
  | Aggregate k ops =>
    simp only [pvRvalue] at h
    rw [bind_ok_iff] at h
    obtain ⟨⟨s1, ops1⟩, h1, h⟩ := h
    simp only [pure_ok_iff, Prod.mk.injEq] at h
    obtain ⟨h2, -⟩ := h
    subst h2
    exact pvOperands_step pt hpt ops s _ ops1 h1

theorem pvTermKind_step (pt : PTFun)
    (hpt : ∀ s i s' n, pt s i = .ok (s', n) → SrcStep s s') :
    ∀ s kind s' kind', pvTermKind pt s kind = .ok (s', kind') → SrcStep s s' := by
  intro s kind s' kind' h
  cases kind with
  | Call func args dest cleanup =>
    simp only [pvTermKind] at h
    rw [bind_ok_iff] at h
    obtain ⟨⟨s1, f1⟩, h1, h⟩ := h
    rw [bind_ok_iff] at h
    obtain ⟨⟨s2, a1⟩, h2, h⟩ := h
    simp only [pure_ok_iff, Prod.mk.injEq] at h
    obtain ⟨h3, -⟩ := h
    subst h3
    exact SrcStep_trans (pvOperand_step pt hpt s func s1 f1 h1)
      (pvOperands_step pt hpt args s1 _ a1 h2)
  | Drop value target unwind =>
    simp only [pvTermKind] at h
    rw [bind_ok_iff] at h
    obtain ⟨⟨s1, v1⟩, h1, h⟩ := h
    simp only [pure_ok_iff, Prod.mk.injEq] at h
    obtain ⟨h2, -⟩ := h
    subst h2
    exact pvLvalue_step pt hpt s value _ v1 h1
  | Goto target =>
    simp only [pvTermKind, pure_ok_iff, Prod.mk.injEq] at h
    obtain ⟨h1, -⟩ := h
    subst h1
    exact SrcStep_refl _
  | Return =>
    simp only [pvTermKind, pure_ok_iff, Prod.mk.injEq] at h
    obtain ⟨h1, -⟩ := h
    subst h1
    exact SrcStep_refl _
  | Resume =>
    simp only [pvTermKind, pure_ok_iff, Prod.mk.injEq] at h
    obtain ⟨h1, -⟩ := h
    subst h1
    exact SrcStep_refl _

/-! ## The extraction engine satisfies the step relation -/

theorem ptEnter_source (s0 : Promoter) (index uses : Nat) :
    (ptEnter s0 index uses).source = s0.source := by
  by_cases h : uses > 1 <;> by_cases h2 : s0.keep_original <;> simp [ptEnter, h, h2]

theorem ptEnter_promoted (s0 : Promoter) (index uses : Nat) :
    (ptEnter s0 index uses).promoted = s0.promoted := by
  by_cases h : uses > 1 <;> by_cases h2 : s0.keep_original <;> simp [ptEnter, h, h2]

theorem ptEnter_keep (s0 : Promoter) (index uses : Nat) :
    (ptEnter s0 index uses).keep_original = (decide (uses > 1) || s0.keep_original) := by
  by_cases h : uses > 1 <;> by_cases h2 : s0.keep_original <;> simp [ptEnter, h, h2]

theorem ptEnter_temps_of_keep (s0 : Promoter) (index uses : Nat)
    (h : (decide (uses > 1) || s0.keep_original) = true) :
    (ptEnter s0 index uses).temps = s0.temps := by
  rcases Bool.or_eq_true_iff.mp h with h1 | h1
  · simp [ptEnter, of_decide_eq_true h1]
  · by_cases hu : uses > 1 <;> simp [ptEnter, hu, h1]

theorem ptEnter_temps_of_move (s0 : Promoter) (index uses : Nat)
    (h : (decide (uses > 1) || s0.keep_original) = false) :
    (ptEnter s0 index uses).temps = s0.temps.set index .PromotedOut := by
  rcases Bool.or_eq_false_iff.mp h with ⟨h1, h2⟩
  simp [ptEnter, of_decide_eq_false h1, h2]

theorem promoteTempBody_step (pt : PTFun)
    (hpt : ∀ s i s' n, pt s i = .ok (s', n) → SrcStep s s') :
    ∀ s index s' n, promoteTempBody pt s index = .ok (s', n) → SrcStep s s' := by
  intro s0 index s' n h
  simp only [promoteTempBody] at h
  split at h
  case h_2 => simp at h
  case h_1 bb stmt_idx uses heq =>
    split at h
    case isFalse => simp at h
    case isTrue hu0 =>
      split at h
      case isTrue hlt =>
        -- statement case
        by_cases hko : (ptEnter s0 index uses).keep_original = true
        · rw [if_pos hko] at h
          rw [bind_ok_iff] at h
          obtain ⟨⟨s4, rv4⟩, hpv, hrest⟩ := h
          simp only [pure_ok_iff, Prod.mk.injEq] at hrest
          obtain ⟨hs', -⟩ := hrest
          subst hs'
          have hcore0 : SrcCore s0 (ptEnter s0 index uses) :=
            SrcCore_eq _ _ (ptEnter_source s0 index uses)
              (ptEnter_temps_of_keep s0 index uses (by rw [← ptEnter_keep]; exact hko))
          have hpv' := pvRvalue_step pt hpt _ _ s4 rv4 hpv
          exact ⟨SrcCore_trans (SrcCore_trans hcore0 hpv'.1) (SrcCore_eq _ _ rfl rfl), rfl⟩
        · rw [if_neg hko] at h
          rw [bind_ok_iff] at h
          obtain ⟨⟨s4, rv4⟩, hpv, hrest⟩ := h
          simp only [pure_ok_iff, Prod.mk.injEq] at hrest
          obtain ⟨hs', -⟩ := hrest
          subst hs'
          have hkb : (decide (uses > 1) || s0.keep_original) = false := by
            rw [← ptEnter_keep]
            simpa using hko
          have hpv' := pvRvalue_step pt hpt _ _ s4 rv4 hpv
          refine ⟨SrcCore_trans (SrcCore_trans ?_ hpv'.1) (SrcCore_eq _ _ rfl rfl), rfl⟩
          refine SrcCore_move_stmt _ _ index bb stmt_idx uses heq
            (by rw [← ptEnter_source s0 index uses]; exact hlt) ?_ ?_
          · show (ptEnter s0 index uses).source.setStmtRhs bb stmt_idx _ = _
            rw [ptEnter_source]
          · show (ptEnter s0 index uses).temps = _
            exact ptEnter_temps_of_move s0 index uses hkb
      case isFalse hge =>
        by_cases hko : (ptEnter s0 index uses).keep_original = true
        · rw [if_pos hko] at h
          rw [bind_ok_iff] at h
          obtain ⟨y, hy, h⟩ := h
          rw [pure_ok_iff] at hy
          subst hy
          rw [bind_ok_iff] at h
          obtain ⟨⟨s4, call4⟩, hpv, h⟩ := h
          split at h
          next func args dest cleanup heqc =>
            simp only [pure_ok_iff, Prod.mk.injEq] at h
            obtain ⟨hs', -⟩ := h
            subst hs'
            have hpv' := pvTermKind_step pt hpt _ _ s4 _ hpv
            have hcore0 : SrcCore s0 (ptEnter s0 index uses) :=
              SrcCore_eq _ _ (ptEnter_source s0 index uses)
                (ptEnter_temps_of_keep s0 index uses (by rw [← ptEnter_keep]; exact hko))
            exact ⟨SrcCore_trans (SrcCore_trans hcore0 hpv'.1) (SrcCore_eq _ _ rfl rfl), rfl⟩
          next => simp at h
        · rw [if_neg hko] at h
          have hkb : (decide (uses > 1) || s0.keep_original) = false := by
            rw [← ptEnter_keep]
            simpa using hko
          split at h
          next f a dlv target cl heqt =>
            rw [bind_ok_iff] at h
            obtain ⟨y, hy, h⟩ := h
            rw [pure_ok_iff] at hy
            subst hy
            rw [bind_ok_iff] at h
            obtain ⟨⟨s4, call4⟩, hpv, h⟩ := h
            split at h
            next func args dest cleanup heqc =>
              simp only [pure_ok_iff, Prod.mk.injEq] at h
              obtain ⟨hs', -⟩ := h
              subst hs'
              have hpv' := pvTermKind_step pt hpt _ _ s4 _ hpv
              refine ⟨SrcCore_trans (SrcCore_trans ?_ hpv'.1) (SrcCore_eq _ _ rfl rfl), rfl⟩
              refine SrcCore_move_call _ _ index bb stmt_idx uses f a dlv target cl heq
                (by rw [← ptEnter_source s0 index uses]; omega) ?_ ?_ ?_
              · rw [← ptEnter_source s0 index uses]
                exact heqt
              · show (ptEnter s0 index uses).source.setTermKind bb (.Goto target) = _
                rw [ptEnter_source]
              · show (ptEnter s0 index uses).temps = _
                exact ptEnter_temps_of_move s0 index uses hkb
            next => simp at h
          next =>
            rw [bind_ok_iff] at h
            obtain ⟨y, hy, -⟩ := h
            simp at hy

theorem promote_temp_step :
    ∀ fuel s index s' n, Promoter.promote_temp fuel s index = .ok (s', n) → SrcStep s s' := by
  intro fuel
  induction fuel with
  | zero =>
    intro s index s' n h
    rw [promote_temp_zero] at h
    cases h
  | succ fuel ih =>
    intro s index s' n h
    rw [promote_temp_succ] at h
    exact promoteTempBody_step _ ih s index s' n h
/-! ## Under `keep_original` the engine only duplicates -/

theorem KeepStep_refl (s : Promoter) : KeepStep s s := ⟨rfl, rfl, rfl, le_rfl⟩

theorem KeepStep_trans {a b c : Promoter} (h1 : KeepStep a b) (h2 : KeepStep b c) :
    KeepStep a c :=
  ⟨h2.1.trans h1.1, h2.2.1.trans h1.2.1, h2.2.2.1.trans h1.2.2.1,
   h1.2.2.2.trans h2.2.2.2⟩

theorem pvLvalue_keep (pt : PTFun)
    (hpt : ∀ s i s' n, s.keep_original = true → pt s i = .ok (s', n) → KeepStep s s') :
    ∀ s lv s' lv', s.keep_original = true → pvLvalue pt s lv = .ok (s', lv') →
      KeepStep s s' := by
  intro s lv s' lv' hk h
  cases lv with
  | Temp index =>
    simp only [pvLvalue] at h
    rw [bind_ok_iff] at h
    obtain ⟨⟨s1, n⟩, hp, hrest⟩ := h
    simp only [pure_ok_iff, Prod.mk.injEq] at hrest
    obtain ⟨h1, -⟩ := hrest
    subst h1
    exact hpt s index _ n hk hp
  | Var index =>
    simp only [pvLvalue, pure_ok_iff, Prod.mk.injEq] at h
    obtain ⟨h1, -⟩ := h
    subst h1
    exact KeepStep_refl _
  | ReturnPointer =>
    simp only [pvLvalue, pure_ok_iff, Prod.mk.injEq] at h
    obtain ⟨h1, -⟩ := h
    subst h1
    exact KeepStep_refl _

theorem pvOperand_keep (pt : PTFun)
    (hpt : ∀ s i s' n, s.keep_original = true → pt s i = .ok (s', n) → KeepStep s s') :
    ∀ s op s' op', s.keep_original = true → pvOperand pt s op = .ok (s', op') →
      KeepStep s s' := by
  intro s op s' op' hk h
  cases op with
  | Consume lv =>
    simp only [pvOperand] at h
    rw [bind_ok_iff] at h
    obtain ⟨⟨s1, lv1⟩, hp, hrest⟩ := h
    simp only [pure_ok_iff, Prod.mk.injEq] at hrest
    obtain ⟨h1, -⟩ := hrest
    subst h1
    exact pvLvalue_keep pt hpt s lv _ lv1 hk hp
  | Constant c =>
    simp only [pvOperand, pure_ok_iff, Prod.mk.injEq] at h
    obtain ⟨h1, -⟩ := h
    subst h1
    exact KeepStep_refl _

theorem pvOperands_keep (pt : PTFun)
    (hpt : ∀ s i s' n, s.keep_original = true → pt s i = .ok (s', n) → KeepStep s s') :
    ∀ ops s s' ops', s.keep_original = true → pvOperands pt s ops = .ok (s', ops') →
      KeepStep s s' := by
  intro ops
  induction ops with
  | nil =>
    intro s s' ops' hk h
    simp only [pvOperands, pure_ok_iff, Prod.mk.injEq] at h
    obtain ⟨h1, -⟩ := h
    subst h1
    exact KeepStep_refl _
  | cons op rest ih =>
    intro s s' ops' hk h
    simp only [pvOperands] at h
    rw [bind_ok_iff] at h
    obtain ⟨⟨s1, op1⟩, h1, h⟩ := h
    rw [bind_ok_iff] at h
    obtain ⟨⟨s2, rest1⟩, h2, h⟩ := h
    simp only [pure_ok_iff, Prod.mk.injEq] at h
    obtain ⟨h3, -⟩ := h
    subst h3
    have k1 := pvOperand_keep pt hpt s op s1 op1 hk h1
    have k2 := ih s1 _ rest1 (k1.2.2.1.trans hk) h2
    exact KeepStep_trans k1 k2

theorem pvRvalue_keep (pt : PTFun)
    (hpt : ∀ s i s' n, s.keep_original = true → pt s i = .ok (s', n) → KeepStep s s') :
    ∀ s rv s' rv', s.keep_original = true → pvRvalue pt s rv = .ok (s', rv') →
      KeepStep s s' := by
  intro s rv s' rv' hk h
  cases rv with
  | Use op =>
    simp only [pvRvalue] at h
    rw [bind_ok_iff] at h
    obtain ⟨⟨s1, op1⟩, h1, h⟩ := h
    simp only [pure_ok_iff, Prod.mk.injEq] at h
    obtain ⟨h2, -⟩ := h
    subst h2
    exact pvOperand_keep pt hpt s op _ op1 hk h1
  | Ref k lv =>
    simp only [pvRvalue] at h
    rw [bind_ok_iff] at h
    obtain ⟨⟨s1, lv1⟩, h1, h⟩ := h
    simp only [pure_ok_iff, Prod.mk.injEq] at h
    obtain ⟨h2, -⟩ := h
    subst h2
    exact pvLvalue_keep pt hpt s lv _ lv1 hk h1
  | Len lv =>
    simp only [pvRvalue] at h
    rw [bind_ok_iff] at h
    obtain ⟨⟨s1, lv1⟩, h1, h⟩ := h
    simp only [pure_ok_iff, Prod.mk.injEq] at h
    obtain ⟨h2, -⟩ := h
    subst h2
    exact pvLvalue_keep pt hpt s lv _ lv1 hk h1
  | BinaryOp op a b =>
    simp only [pvRvalue] at h
    rw [bind_ok_iff] at h
    obtain ⟨⟨s1, a1⟩, h1, h⟩ := h
    rw [bind_ok_iff] at h
    obtain ⟨⟨s2, b1⟩, h2, h⟩ := h
    simp only [pure_ok_iff, Prod.mk.injEq] at h
    obtain ⟨h3, -⟩ := h
    subst h3
    have k1 := pvOperand_keep pt hpt s a s1 a1 hk h1
    exact KeepStep_trans k1 (pvOperand_keep pt hpt s1 b _ b1 (k1.2.2.1.trans hk) h2)
  | Aggregate k ops =>
    simp only [pvRvalue] at h
    rw [bind_ok_iff] at h
    obtain ⟨⟨s1, ops1⟩, h1, h⟩ := h
    simp only [pure_ok_iff, Prod.mk.injEq] at h
    obtain ⟨h2, -⟩ := h
    subst h2
    exact pvOperands_keep pt hpt ops s _ ops1 hk h1

theorem pvTermKind_keep (pt : PTFun)
    (hpt : ∀ s i s' n, s.keep_original = true → pt s i = .ok (s', n) → KeepStep s s') :
    ∀ s kind s' kind', s.keep_original = true → pvTermKind pt s kind = .ok (s', kind') →
      KeepStep s s' := by
  intro s kind s' kind' hk h
  cases kind with
  | Call func args dest cleanup =>
    simp only [pvTermKind] at h
    rw [bind_ok_iff] at h
    obtain ⟨⟨s1, f1⟩, h1, h⟩ := h
    rw [bind_ok_iff] at h
    obtain ⟨⟨s2, a1⟩, h2, h⟩ := h
    simp only [pure_ok_iff, Prod.mk.injEq] at h
    obtain ⟨h3, -⟩ := h
    subst h3
    have k1 := pvOperand_keep pt hpt s func s1 f1 hk h1
    exact KeepStep_trans k1 (pvOperands_keep pt hpt args s1 _ a1 (k1.2.2.1.trans hk) h2)
  | Drop value target unwind =>
    simp only [pvTermKind] at h
    rw [bind_ok_iff] at h
    obtain ⟨⟨s1, v1⟩, h1, h⟩ := h
    simp only [pure_ok_iff, Prod.mk.injEq] at h
    obtain ⟨h2, -⟩ := h
    subst h2
    exact pvLvalue_keep pt hpt s value _ v1 hk h1
  | Goto target =>
    simp only [pvTermKind, pure_ok_iff, Prod.mk.injEq] at h
    obtain ⟨h1, -⟩ := h
    subst h1
    exact KeepStep_refl _
  | Return =>
    simp only [pvTermKind, pure_ok_iff, Prod.mk.injEq] at h
    obtain ⟨h1, -⟩ := h
    subst h1
    exact KeepStep_refl _
  | Resume =>
    simp only [pvTermKind, pure_ok_iff, Prod.mk.injEq] at h
    obtain ⟨h1, -⟩ := h
    subst h1
    exact KeepStep_refl _

theorem promoteTempBody_keep (pt : PTFun)
    (hpt : ∀ s i s' n, s.keep_original = true → pt s i = .ok (s', n) → KeepStep s s') :
    ∀ s index s' n, s.keep_original = true → promoteTempBody pt s index = .ok (s', n) →
      KeepStep s s' := by
  intro s0 index s' n hk h
  simp only [promoteTempBody] at h
  split at h
  case h_2 => simp at h
  case h_1 bb stmt_idx uses heq =>
    split at h
    case isFalse => simp at h
    case isTrue hu0 =>
      have hko : (ptEnter s0 index uses).keep_original = true := by
        rw [ptEnter_keep, hk]
        simp
      have hkeep0 : KeepStep s0 (ptEnter s0 index uses) :=
        ⟨ptEnter_source s0 index uses,
         ptEnter_temps_of_keep s0 index uses (by rw [hk]; simp),
         by rw [hko, hk], le_of_eq (by rw [ptEnter_promoted])⟩
      split at h
      case isTrue hlt =>
        rw [bind_ok_iff] at h
        obtain ⟨⟨s4, rv4⟩, hpv, hrest⟩ := h
        simp only [pure_ok_iff, Prod.mk.injEq] at hrest
        obtain ⟨hs', -⟩ := hrest
        subst hs'
        have hpv' := pvRvalue_keep pt hpt _ _ s4 rv4 hko hpv
        refine KeepStep_trans (KeepStep_trans hkeep0 hpv') ⟨rfl, rfl, ?_, ?_⟩
        · show s0.keep_original = s4.keep_original
          rw [hpv'.2.2.1, hko, hk]
        · simp [Promoter.assign, listModify_length]
      case isFalse hge =>
        rw [bind_ok_iff] at h
        obtain ⟨y, hy, h⟩ := h
        rw [pure_ok_iff] at hy
        subst hy
        rw [bind_ok_iff] at h
        obtain ⟨⟨s4, call4⟩, hpv, h⟩ := h
        split at h
        next func args dest cleanup heqc =>
          simp only [pure_ok_iff, Prod.mk.injEq] at h
          obtain ⟨hs', -⟩ := h
          subst hs'
          have hpv' := pvTermKind_keep pt hpt _ _ s4 _ hko hpv
          refine KeepStep_trans (KeepStep_trans hkeep0 hpv') ⟨rfl, rfl, ?_, ?_⟩
          · show s0.keep_original = s4.keep_original
            rw [hpv'.2.2.1, hko, hk]
          · simp [Promoter.new_block, Promoter.assign, listModify_length]
        next => simp at h

theorem promote_temp_keep :
    ∀ fuel s index s' n, s.keep_original = true →
      Promoter.promote_temp fuel s index = .ok (s', n) → KeepStep s s' := by
  intro fuel
  induction fuel with
  | zero =>
    intro s index s' n hk h
    rw [promote_temp_zero] at h
    cases h
  | succ fuel ih =>
    intro s index s' n hk h
    rw [promote_temp_succ] at h
    exact promoteTempBody_keep _ ih s index s' n hk h
theorem promoteTempBody_dup (pt : PTFun)
    (hpt : ∀ s i s' n, s.keep_original = true → pt s i = .ok (s', n) → KeepStep s s')
    (s0 : Promoter) (index : Nat) (bb stmt_idx uses : Nat) (s' : Promoter) (n : Nat)
    (hdef : s0.temps.getD index .Undefined
      = .Defined { block := bb, statement_index := stmt_idx } uses)
    (huses : uses > 1)
    (hblk : 0 < s0.promoted.basic_blocks.length)
    (h : promoteTempBody pt s0 index = .ok (s', n)) :
    s'.keep_original = s0.keep_original ∧
    s'.source = s0.source ∧
    s'.temps = s0.temps ∧
    n < s'.promoted.temp_decls.length ∧
    (s'.promoted.temp_decls.getD n default).ty
      = (s0.source.temp_decls.getD index default).ty ∧
    (stmt_idx < (s0.source.blockD bb).statements.length →
      ∃ rv, ((s'.promoted.blockD (s'.promoted.basic_blocks.length - 1)).statements).getLast?
        = some { span := (stmtAt s0.source bb stmt_idx).span, scope := 0,
                 kind := .Assign (.Temp n) rv }) := by
  simp only [promoteTempBody] at h
  split at h
  case h_2 hne => rw [hdef] at hne; simp at hne
  case h_1 bb' stmt_idx' uses' heq =>
    rw [hdef] at heq
    injection heq with heq1 heq2
    injection heq1 with heqb heqs
    subst heqb
    subst heqs
    subst heq2
    split at h
    case isFalse => simp at h
    case isTrue hu0 =>
      have hko : (ptEnter s0 index uses).keep_original = true := by
        rw [ptEnter_keep]
        simp [huses]
      have hsrc2 : (ptEnter s0 index uses).source = s0.source := ptEnter_source s0 index uses
      have htm2 : (ptEnter s0 index uses).temps = s0.temps :=
        ptEnter_temps_of_keep s0 index uses (by simp [huses])
      split at h
      case isTrue hlt =>
        rw [bind_ok_iff] at h
        obtain ⟨⟨s4, rv4⟩, hpv, hrest⟩ := h
        simp only [pure_ok_iff, Prod.mk.injEq] at hrest
        obtain ⟨hs', hn⟩ := hrest
        subst hs'
        subst hn
        have hpv' := pvRvalue_keep pt hpt _ _ s4 rv4 hko hpv
        have hs4src : s4.source = s0.source := hpv'.1.trans hsrc2
        have hs4tm : s4.temps = s0.temps := hpv'.2.1.trans htm2
        have hs4len : 0 < s4.promoted.basic_blocks.length :=
          lt_of_lt_of_le (by rw [ptEnter_promoted s0 index uses]; exact hblk) hpv'.2.2.2
        refine ⟨rfl, by simpa [Promoter.assign] using hs4src,
          by simpa [Promoter.assign] using hs4tm, ?_, ?_, ?_⟩
        · show s4.promoted.temp_decls.length < _
          simp [Promoter.assign]
        · show ((Promoter.assign _ _ _ _).promoted.temp_decls.getD _ _).ty = _
          simp only [Promoter.assign, Mir.modifyBlock_temp_decls,
            Mir.pushTempDecl_temp_decls]
          rw [List.getD_eq_getElem?_getD, List.getElem?_concat_length, hs4src]
          rfl
        · intro hstmt
          refine ⟨rv4, ?_⟩
          simp only [Promoter.assign, Mir.modifyBlock_basic_blocks,
            Mir.pushTempDecl_basic_blocks, listModify_length]
          rw [Mir.blockD, Mir.modifyBlock_basic_blocks, listModify_getD_any]
          rw [if_pos ⟨rfl, by rw [Mir.pushTempDecl_basic_blocks]; omega⟩]
          show (_ ++ [_]).getLast? = _
          rw [List.getLast?_concat, hsrc2]
          rfl
      case isFalse hge =>
        rw [bind_ok_iff] at h
        obtain ⟨y, hy, h⟩ := h
        rw [pure_ok_iff] at hy
        subst hy
        rw [bind_ok_iff] at h
        obtain ⟨⟨s4, call4⟩, hpv, h⟩ := h
        split at h
        next func args dest cleanup heqc =>
          simp only [pure_ok_iff, Prod.mk.injEq] at h
          obtain ⟨hs', hn⟩ := h
          subst hs'
          subst hn
          have hpv' := pvTermKind_keep pt hpt _ _ s4 _ hko hpv
          have hs4src : s4.source = s0.source := hpv'.1.trans hsrc2
          have hs4tm : s4.temps = s0.temps := hpv'.2.1.trans htm2
          refine ⟨rfl, by simpa [Promoter.new_block] using hs4src,
            by simpa [Promoter.new_block] using hs4tm, ?_, ?_, ?_⟩
          · show s4.promoted.temp_decls.length < _
            simp [Promoter.new_block]
          · simp only [Promoter.new_block, Mir.modifyBlock_temp_decls,
              Mir.pushBlock_temp_decls, Mir.pushTempDecl_temp_decls]
            rw [List.getD_eq_getElem?_getD, List.getElem?_concat_length, hs4src]
            rfl
          · intro hstmt
            rw [← hsrc2] at hstmt
            exact absurd hstmt hge
        next => simp at h

/-- C2: for every temporary whose table entry is `Defined` with `uses > 1`,
`promote_temp` duplicates the definition.  The source body and the table are
left completely unchanged — the original statement remains, and so does
everything the subtree depends on, which is the observable effect of
`keep_original` being forced true for this call and all of its recursive
children — a copy is emitted into the extracted body (a fresh temp slot
carrying the source temp's declared type and, for a statement definition, an
assignment of the rewritten right-hand side appended to the in-progress
block), and `keep_original` is restored to the caller's value on return. -/
theorem C2_multi_use_duplicate (fuel : Nat) (s : Promoter) (index : Nat)
    (bb stmt_idx uses : Nat) (s' : Promoter) (n : Nat)
    (hdef : s.temps.getD index .Undefined
      = .Defined { block := bb, statement_index := stmt_idx } uses)
    (huses : uses > 1)
    (hblk : 0 < s.promoted.basic_blocks.length)
    (h : Promoter.promote_temp fuel s index = .ok (s', n)) :
    s'.keep_original = s.keep_original ∧
    s'.source = s.source ∧
    s'.temps = s.temps ∧
    n < s'.promoted.temp_decls.length ∧
    (s'.promoted.temp_decls.getD n default).ty
      = (s.source.temp_decls.getD index default).ty ∧
    (stmt_idx < (s.source.blockD bb).statements.length →
      ∃ rv, ((s'.promoted.blockD (s'.promoted.basic_blocks.length - 1)).statements).getLast?
        = some { span := (stmtAt s.source bb stmt_idx).span, scope := 0,
                 kind := .Assign (.Temp n) rv }) := by
  cases fuel with
  | zero =>
    rw [promote_temp_zero] at h
    cases h
  | succ fuel =>
    rw [promote_temp_succ] at h
    exact promoteTempBody_dup _ (fun s i s2 n2 hk hh => promote_temp_keep fuel s i s2 n2 hk hh)
      s index bb stmt_idx uses s' n hdef huses hblk h

/-- A concrete instance of `C2_multi_use_duplicate`: duplicating the
doubly-used `t1` of scenario C leaves source and table untouched. -/
theorem C2_multi_use_duplicate_witness :
    sC2.temps.getD 1 .Undefined = .Defined { block := 0, statement_index := 1 } 2 ∧
    sC2'.source = sC2.source ∧ sC2'.temps = sC2.temps := by
  have h := C2_multi_use_duplicate 5 sC2 1 0 1 2 sC2' nC2 (by decide) (by decide)
    (by decide) (by rfl)
  exact ⟨by decide, h.2.1, h.2.2.1⟩
/-! ## Consequences of the step relation -/

theorem SrcCore_stmt_reads_shrink {s s' : Promoter} (h : SrcCore s s')
    (bb k j : Nat) (hj : j ∈ rvReadTemps (stmtAt s'.source bb k).kind.rhsOf) :
    j ∈ rvReadTemps (stmtAt s.source bb k).kind.rhsOf := by
  obtain ⟨-, -, -, -, -, -, -, hst, -, -⟩ := h
  rcases hst bb k with heq | ⟨-, -, hkd, -⟩
  · rwa [heq] at hj
  · rw [hkd] at hj
    simp [StatementKind.rhsOf, rvReadTemps, opsReadTemps] at hj

theorem SrcCore_term_reads_shrink {s s' : Promoter} (h : SrcCore s s')
    (bb j : Nat) (hj : j ∈ termReadTemps (termAt s'.source bb).kind) :
    j ∈ termReadTemps (termAt s.source bb).kind := by
  obtain ⟨-, -, -, -, -, -, -, -, htm, -⟩ := h
  rcases htm bb with heq | ⟨-, -, ⟨f, a, d, tg, c, hb, hc⟩, -⟩
  · rwa [heq] at hj
  · rw [hc] at hj
    simp [termReadTemps] at hj

theorem SrcCore_term_writes_shrink {s s' : Promoter} (h : SrcCore s s')
    (bb j : Nat) (hw : termWritesTemp j (termAt s'.source bb).kind = true) :
    termWritesTemp j (termAt s.source bb).kind = true := by
  obtain ⟨-, -, -, -, -, -, -, -, htm, -⟩ := h
  rcases htm bb with heq | ⟨-, -, ⟨f, a, d, tg, c, hb, hc⟩, -⟩
  · rwa [heq] at hw
  · rw [hc] at hw
    simp [termWritesTemp] at hw

theorem SrcCore_goto_persist {s s' : Promoter} (h : SrcCore s s')
    (bb target : Nat) (hg : (termAt s.source bb).kind = .Goto target) :
    (termAt s'.source bb).kind = .Goto target := by
  obtain ⟨-, -, -, -, -, -, -, -, htm, -⟩ := h
  rcases htm bb with heq | ⟨-, -, ⟨f, a, d, tg, c, hb, hc⟩, -⟩
  · rwa [heq]
  · rw [hg] at hb
    cases hb

theorem SrcCore_stmt_span_dest {s s' : Promoter} (h : SrcCore s s') (bb k : Nat) :
    (stmtAt s'.source bb k).span = (stmtAt s.source bb k).span ∧
    (stmtAt s'.source bb k).kind.destOf = (stmtAt s.source bb k).kind.destOf := by
  obtain ⟨-, -, -, -, -, -, -, hst, -, -⟩ := h
  rcases hst bb k with heq | ⟨hsp, -, hkd, -⟩
  · rw [heq]
    exact ⟨rfl, rfl⟩
  · exact ⟨hsp, by rw [hkd]; rfl⟩

theorem SrcCore_term_span {s s' : Promoter} (h : SrcCore s s') (bb : Nat) :
    (termAt s'.source bb).span = (termAt s.source bb).span := by
  obtain ⟨-, -, -, -, -, -, -, -, htm, -⟩ := h
  rcases htm bb with heq | ⟨hsp, -⟩
  · rw [heq]
  · exact hsp

/-! ## The loop relation -/

theorem LoopStep_of_SrcCore {s s' : Promoter} (h : SrcCore s s') :
    LoopStep s.source s.temps s'.source s'.temps := by
  obtain ⟨he, hbl, hp, htd, hvd, hrt, hsl, hst, htm, hfe⟩ := h
  refine ⟨he, hbl, ⟨[], by rw [hp, List.append_nil]⟩, htd, hvd, hrt, hsl,
    fun bb k => SrcCore_stmt_span_dest ⟨he, hbl, hp, htd, hvd, hrt, hsl, hst, htm, hfe⟩ bb k,
    fun bb k j => SrcCore_stmt_reads_shrink ⟨he, hbl, hp, htd, hvd, hrt, hsl, hst, htm, hfe⟩ bb k j,
    fun bb => SrcCore_term_span ⟨he, hbl, hp, htd, hvd, hrt, hsl, hst, htm, hfe⟩ bb,
    fun bb j => SrcCore_term_reads_shrink ⟨he, hbl, hp, htd, hvd, hrt, hsl, hst, htm, hfe⟩ bb j,
    fun bb j => SrcCore_term_writes_shrink ⟨he, hbl, hp, htd, hvd, hrt, hsl, hst, htm, hfe⟩ bb j,
    fun bb target => SrcCore_goto_persist ⟨he, hbl, hp, htd, hvd, hrt, hsl, hst, htm, hfe⟩ bb target,
    hfe⟩

theorem LoopStep_refl (mir : Mir) (temps : List TempState) :
    LoopStep mir temps mir temps := by
  refine ⟨promoteEvolve_refl _, rfl, ⟨[], (List.append_nil _).symm⟩, rfl, rfl, rfl,
    fun _ => rfl, fun _ _ => ⟨rfl, rfl⟩, fun _ _ _ hj => hj, fun _ => rfl,
    fun _ _ hj => hj, fun _ _ hw => hw, fun _ _ hg => hg, fun t l u hd hp => ?_⟩
  rw [hd] at hp
  cases hp

theorem LoopStep_trans {m1 m2 m3 : Mir} {t1 t2 t3 : List TempState}
    (h1 : LoopStep m1 t1 m2 t2) (h2 : LoopStep m2 t2 m3 t3) :
    LoopStep m1 t1 m3 t3 := by
  obtain ⟨e1, bl1, ⟨sf1, hp1⟩, td1, vd1, rt1, sl1, sd1, rr1, ts1, tr1, tw1, gp1, fe1⟩ := h1
  obtain ⟨e2, bl2, ⟨sf2, hp2⟩, td2, vd2, rt2, sl2, sd2, rr2, ts2, tr2, tw2, gp2, fe2⟩ := h2
  refine ⟨promoteEvolve_trans e1 e2, bl2.trans bl1,
    ⟨sf1 ++ sf2, by rw [hp2, hp1, List.append_assoc]⟩,
    td2.trans td1, vd2.trans vd1, rt2.trans rt1, fun bb => (sl2 bb).trans (sl1 bb),
    fun bb k => ⟨((sd2 bb k).1).trans (sd1 bb k).1, ((sd2 bb k).2).trans (sd1 bb k).2⟩,
    fun bb k j hj => rr1 bb k j (rr2 bb k j hj), fun bb => (ts2 bb).trans (ts1 bb),
    fun bb j hj => tr1 bb j (tr2 bb j hj), fun bb j hw => tw1 bb j (tw2 bb j hw),
    fun bb target hg => gp2 bb target (gp1 bb target hg), fun t l u hd hp => ?_⟩
  rcases e1.2 t with hsame | ⟨-, hpb⟩
  · have hdb : t2.getD t .Undefined = .Defined l u := hsame.trans hd
    have := fe2 t l u hdb hp
    exact ⟨fun hlt => this.1 (by rw [sl1 l.block]; exact hlt),
           fun hge => this.2 (by rw [sl1 l.block]; exact hge)⟩
  · have hfe := fe1 t l u hd hpb
    constructor
    · intro hlt
      have hmid := hfe.1 hlt
      by_contra hne
      obtain ⟨j, hj⟩ := List.exists_mem_of_ne_nil _ hne
      have := rr2 l.block l.statement_index j hj
      rw [hmid] at this
      simp at this
    · intro hge
      obtain ⟨target, hmid⟩ := hfe.2 hge
      exact ⟨target, gp2 l.block target hmid⟩
/-! ## Driver-level effect lemmas -/

theorem opsReadTemps_set_const :
    ∀ (args : List Operand) (i : Nat) (c : Constant) (j : Nat),
      j ∈ opsReadTemps (args.set i (.Constant c)) → j ∈ opsReadTemps args := by
  intro args
  induction args with
  | nil =>
    intro i c j h
    exact h
  | cons a rest ih =>
    intro i c j h
    cases i with
    | zero =>
      simp only [List.set, opsReadTemps, List.map_cons, List.flatten_cons,
        List.mem_append] at h ⊢
      rcases h with h | h
      · simp [opReadTemps] at h
      · exact Or.inr h
    | succ i =>
      simp only [List.set, opsReadTemps, List.map_cons, List.flatten_cons,
        List.mem_append] at h ⊢
      rcases h with h | h
      · exact Or.inl h
      · exact Or.inr (ih i c j h)

theorem blockD_pushPromoted (m p : Mir) (bb : BasicBlock) :
    (m.pushPromoted p).blockD bb = m.blockD bb := by
  rw [Mir.blockD, Mir.blockD, Mir.pushPromoted_basic_blocks]

theorem LoopStep_pushPromoted (m p : Mir) (temps : List TempState) :
    LoopStep m temps (m.pushPromoted p) temps := by
  refine ⟨promoteEvolve_refl _, by rw [Mir.pushPromoted_basic_blocks],
    ⟨[p], by rw [Mir.pushPromoted_promoted]⟩, Mir.pushPromoted_temp_decls m p,
    Mir.pushPromoted_var_decls m p, Mir.pushPromoted_return_ty m p,
    fun bb => by rw [blockD_pushPromoted],
    fun bb k => by rw [stmtAt, stmtAt, blockD_pushPromoted]; exact ⟨rfl, rfl⟩,
    fun bb k j hj => by rwa [stmtAt, blockD_pushPromoted] at hj,
    fun bb => by rw [termAt, termAt, blockD_pushPromoted],
    fun bb j hj => by rwa [termAt, blockD_pushPromoted] at hj,
    fun bb j hw => by rwa [termAt, blockD_pushPromoted] at hw,
    fun bb target hg => by rwa [termAt, blockD_pushPromoted],
    fun t l u hd hp => ?_⟩
  rw [hd] at hp
  cases hp

theorem LoopStep_setStmtRhs_const (m : Mir) (temps : List TempState)
    (bb k : Nat) (c : Constant) :
    LoopStep m temps (m.setStmtRhs bb k (.Use (.Constant c))) temps := by
  refine ⟨promoteEvolve_refl _, setStmtRhs_blocks_len m bb k _,
    ⟨[], by rw [Mir.setStmtRhs, Mir.modifyBlock_promoted, List.append_nil]⟩,
    by rw [Mir.setStmtRhs, Mir.modifyBlock_temp_decls],
    by rw [Mir.setStmtRhs, Mir.modifyBlock_var_decls],
    by rw [Mir.setStmtRhs, Mir.modifyBlock_return_ty],
    fun bb' => setStmtRhs_stmts_len m bb k _ bb',
    fun bb' k' => ?_, fun bb' k' j hj => ?_,
    fun bb' => by rw [setStmtRhs_termAt],
    fun bb' j hj => by rwa [setStmtRhs_termAt] at hj,
    fun bb' j hw => by rwa [setStmtRhs_termAt] at hw,
    fun bb' target hg => by rwa [setStmtRhs_termAt],
    fun t l u hd hp => ?_⟩
  · rw [setStmtRhs_stmtAt]
    split
    · rcases ‹bb' = bb ∧ bb < m.basic_blocks.length ∧ k' = k ∧ _› with ⟨hb, -, hk, -⟩
      subst hb
      subst hk
      exact ⟨rfl, rfl⟩
    · exact ⟨rfl, rfl⟩
  · rw [setStmtRhs_stmtAt] at hj
    split at hj
    · simp [StatementKind.rhsOf, rvReadTemps, opReadTemps] at hj
    · exact hj
  · rw [hd] at hp
    cases hp

theorem LoopStep_setTermKind_shuffle (m : Mir) (temps : List TempState) (bb : Nat)
    (func : Operand) (args : List Operand) (dest : Option (Lvalue × BasicBlock))
    (cl : Option BasicBlock) (c : Constant)
    (h : (termAt m bb).kind = .Call func args dest cl) :
    LoopStep m temps
      (m.setTermKind bb (.Call func (args.set 2 (.Constant c)) dest cl)) temps := by
  refine ⟨promoteEvolve_refl _, setTermKind_blocks_len m bb _,
    ⟨[], by rw [Mir.setTermKind, Mir.modifyBlock_promoted, List.append_nil]⟩,
    by rw [Mir.setTermKind, Mir.modifyBlock_temp_decls],
    by rw [Mir.setTermKind, Mir.modifyBlock_var_decls],
    by rw [Mir.setTermKind, Mir.modifyBlock_return_ty],
    fun bb' => setTermKind_stmts_len m bb _ bb',
    fun bb' k' => by rw [setTermKind_stmtAt]; exact ⟨rfl, rfl⟩,
    fun bb' k' j hj => by rwa [setTermKind_stmtAt] at hj,
    fun bb' => ?_, fun bb' j hj => ?_, fun bb' j hw => ?_,
    fun bb' target hg => ?_, fun t l u hd hp => ?_⟩
  · rw [setTermKind_termAt]
    split
    · rcases ‹bb' = bb ∧ _› with ⟨hb, -⟩
      subst hb
      rfl
    · rfl
  · rw [setTermKind_termAt] at hj
    split at hj
    · rcases ‹bb' = bb ∧ _› with ⟨hb, -⟩
      subst hb
      rw [h]
      simp only [termReadTemps, List.mem_append] at hj ⊢
      rcases hj with hj | hj
      · exact Or.inl hj
      · exact Or.inr (opsReadTemps_set_const args 2 c j hj)
    · exact hj
  · rw [setTermKind_termAt] at hw
    split at hw
    · rcases ‹bb' = bb ∧ _› with ⟨hb, -⟩
      subst hb
      rw [h]
      cases dest with
      | none => simp [termWritesTemp] at hw
      | some d =>
        rcases d with ⟨lv, tg⟩
        cases lv with
        | Temp i => exact hw
        | Var i => simp [termWritesTemp] at hw
        | ReturnPointer => simp [termWritesTemp] at hw
    · exact hw
  · rw [setTermKind_termAt]
    split
    · rcases ‹bb' = bb ∧ _› with ⟨hb, -⟩
      subst hb
      rw [hg] at h
      cases h
    · exact hg
  · rw [hd] at hp
    cases hp

theorem LoopStep_of_SrcStep {s s' : Promoter} (h : SrcStep s s') :
    LoopStep s.source s.temps s'.source s'.temps :=
  LoopStep_of_SrcCore h.1

theorem promote_candidate_effects (fuel : Nat) (s : Promoter) (c : Candidate)
    (mir' : Mir) (temps' : List TempState)
    (h : s.promote_candidate fuel c = .ok (mir', temps')) :
    LoopStep s.source s.temps mir' temps' := by
  rw [Promoter.promote_candidate] at h
  cases hty : s.promoted.return_ty with
  | none =>
    rw [hty] at h
    cases h
  | some ty =>
    rw [hty] at h
    rw [bind_ok_iff] at h
    obtain ⟨ty0, hty0, h⟩ := h
    rw [pure_ok_iff] at hty0
    subst hty0
    simp only [] at h
    cases c with
    | Ref loc =>
      rcases loc with ⟨bb, stmt_idx⟩
      simp only [] at h
      cases hget : (s.source.blockD bb).statements.get? stmt_idx with
      | none =>
        rw [hget] at h
        rw [bind_ok_iff] at h
        obtain ⟨a, ha, -⟩ := h
        cases ha
      | some statement =>
        rw [hget] at h
        rw [bind_ok_iff] at h
        obtain ⟨⟨s1, rv1⟩, h1, h⟩ := h
        rw [pure_ok_iff, Prod.mk.injEq] at h1
        obtain ⟨hs1, -⟩ := h1
        simp only [] at h
        rw [bind_ok_iff] at h
        obtain ⟨⟨s2, rv2⟩, h2, h⟩ := h
        simp only [] at h
        rw [pure_ok_iff, Prod.mk.injEq] at h
        obtain ⟨hm, ht⟩ := h
        have hstep2 : SrcStep s1 s2 :=
          pvRvalue_step (Promoter.promote_temp fuel)
            (fun a i a' n ha => promote_temp_step fuel a i a' n ha) s1 rv1 s2 rv2 h2
        have hstep1 : LoopStep s.source s.temps s1.source s1.temps := by
          rw [← hs1]
          exact LoopStep_setStmtRhs_const s.source s.temps bb stmt_idx _
        have hfin : LoopStep s2.source s2.temps mir' temps' := by
          rw [← hm, ← ht]
          exact LoopStep_pushPromoted s2.source _ s2.temps
        exact LoopStep_trans hstep1 (LoopStep_trans (LoopStep_of_SrcStep hstep2) hfin)
    | ShuffleIndices bb =>
      simp only [] at h
      cases hterm : (s.source.blockD bb).terminator.kind with
      | Call func args dest cleanup =>
        rw [hterm] at h
        simp only [] at h
        cases harg : args.get? 2 with
        | none =>
          rw [harg] at h
          rw [bind_ok_iff] at h
          obtain ⟨a, ha, -⟩ := h
          cases ha
        | some arg2 =>
          rw [harg] at h
          rw [bind_ok_iff] at h
          obtain ⟨⟨s1, rv1⟩, h1, h⟩ := h
          rw [pure_ok_iff, Prod.mk.injEq] at h1
          obtain ⟨hs1, -⟩ := h1
          simp only [] at h
          rw [bind_ok_iff] at h
          obtain ⟨⟨s2, rv2⟩, h2, h⟩ := h
          simp only [] at h
          rw [pure_ok_iff, Prod.mk.injEq] at h
          obtain ⟨hm, ht⟩ := h
          have hstep2 : SrcStep s1 s2 :=
            pvRvalue_step (Promoter.promote_temp fuel)
              (fun a i a' n ha => promote_temp_step fuel a i a' n ha) s1 rv1 s2 rv2 h2
          have hstep1 : LoopStep s.source s.temps s1.source s1.temps := by
            rw [← hs1]
            exact LoopStep_setTermKind_shuffle s.source s.temps bb func args dest
              cleanup _ hterm
          have hfin : LoopStep s2.source s2.temps mir' temps' := by
            rw [← hm, ← ht]
            exact LoopStep_pushPromoted s2.source _ s2.temps
          exact LoopStep_trans hstep1 (LoopStep_trans (LoopStep_of_SrcStep hstep2) hfin)
      | Goto target =>
        rw [hterm] at h
        cases h
      | Return =>
        rw [hterm] at h
        cases h
      | Resume =>
        rw [hterm] at h
        cases h
      | Drop value target unwind =>
        rw [hterm] at h
        cases h
theorem processCandidate_effects (fuel : Nat) (mir : Mir) (temps : List TempState)
    (c : Candidate) (mir' : Mir) (temps' : List TempState)
    (h : processCandidate fuel mir temps c = .ok (mir', temps')) :
    LoopStep mir temps mir' temps' := by
  rw [processCandidate.eq_def] at h
  cases c with
  | Ref loc =>
    rcases loc with ⟨bb, stmt_idx⟩
    simp only [] at h
    cases hget : (mir.blockD bb).statements.get? stmt_idx with
    | none =>
      rw [hget] at h
      rw [bind_ok_iff] at h
      obtain ⟨a, ha, -⟩ := h
      cases ha
    | some statement =>
      rw [hget] at h
      rcases statement with ⟨sp, sc, kind⟩
      rcases kind with ⟨dest, rhs⟩
      simp only [] at h
      cases dest with
      | Temp index =>
        simp only [] at h
        by_cases hpo : temps.getD index .Undefined = .PromotedOut
        · rw [if_pos hpo] at h
          rw [bind_ok_iff] at h
          obtain ⟨a, ha, h⟩ := h
          rw [pure_ok_iff] at ha
          subst ha
          simp only [] at h
          rw [pure_ok_iff, Prod.mk.injEq] at h
          obtain ⟨hm, ht⟩ := h
          rw [← hm, ← ht]
          exact LoopStep_refl mir temps
        · rw [if_neg hpo] at h
          cases hty : mir.lvalue_ty (.Temp index) with
          | none =>
            rw [hty] at h
            rw [bind_ok_iff] at h
            obtain ⟨a, ha, -⟩ := h
            cases ha
          | some ty =>
            rw [hty] at h
            rw [bind_ok_iff] at h
            obtain ⟨a, ha, h⟩ := h
            rw [pure_ok_iff] at ha
            subst ha
            simp only [] at h
            exact promote_candidate_effects fuel _ _ mir' temps' h
      | Var index =>
        simp only [] at h
        cases hty : mir.lvalue_ty (.Var index) with
        | none =>
          rw [hty] at h
          rw [bind_ok_iff] at h
          obtain ⟨a, ha, -⟩ := h
          cases ha
        | some ty =>
          rw [hty] at h
          rw [bind_ok_iff] at h
          obtain ⟨a, ha, h⟩ := h
          rw [pure_ok_iff] at ha
          subst ha
          simp only [] at h
          exact promote_candidate_effects fuel _ _ mir' temps' h
      | ReturnPointer =>
        simp only [] at h
        cases hty : mir.lvalue_ty .ReturnPointer with
        | none =>
          rw [hty] at h
          rw [bind_ok_iff] at h
          obtain ⟨a, ha, -⟩ := h
          cases ha
        | some ty =>
          rw [hty] at h
          rw [bind_ok_iff] at h
          obtain ⟨a, ha, h⟩ := h
          rw [pure_ok_iff] at ha
          subst ha
          simp only [] at h
          exact promote_candidate_effects fuel _ _ mir' temps' h
  | ShuffleIndices bb =>
    simp only [] at h
    cases hterm : (mir.blockD bb).terminator.kind with
    | Call func args dest cleanup =>
      rw [hterm] at h
      simp only [] at h
      cases harg : args.get? 2 with
      | none =>
        rw [harg] at h
        rw [bind_ok_iff] at h
        obtain ⟨a, ha, -⟩ := h
        cases ha
      | some arg2 =>
        rw [harg] at h
        simp only [] at h
        cases hty : mir.operand_ty arg2 with
        | none =>
          rw [hty] at h
          rw [bind_ok_iff] at h
          obtain ⟨a, ha, -⟩ := h
          cases ha
        | some ty =>
          rw [hty] at h
          rw [bind_ok_iff] at h
          obtain ⟨a, ha, h⟩ := h
          rw [pure_ok_iff] at ha
          subst ha
          simp only [] at h
          exact promote_candidate_effects fuel _ _ mir' temps' h
    | Goto target =>
      rw [hterm] at h
      cases h
    | Return =>
      rw [hterm] at h
      cases h
    | Resume =>
      rw [hterm] at h
      cases h
    | Drop value target unwind =>
      rw [hterm] at h
      cases h

theorem promoteLoop_effects (fuel : Nat) :
    ∀ (cs : List Candidate) (mir : Mir) (temps : List TempState)
      (mir' : Mir) (temps' : List TempState),
      promoteLoop fuel cs mir temps = .ok (mir', temps') →
      LoopStep mir temps mir' temps' := by
  intro cs
  induction cs with
  | nil =>
    intro mir temps mir' temps' h
    rw [promoteLoop] at h
    rw [pure_ok_iff, Prod.mk.injEq] at h
    obtain ⟨hm, ht⟩ := h
    rw [← hm, ← ht]
    exact LoopStep_refl mir temps
  | cons c rest ih =>
    intro mir temps mir' temps' h
    rw [promoteLoop] at h
    rw [bind_ok_iff] at h
    obtain ⟨⟨m1, t1⟩, h1, h⟩ := h
    simp only [] at h
    exact LoopStep_trans (processCandidate_effects fuel mir temps c m1 t1 h1)
      (ih m1 t1 mir' temps' h)
/-- C10: during extraction (before the final cleanup sweep), no block's
statement-list length changes: one `promote_temp` step replaces a moved
assignment's right-hand side in place by the empty tuple aggregate and a
moved call terminator in place by a goto, and across the whole candidate
loop every table location keeps addressing a statement or terminator with
the same span and destination in an unchanged block/statement structure. -/
theorem C10_location_stability (fuel : Nat) (s : Promoter) (index : Nat)
    (s' : Promoter) (n : Nat) (cs : List Candidate) (mir mir' : Mir)
    (temps temps' : List TempState)
    (h1 : Promoter.promote_temp fuel s index = .ok (s', n))
    (h2 : promoteLoop fuel cs mir temps = .ok (mir', temps')) :
    (s'.source.basic_blocks.length = s.source.basic_blocks.length ∧
     (∀ bb, (s'.source.blockD bb).statements.length
          = (s.source.blockD bb).statements.length) ∧
     (∀ bb k, stmtAt s'.source bb k = stmtAt s.source bb k ∨
        ((stmtAt s'.source bb k).span = (stmtAt s.source bb k).span ∧
         (stmtAt s'.source bb k).kind =
           .Assign (stmtAt s.source bb k).kind.destOf (.Aggregate .Tuple []))) ∧
     (∀ bb, termAt s'.source bb = termAt s.source bb ∨
        ((termAt s'.source bb).span = (termAt s.source bb).span ∧
         ∃ func args dlv target cl,
           (termAt s.source bb).kind = .Call func args (some (dlv, target)) cl ∧
           (termAt s'.source bb).kind = .Goto target))) ∧
    (mir'.basic_blocks.length = mir.basic_blocks.length ∧
     (∀ bb, (mir'.blockD bb).statements.length = (mir.blockD bb).statements.length) ∧
     (∀ bb k, (stmtAt mir' bb k).span = (stmtAt mir bb k).span ∧
              (stmtAt mir' bb k).kind.destOf = (stmtAt mir bb k).kind.destOf) ∧
     (∀ bb, (termAt mir' bb).span = (termAt mir bb).span)) := by
  obtain ⟨⟨-, hbl, -, -, -, -, hsl, hst, htm, -⟩, -⟩ :=
    promote_temp_step fuel s index s' n h1
  obtain ⟨-, lbl, -, -, -, -, lsl, lsd, -, lts, -⟩ :=
    promoteLoop_effects fuel cs mir temps mir' temps' h2
  refine ⟨⟨hbl, hsl, fun bb k => ?_, fun bb => ?_⟩, lbl, lsl, lsd, lts⟩
  · rcases hst bb k with heq | ⟨hsp, -, hkd, -⟩
    · exact Or.inl heq
    · exact Or.inr ⟨hsp, hkd⟩
  · rcases htm bb with heq | ⟨hsp, -, ⟨func, args, dlv, target, cl, hold, hnew⟩, -⟩
    · exact Or.inl heq
    · exact Or.inr ⟨hsp, func, args, dlv, target, cl, hold, hnew⟩

theorem C10_location_stability_witness :
    sC2'.source.basic_blocks.length = sC2.source.basic_blocks.length ∧
    mirAL.basic_blocks.length = mirA.basic_blocks.length := by
  have h := C10_location_stability 5 sC2 1 sC2' nC2 candsA.reverse mirA mirAL
    tempsA tempsAL (by rfl) (by rfl)
  exact ⟨h.1.1, h.2.1⟩
/-! ## Analyzer monotonicity -/

theorem collectLvalue_shape (temps : List TempState) (loc : Location) (index : Nat)
    (ctx : LvalueContext) :
    collectLvalue temps loc (.Temp index) ctx = temps ∨
    ∃ v, collectLvalue temps loc (.Temp index) ctx = temps.set index v ∧
      (temps.getD index .Undefined ≠ .PromotedOut →
        tsLe (temps.getD index .Undefined) v) ∧
      v ≠ .PromotedOut ∧
      (temps.getD index .Undefined = .Unpromotable → v = .Unpromotable) := by
  by_cases hdrop : ctx = .Drop
  · subst hdrop
    exact Or.inl (collectLvalue_drop temps loc index)
  rcases hst : temps.getD index .Undefined with _ | ⟨l, u⟩ | _ | _
  · by_cases hsc : ctx = .Store ∨ ctx = .Call
    · refine Or.inr ⟨.Defined loc 0,
        collectLvalue_define temps loc index ctx hst hsc, ?_, ?_, ?_⟩
      · intro _
        trivial
      · intro hv
        cases hv
      · intro hu
        cases hu
    · refine Or.inr ⟨.Unpromotable, collectLvalue_unpromotable temps loc index ctx hdrop
        (fun _ => ⟨fun he => hsc (Or.inl he), fun he => hsc (Or.inr he)⟩)
        (fun l u h => by rw [hst] at h; cases h), ?_, ?_, ?_⟩
      · intro _
        trivial
      · intro hv
        cases hv
      · intro _
        rfl
  · by_cases hbci : ctx = .Borrow ∨ ctx = .Consume ∨ ctx = .Inspect
    · refine Or.inr ⟨.Defined l (u + 1),
        collectLvalue_use temps loc index ctx l u hst hbci, ?_, ?_, ?_⟩
      · intro _
        exact ⟨rfl, Nat.le_succ u⟩
      · intro hv
        cases hv
      · intro hu
        cases hu
    · refine Or.inr ⟨.Unpromotable, collectLvalue_unpromotable temps loc index ctx hdrop
        (fun h => by rw [hst] at h; cases h)
        (fun l' u' h => ⟨fun he => hbci (Or.inl he), fun he => hbci (Or.inr (Or.inl he)),
          fun he => hbci (Or.inr (Or.inr he))⟩), ?_, ?_, ?_⟩
      · intro _
        trivial
      · intro hv
        cases hv
      · intro hu
        cases hu
  · refine Or.inr ⟨.Unpromotable, collectLvalue_unpromotable temps loc index ctx hdrop
      (fun h => by rw [hst] at h; cases h) (fun l u h => by rw [hst] at h; cases h),
      ?_, ?_, ?_⟩
    · intro _
      trivial
    · intro hv
      cases hv
    · intro _
      rfl
  · refine Or.inr ⟨.Unpromotable, collectLvalue_unpromotable temps loc index ctx hdrop
      (fun h => by rw [hst] at h; cases h) (fun l u h => by rw [hst] at h; cases h),
      ?_, ?_, ?_⟩
    · intro hnpo
      exact absurd rfl hnpo
    · intro hv
      cases hv
    · intro hu
      cases hu

theorem collectLvalue_mono (temps : List TempState) (loc : Location)
    (lv : Lvalue) (ctx : LvalueContext) (j : Nat)
    (hnpo : temps.getD j .Undefined ≠ .PromotedOut) :
    tsLe (temps.getD j .Undefined)
      ((collectLvalue temps loc lv ctx).getD j .Undefined) ∧
    (collectLvalue temps loc lv ctx).getD j .Undefined ≠ .PromotedOut ∧
    (temps.getD j .Undefined = .Unpromotable →
      (collectLvalue temps loc lv ctx).getD j .Undefined = .Unpromotable) := by
  cases lv with
  | Var i => exact ⟨tsLe_refl _, hnpo, fun h => h⟩
  | ReturnPointer => exact ⟨tsLe_refl _, hnpo, fun h => h⟩
  | Temp index =>
    rcases collectLvalue_shape temps loc index ctx with heq | ⟨v, heq, hts, hnp, hab⟩
    · rw [heq]
      exact ⟨tsLe_refl _, hnpo, fun h => h⟩
    · rw [heq]
      by_cases hj : j = index
      · subst hj
        by_cases hlen : j < temps.length
        · rw [getD_set_self _ _ _ _ hlen]
          exact ⟨hts hnpo, hnp, hab⟩
        · rw [List.set_eq_of_length_le (le_of_not_lt hlen)]
          exact ⟨tsLe_refl _, hnpo, fun h => h⟩
      · rw [getD_set_other _ _ _ _ _ fun h => hj h.symm]
        exact ⟨tsLe_refl _, hnpo, fun h => h⟩

theorem collectOccs_no_po (loc : Location) :
    ∀ (occs : List (Lvalue × LvalueContext)) (temps : List TempState) (j : Nat),
      temps.getD j .Undefined ≠ .PromotedOut →
      (collectOccs temps loc occs).getD j .Undefined ≠ .PromotedOut := by
  intro occs
  induction occs with
  | nil =>
    intro temps j h
    exact h
  | cons p rest ih =>
    intro temps j h
    rcases p with ⟨lv, ctx⟩
    exact ih (collectLvalue temps loc lv ctx) j
      ((collectLvalue_mono temps loc lv ctx j h).2.1)

theorem collectStatements_no_po (bb : BasicBlock) :
    ∀ (sts : List Statement) (idx : Nat) (temps : List TempState) (j : Nat),
      temps.getD j .Undefined ≠ .PromotedOut →
      (collectStatements temps bb idx sts).getD j .Undefined ≠ .PromotedOut := by
  intro sts
  induction sts with
  | nil =>
    intro idx temps j h
    exact h
  | cons st rest ih =>
    intro idx temps j h
    exact ih (idx + 1) (collectStatement temps bb idx st) j
      (collectOccs_no_po ⟨bb, idx⟩ (statementOccs st.kind) temps j h)

theorem collectBlocks_no_po (mir : Mir) :
    ∀ (rpo : List BasicBlock) (temps : List TempState) (j : Nat),
      temps.getD j .Undefined ≠ .PromotedOut →
      (collectBlocks mir temps rpo).getD j .Undefined ≠ .PromotedOut := by
  intro rpo
  induction rpo with
  | nil =>
    intro temps j h
    exact h
  | cons bb rest ih =>
    intro temps j h
    refine ih (collectBlock temps bb (mir.blockD bb)) j ?_
    rw [collectBlock]
    refine collectOccs_no_po _ _ _ j ?_
    exact collectStatements_no_po bb (mir.blockD bb).statements 0 temps j h

theorem collect_temps_no_po (mir : Mir) (rpo : List BasicBlock) (j : Nat) :
    (collect_temps mir rpo).getD j .Undefined ≠ .PromotedOut := by
  refine collectBlocks_no_po mir rpo _ j ?_
  rw [List.getD_eq_getElem?_getD, List.getElem?_replicate]
  split
  · intro h
    cases h
  · intro h
    cases h

/-- C7: table transitions are monotone in both phases — one analyzer
classification step (`TempCollector::visit_lvalue`) never moves an entry that
is not `PromotedOut` backwards along
`Undefined → Defined → {Unpromotable, PromotedOut}` and never produces
`PromotedOut` (so the analysis phase, which starts all-`Undefined`, never
holds a `PromotedOut` entry, as witnessed by `collect_temps`), `Unpromotable`
absorbs across the analyzer; and the whole promotion phase only moves entries
up the order, with `Unpromotable` and `PromotedOut` absorbing. -/
theorem C7_monotonic_transitions (temps : List TempState) (loc : Location)
    (lv : Lvalue) (ctx : LvalueContext) (mir : Mir) (rpo : List BasicBlock)
    (fuel : Nat) (cs : List Candidate) (mir2 mir2' : Mir)
    (temps2 temps2' : List TempState) (j : Nat)
    (hnpo : temps.getD j .Undefined ≠ .PromotedOut)
    (h2 : promoteLoop fuel cs mir2 temps2 = .ok (mir2', temps2')) :
    (tsLe (temps.getD j .Undefined)
       ((collectLvalue temps loc lv ctx).getD j .Undefined) ∧
     (collectLvalue temps loc lv ctx).getD j .Undefined ≠ .PromotedOut ∧
     (temps.getD j .Undefined = .Unpromotable →
       (collectLvalue temps loc lv ctx).getD j .Undefined = .Unpromotable)) ∧
    (collect_temps mir rpo).getD j .Undefined ≠ .PromotedOut ∧
    (tsLe (temps2.getD j .Undefined) (temps2'.getD j .Undefined) ∧
     (temps2.getD j .Undefined = .Unpromotable →
       temps2'.getD j .Undefined = .Unpromotable) ∧
     (temps2.getD j .Undefined = .PromotedOut →
       temps2'.getD j .Undefined = .PromotedOut)) := by
  have hev : promoteEvolve temps2 temps2' :=
    (promoteLoop_effects fuel cs mir2 temps2 mir2' temps2' h2).1
  exact ⟨collectLvalue_mono temps loc lv ctx j hnpo,
    collect_temps_no_po mir rpo j,
    promoteEvolve_tsLe hev j,
    fun h => promoteEvolve_unprom_persist hev h,
    fun h => promoteEvolve_po_persist hev h⟩

theorem C7_monotonic_transitions_witness :
    tsLe (tempsA.getD 0 .Undefined) (tempsAL.getD 0 .Undefined) ∧
    (collect_temps mirA [0]).getD 0 .Undefined ≠ .PromotedOut := by
  have h := C7_monotonic_transitions tempsA ⟨0, 0⟩ (.Temp 0) .Store mirA [0] 10
    candsA.reverse mirA mirAL tempsA tempsAL 0 (by decide) (by rfl)
  exact ⟨h.2.2.1, h.2.1⟩
/-! ## Re-processing (the skip guard) -/

theorem promote_candidate_appends (fuel : Nat) (s : Promoter) (c : Candidate)
    (mir' : Mir) (temps' : List TempState)
    (h : s.promote_candidate fuel c = .ok (mir', temps')) :
    mir'.promoted.length = s.source.promoted.length + 1 := by
  rw [Promoter.promote_candidate] at h
  cases hty : s.promoted.return_ty with
  | none =>
    rw [hty] at h
    cases h
  | some ty =>
    rw [hty] at h
    rw [bind_ok_iff] at h
    obtain ⟨ty0, hty0, h⟩ := h
    rw [pure_ok_iff] at hty0
    subst hty0
    simp only [] at h
    cases c with
    | Ref loc =>
      rcases loc with ⟨bb, stmt_idx⟩
      simp only [] at h
      cases hget : (s.source.blockD bb).statements.get? stmt_idx with
      | none =>
        rw [hget] at h
        rw [bind_ok_iff] at h
        obtain ⟨a, ha, -⟩ := h
        cases ha
      | some statement =>
        rw [hget] at h
        rw [bind_ok_iff] at h
        obtain ⟨⟨s1, rv1⟩, h1, h⟩ := h
        rw [pure_ok_iff, Prod.mk.injEq] at h1
        obtain ⟨hs1, -⟩ := h1
        simp only [] at h
        rw [bind_ok_iff] at h
        obtain ⟨⟨s2, rv2⟩, h2, h⟩ := h
        simp only [] at h
        rw [pure_ok_iff, Prod.mk.injEq] at h
        obtain ⟨hm, -⟩ := h
        have hp2 : s2.source.promoted = s1.source.promoted :=
          (pvRvalue_step (Promoter.promote_temp fuel)
            (fun a i a' n ha => promote_temp_step fuel a i a' n ha)
            s1 rv1 s2 rv2 h2).1.2.2.1
        have hp1 : s1.source.promoted = s.source.promoted := by
          rw [← hs1]
          rw [Mir.setStmtRhs, Mir.modifyBlock_promoted]
        have hsa : (s2.assign .ReturnPointer rv2 s.promoted.span).source = s2.source := rfl
        rw [← hm, Mir.pushPromoted_promoted, hsa, hp2, hp1, List.length_append]
        rfl
    | ShuffleIndices bb =>
      simp only [] at h
      cases hterm : (s.source.blockD bb).terminator.kind with
      | Call func args dest cleanup =>
        rw [hterm] at h
        simp only [] at h
        cases harg : args.get? 2 with
        | none =>
          rw [harg] at h
          rw [bind_ok_iff] at h
          obtain ⟨a, ha, -⟩ := h
          cases ha
        | some arg2 =>
          rw [harg] at h
          rw [bind_ok_iff] at h
          obtain ⟨⟨s1, rv1⟩, h1, h⟩ := h
          rw [pure_ok_iff, Prod.mk.injEq] at h1
          obtain ⟨hs1, -⟩ := h1
          simp only [] at h
          rw [bind_ok_iff] at h
          obtain ⟨⟨s2, rv2⟩, h2, h⟩ := h
          simp only [] at h
          rw [pure_ok_iff, Prod.mk.injEq] at h
          obtain ⟨hm, -⟩ := h
          have hp2 : s2.source.promoted = s1.source.promoted :=
            (pvRvalue_step (Promoter.promote_temp fuel)
              (fun a i a' n ha => promote_temp_step fuel a i a' n ha)
              s1 rv1 s2 rv2 h2).1.2.2.1
          have hp1 : s1.source.promoted = s.source.promoted := by
            rw [← hs1]
            rw [Mir.setTermKind, Mir.modifyBlock_promoted]
          have hsa : (s2.assign .ReturnPointer rv2 s.promoted.span).source = s2.source := rfl
          rw [← hm, Mir.pushPromoted_promoted, hsa, hp2, hp1, List.length_append]
          rfl
      | Goto target =>
        rw [hterm] at h
        cases h
      | Return =>
        rw [hterm] at h
        cases h
      | Resume =>
        rw [hterm] at h
        cases h
      | Drop value target unwind =>
        rw [hterm] at h
        cases h

/-- C5 corrected claim, proven: the driver skips a `Ref` candidate exactly
when the candidate's destination temporary is `PromotedOut` (leaving body and
table untouched), and otherwise a successful pass over the candidate appends
exactly one extracted body — extraction never flips the root's destination
temporary, so a second identical run re-extracts instead of extracting
nothing. -/
theorem C5_reprocessing_amended (fuel : Nat) (mir : Mir) (temps : List TempState)
    (bb stmt_idx index : Nat) (statement : Statement) (rhs : Rvalue)
    (mir' : Mir) (temps' : List TempState)
    (hget : (mir.blockD bb).statements.get? stmt_idx = some statement)
    (hkind : statement.kind = .Assign (.Temp index) rhs) :
    (temps.getD index .Undefined = .PromotedOut →
      processCandidate fuel mir temps (.Ref ⟨bb, stmt_idx⟩) = .ok (mir, temps)) ∧
    (temps.getD index .Undefined ≠ .PromotedOut →
      processCandidate fuel mir temps (.Ref ⟨bb, stmt_idx⟩) = .ok (mir', temps') →
      mir'.promoted.length = mir.promoted.length + 1) := by
  rcases statement with ⟨sp, sc, k⟩
  simp only [] at hkind
  subst hkind
  constructor
  · intro hpo
    rw [processCandidate.eq_def]
    simp only []
    rw [hget]
    simp only []
    rw [if_pos hpo]
    rfl
  · intro hnpo h
    rw [processCandidate.eq_def] at h
    simp only [] at h
    rw [hget] at h
    simp only [] at h
    rw [if_neg hnpo] at h
    cases hty : mir.lvalue_ty (.Temp index) with
    | none =>
      rw [hty] at h
      rw [bind_ok_iff] at h
      obtain ⟨a, ha, -⟩ := h
      cases ha
    | some ty =>
      rw [hty] at h
      rw [bind_ok_iff] at h
      obtain ⟨a, ha, h⟩ := h
      rw [pure_ok_iff] at ha
      subst ha
      simp only [] at h
      exact promote_candidate_appends fuel _ _ mir' temps' h

theorem C5_reprocessing_amended_witness :
    processCandidate 10 mirA [.PromotedOut, .PromotedOut] (.Ref ⟨0, 1⟩)
      = .ok (mirA, [.PromotedOut, .PromotedOut]) ∧
    mirAL.promoted.length = mirA.promoted.length + 1 := by
  have h1 := (C5_reprocessing_amended 10 mirA [.PromotedOut, .PromotedOut] 0 1 1
    (stmtAt mirA 0 1) (.Ref .Shared (.Temp 0)) mirA [.PromotedOut, .PromotedOut]
    (by rfl) (by rfl)).1 (by decide)
  have h2 := (C5_reprocessing_amended 10 mirA tempsA 0 1 1
    (stmtAt mirA 0 1) (.Ref .Shared (.Temp 0)) mirAL tempsAL
    (by rfl) (by rfl)).2 (by decide) (by rfl)
  exact ⟨h1, h2⟩

/-- C5 counterexample to the original claim: after scenario A's first run the
root's destination temporary `t1` is still `Defined`, not `PromotedOut`, so
the second identical run is not skipped by the guard — it appends a second
extracted body instead of extracting nothing. -/
theorem C5_counterexample :
    tempsA1.getD 1 .Undefined ≠ .PromotedOut ∧
    mirA1.promoted.length = 1 ∧
    (okMir runA2).promoted.length = 2 := by decide
/-! ## The engine never removes extracted-body blocks -/

theorem pvLvalue_pblocks (pt : PTFun)
    (hpt : ∀ s i s' n, pt s i = .ok (s', n) →
      s.promoted.basic_blocks.length ≤ s'.promoted.basic_blocks.length) :
    ∀ s lv s' lv', pvLvalue pt s lv = .ok (s', lv') →
      s.promoted.basic_blocks.length ≤ s'.promoted.basic_blocks.length := by
  intro s lv s' lv' h
  cases lv with
  | Temp index =>
    simp only [pvLvalue] at h
    rw [bind_ok_iff] at h
    obtain ⟨⟨s1, n⟩, hp, hrest⟩ := h
    simp only [pure_ok_iff, Prod.mk.injEq] at hrest
    obtain ⟨h1, -⟩ := hrest
    subst h1
    exact hpt s index _ n hp
  | Var index =>
    simp only [pvLvalue, pure_ok_iff, Prod.mk.injEq] at h
    obtain ⟨h1, -⟩ := h
    subst h1
    exact le_rfl
  | ReturnPointer =>
    simp only [pvLvalue, pure_ok_iff, Prod.mk.injEq] at h
    obtain ⟨h1, -⟩ := h
    subst h1
    exact le_rfl

theorem pvOperand_pblocks (pt : PTFun)
    (hpt : ∀ s i s' n, pt s i = .ok (s', n) →
      s.promoted.basic_blocks.length ≤ s'.promoted.basic_blocks.length) :
    ∀ s op s' op', pvOperand pt s op = .ok (s', op') →
      s.promoted.basic_blocks.length ≤ s'.promoted.basic_blocks.length := by
  intro s op s' op' h
  cases op with
  | Consume lv =>
    simp only [pvOperand] at h
    rw [bind_ok_iff] at h
    obtain ⟨⟨s1, lv1⟩, hp, hrest⟩ := h
    simp only [pure_ok_iff, Prod.mk.injEq] at hrest
    obtain ⟨h1, -⟩ := hrest
    subst h1
    exact pvLvalue_pblocks pt hpt s lv _ lv1 hp
  | Constant c =>
    simp only [pvOperand, pure_ok_iff, Prod.mk.injEq] at h
    obtain ⟨h1, -⟩ := h
    subst h1
    exact le_rfl

theorem pvOperands_pblocks (pt : PTFun)
    (hpt : ∀ s i s' n, pt s i = .ok (s', n) →
      s.promoted.basic_blocks.length ≤ s'.promoted.basic_blocks.length) :
    ∀ ops s s' ops', pvOperands pt s ops = .ok (s', ops') →
      s.promoted.basic_blocks.length ≤ s'.promoted.basic_blocks.length := by
  intro ops
  induction ops with
  | nil =>
    intro s s' ops' h
    simp only [pvOperands, pure_ok_iff, Prod.mk.injEq] at h
    obtain ⟨h1, -⟩ := h
    subst h1
    exact le_rfl
  | cons op rest ih =>
    intro s s' ops' h
    simp only [pvOperands] at h
    rw [bind_ok_iff] at h
    obtain ⟨⟨s1, op1⟩, h1, h⟩ := h
    simp only [] at h
    rw [bind_ok_iff] at h
    obtain ⟨⟨s2, rest2⟩, h2, h⟩ := h
    simp only [pure_ok_iff, Prod.mk.injEq] at h
    obtain ⟨h3, -⟩ := h
    subst h3
    exact le_trans (pvOperand_pblocks pt hpt s op s1 op1 h1) (ih s1 _ rest2 h2)

theorem pvRvalue_pblocks (pt : PTFun)
    (hpt : ∀ s i s' n, pt s i = .ok (s', n) →
      s.promoted.basic_blocks.length ≤ s'.promoted.basic_blocks.length) :
    ∀ s rv s' rv', pvRvalue pt s rv = .ok (s', rv') →
      s.promoted.basic_blocks.length ≤ s'.promoted.basic_blocks.length := by
  intro s rv s' rv' h
  cases rv with
  | Use op =>
    simp only [pvRvalue] at h
    rw [bind_ok_iff] at h
    obtain ⟨⟨s1, op1⟩, h1, h⟩ := h
    simp only [pure_ok_iff, Prod.mk.injEq] at h
    obtain ⟨h2, -⟩ := h
    subst h2
    exact pvOperand_pblocks pt hpt s op _ op1 h1
  | Ref k lv =>
    simp only [pvRvalue] at h
    rw [bind_ok_iff] at h
    obtain ⟨⟨s1, lv1⟩, h1, h⟩ := h
    simp only [pure_ok_iff, Prod.mk.injEq] at h
    obtain ⟨h2, -⟩ := h
    subst h2
    exact pvLvalue_pblocks pt hpt s lv _ lv1 h1
  | Len lv =>
    simp only [pvRvalue] at h
    rw [bind_ok_iff] at h
    obtain ⟨⟨s1, lv1⟩, h1, h⟩ := h
    simp only [pure_ok_iff, Prod.mk.injEq] at h
    obtain ⟨h2, -⟩ := h
    subst h2
    exact pvLvalue_pblocks pt hpt s lv _ lv1 h1
  | BinaryOp op a b =>
    simp only [pvRvalue] at h
    rw [bind_ok_iff] at h
    obtain ⟨⟨s1, a1⟩, h1, h⟩ := h
    simp only [] at h
    rw [bind_ok_iff] at h
    obtain ⟨⟨s2, b2⟩, h2, h⟩ := h
    simp only [pure_ok_iff, Prod.mk.injEq] at h
    obtain ⟨h3, -⟩ := h
    subst h3
    exact le_trans (pvOperand_pblocks pt hpt s a s1 a1 h1)
      (pvOperand_pblocks pt hpt s1 b _ b2 h2)
  | Aggregate k ops =>
    simp only [pvRvalue] at h
    rw [bind_ok_iff] at h
    obtain ⟨⟨s1, ops1⟩, h1, h⟩ := h
    simp only [pure_ok_iff, Prod.mk.injEq] at h
    obtain ⟨h2, -⟩ := h
    subst h2
    exact pvOperands_pblocks pt hpt ops s _ ops1 h1

theorem pvTermKind_pblocks (pt : PTFun)
    (hpt : ∀ s i s' n, pt s i = .ok (s', n) →
      s.promoted.basic_blocks.length ≤ s'.promoted.basic_blocks.length) :
    ∀ s kind s' kind', pvTermKind pt s kind = .ok (s', kind') →
      s.promoted.basic_blocks.length ≤ s'.promoted.basic_blocks.length := by
  intro s kind s' kind' h
  cases kind with
  | Call func args dest cleanup =>
    simp only [pvTermKind] at h
    rw [bind_ok_iff] at h
    obtain ⟨⟨s1, f1⟩, h1, h⟩ := h
    simp only [] at h
    rw [bind_ok_iff] at h
    obtain ⟨⟨s2, a2⟩, h2, h⟩ := h
    simp only [pure_ok_iff, Prod.mk.injEq] at h
    obtain ⟨h3, -⟩ := h
    subst h3
    exact le_trans (pvOperand_pblocks pt hpt s func s1 f1 h1)
      (pvOperands_pblocks pt hpt args s1 _ a2 h2)
  | Drop value target unwind =>
    simp only [pvTermKind] at h
    rw [bind_ok_iff] at h
    obtain ⟨⟨s1, v1⟩, h1, h⟩ := h
    simp only [pure_ok_iff, Prod.mk.injEq] at h
    obtain ⟨h2, -⟩ := h
    subst h2
    exact pvLvalue_pblocks pt hpt s value _ v1 h1
  | Goto target =>
    simp only [pvTermKind, pure_ok_iff, Prod.mk.injEq] at h
    obtain ⟨h1, -⟩ := h
    subst h1
    exact le_rfl
  | Return =>
    simp only [pvTermKind, pure_ok_iff, Prod.mk.injEq] at h
    obtain ⟨h1, -⟩ := h
    subst h1
    exact le_rfl
  | Resume =>
    simp only [pvTermKind, pure_ok_iff, Prod.mk.injEq] at h
    obtain ⟨h1, -⟩ := h
    subst h1
    exact le_rfl

theorem promoteTempBody_pblocks (pt : PTFun)
    (hpt : ∀ s i s' n, pt s i = .ok (s', n) →
      s.promoted.basic_blocks.length ≤ s'.promoted.basic_blocks.length) :
    ∀ s index s' n, promoteTempBody pt s index = .ok (s', n) →
      s.promoted.basic_blocks.length ≤ s'.promoted.basic_blocks.length := by
  intro s0 index s' n h
  simp only [promoteTempBody] at h
  split at h
  case h_2 => simp at h
  case h_1 bb stmt_idx uses heq =>
    split at h
    case isFalse => simp at h
    case isTrue hu0 =>
      have hpe : (ptEnter s0 index uses).promoted = s0.promoted :=
        ptEnter_promoted s0 index uses
      split at h
      case isTrue hlt =>
        rw [bind_ok_iff] at h
        obtain ⟨⟨s4, rv4⟩, hpv, hrest⟩ := h
        simp only [pure_ok_iff, Prod.mk.injEq] at hrest
        obtain ⟨hs', -⟩ := hrest
        subst hs'
        have h34' : s0.promoted.basic_blocks.length ≤
            s4.promoted.basic_blocks.length := by
          by_cases hko : (ptEnter s0 index uses).keep_original = true
          · rw [if_pos hko] at hpv
            have h34 := pvRvalue_pblocks pt hpt _ _ s4 rv4 hpv
            rw [hpe] at h34
            exact h34
          · rw [if_neg hko] at hpv
            have h34 := pvRvalue_pblocks pt hpt _ _ s4 rv4 hpv
            exact le_trans (le_of_eq (by rw [← hpe])) h34
        refine le_trans h34' (le_of_eq ?_)
        show s4.promoted.basic_blocks.length = _
        simp [Promoter.assign, Mir.modifyBlock_basic_blocks,
          Mir.pushTempDecl_basic_blocks, listModify_length]
      case isFalse hge =>
        by_cases hko : (ptEnter s0 index uses).keep_original = true
        · rw [if_pos hko] at h
          rw [bind_ok_iff] at h
          obtain ⟨y, hy, h⟩ := h
          rw [pure_ok_iff] at hy
          subst hy
          rw [bind_ok_iff] at h
          obtain ⟨⟨s4, call4⟩, hpv, h⟩ := h
          split at h
          next func args dest cleanup heqc =>
            simp only [pure_ok_iff, Prod.mk.injEq] at h
            obtain ⟨hs', -⟩ := h
            subst hs'
            have h34 := pvTermKind_pblocks pt hpt _ _ s4 call4 hpv
            rw [hpe] at h34
            refine le_trans h34 ?_
            show s4.promoted.basic_blocks.length ≤ _
            simp [Promoter.new_block, Mir.modifyBlock_basic_blocks,
              Mir.pushBlock_basic_blocks, Mir.pushTempDecl_basic_blocks,
              listModify_length]
          next => simp at h
        · rw [if_neg hko] at h
          split at h
          next f a dlv target cl heqt =>
            rw [bind_ok_iff] at h
            obtain ⟨y, hy, h⟩ := h
            rw [pure_ok_iff] at hy
            subst hy
            rw [bind_ok_iff] at h
            obtain ⟨⟨s4, call4⟩, hpv, h⟩ := h
            split at h
            next func args dest cleanup heqc =>
              simp only [pure_ok_iff, Prod.mk.injEq] at h
              obtain ⟨hs', -⟩ := h
              subst hs'
              have h34 := pvTermKind_pblocks pt hpt _ _ s4 call4 hpv
              have h34' : s0.promoted.basic_blocks.length ≤
                  s4.promoted.basic_blocks.length :=
                le_trans (le_of_eq (by rw [← hpe])) h34
              refine le_trans h34' ?_
              show s4.promoted.basic_blocks.length ≤ _
              simp [Promoter.new_block, Mir.modifyBlock_basic_blocks,
                Mir.pushBlock_basic_blocks, Mir.pushTempDecl_basic_blocks,
                listModify_length]
            next => simp at h
          next =>
            rw [bind_ok_iff] at h
            obtain ⟨y, hy, -⟩ := h
            simp at hy

theorem promote_temp_pblocks :
    ∀ fuel s index s' n, Promoter.promote_temp fuel s index = .ok (s', n) →
      s.promoted.basic_blocks.length ≤ s'.promoted.basic_blocks.length := by
  intro fuel
  induction fuel with
  | zero =>
    intro s index s' n h
    rw [promote_temp_zero] at h
    cases h
  | succ fuel ih =>
    intro s index s' n h
    rw [promote_temp_succ] at h
    exact promoteTempBody_pblocks _ ih s index s' n h
/-! ## The cleanup edge of an extracted call -/

theorem pvTermKind_call_shape (pt : PTFun) (s : Promoter) (func : Operand)
    (args : List Operand) (dest : Option (Lvalue × BasicBlock))
    (cl : Option BasicBlock) (s' : Promoter) (kind' : TerminatorKind)
    (h : pvTermKind pt s (.Call func args dest cl) = .ok (s', kind')) :
    ∃ func' args', kind' = .Call func' args' dest cl := by
  simp only [pvTermKind] at h
  rw [bind_ok_iff] at h
  obtain ⟨⟨s1, f1⟩, h1, h⟩ := h
  simp only [] at h
  rw [bind_ok_iff] at h
  obtain ⟨⟨s2, a2⟩, h2, h⟩ := h
  simp only [pure_ok_iff, Prod.mk.injEq] at h
  obtain ⟨-, hk⟩ := h
  exact ⟨f1, a2, hk.symm⟩

/-- C4 corrected claim, proven: when `promote_temp` takes a call-terminator
definition, the call emitted into the extracted body has its cleanup edge
stripped only in the move case (where the source terminator also becomes a
goto to the call's return target); in the clone case (`uses > 1` or an
enclosing `keep_original`) the emitted call keeps the source call's cleanup
edge unchanged and the source body is untouched.  In both cases the emitted
call's destination is the fresh temp and the freshly created continuation
block right after the emitted call's block. -/
theorem C4_call_cleanup_amended (fuel : Nat) (s : Promoter) (index : Nat)
    (bb k uses : Nat) (func : Operand) (args : List Operand)
    (dlv : Lvalue) (target : BasicBlock) (cl : Option BasicBlock)
    (s' : Promoter) (n : Nat)
    (hdef : s.temps.getD index .Undefined = .Defined ⟨bb, k⟩ uses)
    (huses : 0 < uses)
    (hge : (s.source.blockD bb).statements.length ≤ k)
    (hterm : (termAt s.source bb).kind = .Call func args (some (dlv, target)) cl)
    (hblk : 0 < s.promoted.basic_blocks.length)
    (h : Promoter.promote_temp (fuel + 1) s index = .ok (s', n)) :
    2 ≤ s'.promoted.basic_blocks.length ∧
    ∃ L tgt func' args',
      tgt = L + 1 ∧
      s'.promoted.basic_blocks.length = tgt + 1 ∧
      (termAt s'.promoted L).kind =
        .Call func' args' (some (.Temp n, tgt))
          (if uses > 1 ∨ s.keep_original = true then cl else none) ∧
      ((uses > 1 ∨ s.keep_original = true) → s'.source = s.source) ∧
      (¬(uses > 1 ∨ s.keep_original = true) →
        (termAt s'.source bb).kind = .Goto target) := by
  have hbb : bb < s.source.basic_blocks.length := by
    by_contra hnb
    rw [termAt, Mir.blockD, List.getD_eq_default _ _ (by omega)] at hterm
    cases hterm
  rw [promote_temp_succ] at h
  simp only [promoteTempBody] at h
  rw [hdef] at h
  simp only [] at h
  rw [if_pos huses] at h
  rw [if_neg (by rw [ptEnter_source]; exact not_lt.mpr hge)] at h
  have hterm' : ((ptEnter s index uses).source.blockD bb).terminator.kind
      = .Call func args (some (dlv, target)) cl := by
    rw [ptEnter_source]
    exact hterm
  by_cases hko : (ptEnter s index uses).keep_original = true
  · -- clone case
    have hcond : uses > 1 ∨ s.keep_original = true := by
      have hb : (decide (uses > 1) || s.keep_original) = true := by
        rw [← ptEnter_keep]
        exact hko
      rcases Bool.or_eq_true_iff.mp hb with h1 | h1
      · exact Or.inl (of_decide_eq_true h1)
      · exact Or.inr h1
    rw [if_pos hko] at h
    rw [bind_ok_iff] at h
    obtain ⟨y, hy, h⟩ := h
    rw [pure_ok_iff] at hy
    subst hy
    rw [hterm'] at h
    rw [bind_ok_iff] at h
    obtain ⟨⟨s4, call4⟩, hpv, h⟩ := h
    obtain ⟨func', args', hc4⟩ :=
      pvTermKind_call_shape _ _ func args _ cl s4 call4 hpv
    subst hc4
    simp only [] at h
    rw [pure_ok_iff, Prod.mk.injEq] at h
    obtain ⟨hs', hn⟩ := h
    have hlen4 : 0 < s4.promoted.basic_blocks.length := by
      have := pvTermKind_pblocks (Promoter.promote_temp fuel)
        (fun a i a' m ha => promote_temp_pblocks fuel a i a' m ha)
        _ _ s4 _ hpv
      rw [ptEnter_promoted] at this
      omega
    have hsrc4 : s4.source = s.source := by
      have hks := pvTermKind_keep (Promoter.promote_temp fuel)
        (fun a i a' m hk ha => promote_temp_keep fuel a i a' m hk ha)
        _ _ s4 _ hko hpv
      rw [hks.1, ptEnter_source]
    rw [← hs', ← hn]
    rw [if_pos hcond]
    refine ⟨?_, s4.promoted.basic_blocks.length - 1,
      (s4.promoted.pushTempDecl ⟨(s4.source.temp_decls.getD index default).ty⟩).basic_blocks.length,
      func', args', ?_, ?_, ?_, fun _ => hsrc4, fun habs => absurd hcond habs⟩
    · show 2 ≤ (_ : Mir).basic_blocks.length
      simp [Promoter.new_block, Mir.modifyBlock_basic_blocks,
        Mir.pushBlock_basic_blocks, Mir.pushTempDecl_basic_blocks, listModify_length]
      omega
    · simp [Mir.pushTempDecl_basic_blocks]
      omega
    · show (_ : Mir).basic_blocks.length = _
      simp [Promoter.new_block, Mir.modifyBlock_basic_blocks,
        Mir.pushBlock_basic_blocks, Mir.pushTempDecl_basic_blocks, listModify_length]
    · rw [termAt]
      simp only [Promoter.new_block]
      rw [blockD_modifyBlock]
      split
      · rfl
      · next hcnd =>
        exfalso
        apply hcnd
        constructor
        · simp [Mir.pushTempDecl_basic_blocks]
        · simp [Mir.pushBlock_basic_blocks, Mir.pushTempDecl_basic_blocks]
          exact Nat.lt_succ_of_le (Nat.sub_le _ _)
  · -- move case
    have hcond : ¬(uses > 1 ∨ s.keep_original = true) := by
      have hb : (decide (uses > 1) || s.keep_original) = false := by
        rw [← ptEnter_keep]
        simpa using hko
      rcases Bool.or_eq_false_iff.mp hb with ⟨h1, h2⟩
      intro hc
      rcases hc with hc | hc
      · exact absurd (decide_eq_true hc) (by rw [h1]; exact fun hx => by cases hx)
      · rw [hc] at h2
        cases h2
    rw [if_neg hko] at h
    rw [hterm'] at h
    simp only [] at h
    rw [bind_ok_iff] at h
    obtain ⟨y, hy, h⟩ := h
    rw [pure_ok_iff] at hy
    subst hy
    rw [bind_ok_iff] at h
    obtain ⟨⟨s4, call4⟩, hpv, h⟩ := h
    obtain ⟨func', args', hc4⟩ :=
      pvTermKind_call_shape _ _ func args none none s4 call4 hpv
    subst hc4
    simp only [] at h
    rw [pure_ok_iff, Prod.mk.injEq] at h
    obtain ⟨hs', hn⟩ := h
    have hlen4 : 0 < s4.promoted.basic_blocks.length := by
      have := pvTermKind_pblocks (Promoter.promote_temp fuel)
        (fun a i a' m ha => promote_temp_pblocks fuel a i a' m ha)
        _ _ s4 _ hpv
      have hpe : (({ ptEnter s index uses with
          source := (ptEnter s index uses).source.setTermKind bb (.Goto target) } :
          Promoter)).promoted = s.promoted := ptEnter_promoted s index uses
      rw [hpe] at this
      omega
    have hgoto4 : (termAt s4.source bb).kind = .Goto target := by
      have hstep := pvTermKind_step (Promoter.promote_temp fuel)
        (fun a i a' m ha => promote_temp_step fuel a i a' m ha)
        _ _ s4 _ hpv
      refine SrcCore_goto_persist hstep.1 bb target ?_
      show (termAt ((ptEnter s index uses).source.setTermKind bb (.Goto target)) bb).kind
        = .Goto target
      rw [setTermKind_termAt, if_pos ⟨rfl, by rw [ptEnter_source]; exact hbb⟩]
    rw [← hs', ← hn]
    rw [if_neg hcond]
    refine ⟨?_, s4.promoted.basic_blocks.length - 1,
      (s4.promoted.pushTempDecl ⟨(s4.source.temp_decls.getD index default).ty⟩).basic_blocks.length,
      func', args', ?_, ?_, ?_, fun hc => absurd hc hcond, fun _ => hgoto4⟩
    · show 2 ≤ (_ : Mir).basic_blocks.length
      simp [Promoter.new_block, Mir.modifyBlock_basic_blocks,
        Mir.pushBlock_basic_blocks, Mir.pushTempDecl_basic_blocks, listModify_length]
      omega
    · simp [Mir.pushTempDecl_basic_blocks]
      omega
    · show (_ : Mir).basic_blocks.length = _
      simp [Promoter.new_block, Mir.modifyBlock_basic_blocks,
        Mir.pushBlock_basic_blocks, Mir.pushTempDecl_basic_blocks, listModify_length]
    · rw [termAt]
      simp only [Promoter.new_block]
      rw [blockD_modifyBlock]
      split
      · rfl
      · next hcnd =>
        exfalso
        apply hcnd
        constructor
        · simp [Mir.pushTempDecl_basic_blocks]
        · simp [Mir.pushBlock_basic_blocks, Mir.pushTempDecl_basic_blocks]
          exact Nat.lt_succ_of_le (Nat.sub_le _ _)

theorem C4_call_cleanup_amended_witness :
    (termAt sD'.source 0).kind = .Goto 1 ∧ sE'.source = sE.source := by
  have hD := C4_call_cleanup_amended 4 sD 0 0 0 1 (constOp 7) [] (.Temp 0) 1
    (some 2) sD' nD (by decide) (by decide) (by decide) (by decide) (by decide)
    (by rfl)
  have hE := C4_call_cleanup_amended 4 sE 0 0 0 2 (constOp 7) [] (.Temp 0) 1
    (some 2) sE' nE (by decide) (by decide) (by decide) (by decide) (by decide)
    (by rfl)
  obtain ⟨-, L1, t1, f1, a1, -, -, -, -, hDgoto⟩ := hD
  obtain ⟨-, L2, t2, f2, a2, -, -, -, hEsrc, -⟩ := hE
  exact ⟨hDgoto (by decide), hEsrc (by decide)⟩

/-- C4 counterexample to the original claim: in scenario E the doubly-used
call-defined `t0` is extracted by cloning, and the call emitted into the
extracted body keeps its cleanup edge (`some 2`) instead of having it
stripped. -/
theorem C4_counterexample :
    tempsE.getD 0 .Undefined = .Defined ⟨0, 0⟩ 2 ∧
    ((mirE1.promoted.getD 0 default).blockD 1).terminator.kind =
      .Call (constOp 7) [] (some (.Temp 1, 2)) (some 2) := by decide
/-! ## The promoted-literal index and the root swap -/

/-- C8: `promote_candidate` builds the promoted-value reference literal with
index equal to the length of the source's extracted-body list at the moment
of building, swaps it into the root site (the assignment's right-hand side
for `Ref`, the call's third argument for `ShuffleIndices`), and appends the
finished extracted body to that list — so the literal's index addresses
exactly the body produced for this candidate.  (The root site afterwards
either still carries the literal, or was itself emptied by the extraction of
a temporary the table registers at that very site.) -/
theorem C8_promoted_literal_index (fuel : Nat) (s : Promoter) (ty : Ty)
    (mir' : Mir) (temps' : List TempState)
    (hty : s.promoted.return_ty = some ty) :
    (∀ bb stmt_idx dest rhs statement,
      (s.source.blockD bb).statements.get? stmt_idx = some statement →
      statement.kind = .Assign dest rhs →
      s.promote_candidate fuel (.Ref ⟨bb, stmt_idx⟩) = .ok (mir', temps') →
      mir'.promoted.length = s.source.promoted.length + 1 ∧
      (∃ body, mir'.promoted = s.source.promoted ++ [body] ∧
        mir'.promoted.getD s.source.promoted.length default = body) ∧
      ((stmtAt mir' bb stmt_idx).kind = .Assign dest
          (.Use (.Constant { span := s.promoted.span, ty := ty, literal := .Promoted s.source.promoted.length })) ∨
        ((stmtAt mir' bb stmt_idx).kind = .Assign dest (.Aggregate .Tuple []) ∧
         ∃ t u, s.temps.getD t .Undefined = .Defined ⟨bb, stmt_idx⟩ u ∧
                temps'.getD t .Undefined = .PromotedOut))) ∧
    (∀ bb func args dest0 cl arg2,
      (s.source.blockD bb).terminator.kind = .Call func args dest0 cl →
      args.get? 2 = some arg2 →
      s.promote_candidate fuel (.ShuffleIndices bb) = .ok (mir', temps') →
      mir'.promoted.length = s.source.promoted.length + 1 ∧
      (∃ body, mir'.promoted = s.source.promoted ++ [body] ∧
        mir'.promoted.getD s.source.promoted.length default = body) ∧
      ((termAt mir' bb).kind = .Call func
          (args.set 2 (.Constant { span := s.promoted.span, ty := ty, literal := .Promoted s.source.promoted.length })) dest0 cl ∨
        ((∃ tgt, (termAt mir' bb).kind = .Goto tgt) ∧
         ∃ t u k, (s.source.blockD bb).statements.length ≤ k ∧
           s.temps.getD t .Undefined = .Defined ⟨bb, k⟩ u ∧
           temps'.getD t .Undefined = .PromotedOut))) := by
  constructor
  · intro bb stmt_idx dest rhs statement hget hkind h
    have hbb : bb < s.source.basic_blocks.length := by
      by_contra hnb
      rw [Mir.blockD, List.getD_eq_default _ _ (not_lt.mp hnb)] at hget
      cases hget
    have hlen : stmt_idx < (s.source.blockD bb).statements.length :=
      List.get?_eq_some.mp hget |>.1
    have hgetD : (s.source.blockD bb).statements.getD stmt_idx default = statement := by
      rw [List.getD_eq_getElem?_getD, ← List.get?_eq_getElem?, hget]
      rfl
    rw [Promoter.promote_candidate, hty] at h
    rw [bind_ok_iff] at h
    obtain ⟨ty0, hty0, h⟩ := h
    rw [pure_ok_iff] at hty0
    subst hty0
    simp only [] at h
    rw [hget] at h
    rw [bind_ok_iff] at h
    obtain ⟨⟨s1, rv1⟩, h1, h⟩ := h
    rw [pure_ok_iff, Prod.mk.injEq] at h1
    obtain ⟨hs1, -⟩ := h1
    simp only [] at h
    rw [bind_ok_iff] at h
    obtain ⟨⟨s2, rv2⟩, h2, h⟩ := h
    simp only [] at h
    rw [pure_ok_iff, Prod.mk.injEq] at h
    obtain ⟨hm, ht⟩ := h
    have hstep2 : SrcStep s1 s2 :=
      pvRvalue_step (Promoter.promote_temp fuel)
        (fun a i a' n ha => promote_temp_step fuel a i a' n ha) s1 rv1 s2 rv2 h2
    have hp2 : s2.source.promoted = s1.source.promoted := hstep2.1.2.2.1
    have hp1 : s1.source.promoted = s.source.promoted := by
      rw [← hs1]
      rw [Mir.setStmtRhs, Mir.modifyBlock_promoted]
    have hsa : (s2.assign .ReturnPointer rv2 s.promoted.span).source = s2.source := rfl
    have hpm : mir'.promoted = s.source.promoted
        ++ [(s2.assign .ReturnPointer rv2 s.promoted.span).promoted] := by
      rw [← hm, Mir.pushPromoted_promoted, hsa, hp2, hp1]
    have hgetb : mir'.promoted.getD s.source.promoted.length default
        = (s2.assign .ReturnPointer rv2 s.promoted.span).promoted := by
      rw [hpm, List.getD_eq_getElem?_getD, List.getElem?_append_right le_rfl]
      simp
    refine ⟨by rw [hpm, List.length_append]; rfl, ⟨_, hpm, hgetb⟩, ?_⟩
    have hsw : stmtAt s1.source bb stmt_idx = { stmtAt s.source bb stmt_idx with kind := .Assign (stmtAt s.source bb stmt_idx).kind.destOf (.Use (.Constant { span := s.promoted.span, ty := ty, literal := .Promoted s.source.promoted.length })) } := by
      rw [← hs1]
      show stmtAt (s.source.setStmtRhs bb stmt_idx _) bb stmt_idx = _
      rw [setStmtRhs_stmtAt, if_pos ⟨rfl, hbb, rfl, hlen⟩]
    have hdest : (stmtAt s.source bb stmt_idx).kind.destOf = dest := by
      rw [stmtAt, hgetD, hkind]
      rfl
    have hsm : stmtAt mir' bb stmt_idx = stmtAt s2.source bb stmt_idx := by
      rw [← hm, stmtAt, stmtAt, blockD_pushPromoted, hsa]
    have htm2 : temps' = s2.temps := ht.symm
    rcases hstep2.1.2.2.2.2.2.2.2.1 bb stmt_idx with heq | ⟨-, -, hkd, t, u, hdf, hpo⟩
    · left
      rw [hsm, heq, hsw, hdest]
    · right
      have htm1 : s1.temps = s.temps := by rw [← hs1]
      refine ⟨?_, t, u, by rw [← htm1]; exact hdf, by rw [htm2]; exact hpo⟩
      rw [hsm, hkd, hsw]
      show StatementKind.Assign (StatementKind.Assign _ _).destOf _ = _
      rw [StatementKind.destOf, hdest]
  · intro bb func args dest0 cl arg2 hterm harg h
    have hbb : bb < s.source.basic_blocks.length := by
      by_contra hnb
      rw [Mir.blockD, List.getD_eq_default _ _ (not_lt.mp hnb)] at hterm
      cases hterm
    rw [Promoter.promote_candidate, hty] at h
    rw [bind_ok_iff] at h
    obtain ⟨ty0, hty0, h⟩ := h
    rw [pure_ok_iff] at hty0
    subst hty0
    simp only [] at h
    rw [hterm] at h
    simp only [] at h
    rw [harg] at h
    rw [bind_ok_iff] at h
    obtain ⟨⟨s1, rv1⟩, h1, h⟩ := h
    rw [pure_ok_iff, Prod.mk.injEq] at h1
    obtain ⟨hs1, -⟩ := h1
    simp only [] at h
    rw [bind_ok_iff] at h
    obtain ⟨⟨s2, rv2⟩, h2, h⟩ := h
    simp only [] at h
    rw [pure_ok_iff, Prod.mk.injEq] at h
    obtain ⟨hm, ht⟩ := h
    have hstep2 : SrcStep s1 s2 :=
      pvRvalue_step (Promoter.promote_temp fuel)
        (fun a i a' n ha => promote_temp_step fuel a i a' n ha) s1 rv1 s2 rv2 h2
    have hp2 : s2.source.promoted = s1.source.promoted := hstep2.1.2.2.1
    have hp1 : s1.source.promoted = s.source.promoted := by
      rw [← hs1]
      rw [Mir.setTermKind, Mir.modifyBlock_promoted]
    have hsa : (s2.assign .ReturnPointer rv2 s.promoted.span).source = s2.source := rfl
    have hpm : mir'.promoted = s.source.promoted
        ++ [(s2.assign .ReturnPointer rv2 s.promoted.span).promoted] := by
      rw [← hm, Mir.pushPromoted_promoted, hsa, hp2, hp1]
    have hgetb : mir'.promoted.getD s.source.promoted.length default
        = (s2.assign .ReturnPointer rv2 s.promoted.span).promoted := by
      rw [hpm, List.getD_eq_getElem?_getD, List.getElem?_append_right le_rfl]
      simp
    refine ⟨by rw [hpm, List.length_append]; rfl, ⟨_, hpm, hgetb⟩, ?_⟩
    have hsw : termAt s1.source bb = { termAt s.source bb with kind := .Call func (args.set 2 (.Constant { span := s.promoted.span, ty := ty, literal := .Promoted s.source.promoted.length })) dest0 cl } := by
      rw [← hs1]
      show termAt (s.source.setTermKind bb _) bb = _
      rw [setTermKind_termAt, if_pos ⟨rfl, hbb⟩]
    have hsm : termAt mir' bb = termAt s2.source bb := by
      rw [← hm, termAt, termAt, blockD_pushPromoted, hsa]
    have htm2 : temps' = s2.temps := ht.symm
    have hsl : (s1.source.blockD bb).statements.length
        = (s.source.blockD bb).statements.length := by
      rw [← hs1]
      show ((s.source.setTermKind bb _).blockD bb).statements.length = _
      rw [setTermKind_stmts_len]
    rcases hstep2.1.2.2.2.2.2.2.2.2.1 bb with heq | ⟨-, -, ⟨f', a', d', tg', c', ho, hgo⟩,
        t, u, k, hk, hdf, hpo⟩
    · left
      rw [hsm, heq, hsw]
    · right
      have htm1 : s1.temps = s.temps := by rw [← hs1]
      exact ⟨⟨tg', by rw [hsm]; exact hgo⟩, t, u, k, by rw [← hsl]; exact hk,
        by rw [← htm1]; exact hdf, by rw [htm2]; exact hpo⟩

theorem C8_promoted_literal_index_witness :
    mirC8.promoted.length = mirA.promoted.length + 1 ∧
    (stmtAt mirC8 0 1).kind = .Assign (.Temp 1)
      (.Use (.Constant { span := 1, ty := 11, literal := .Promoted 0 })) := by
  have h := (C8_promoted_literal_index 10 sC8 11 mirC8 tempsC8 (by rfl)).1
    0 1 (.Temp 1) (.Ref .Shared (.Temp 0)) (stmtAt mirA 0 1)
    (by rfl) (by rfl) (by rfl)
  refine ⟨h.1, ?_⟩
  rcases h.2.2 with hc | ⟨-, t, u, hdf, hpo⟩
  · exact hc
  · exfalso
    by_cases h0 : t = 0
    · subst h0
      have hd0 : sC8.temps.getD 0 .Undefined = .Defined ⟨0, 0⟩ 1 := by decide
      rw [hd0] at hdf
      simp at hdf
    by_cases h1 : t = 1
    · subst h1
      have hp1 : tempsC8.getD 1 .Undefined = .Defined ⟨0, 1⟩ 1 := by decide
      rw [hp1] at hpo
      cases hpo
    · have hlen2 : sC8.temps.length ≤ t := by
        have h2 : sC8.temps.length = 2 := by decide
        omega
      rw [List.getD_eq_default _ _ hlen2] at hdf
      cases hdf
/-! ## A processed root site ends read-free -/

theorem sweep_blockD_ge (temps : List TempState) (mir : Mir) (bb : Nat)
    (h : mir.basic_blocks.length ≤ bb) :
    (sweep temps mir).blockD bb = default := by
  simp only [sweep, Mir.blockD, Mir.setBlocks_basic_blocks]
  rw [List.getD_eq_default]
  simpa using h

theorem processCandidate_root_empty (fuel : Nat) (mir : Mir)
    (temps : List TempState) (bb k index : Nat)
    (mir1 : Mir) (temps1 : List TempState)
    (hk : k < (mir.blockD bb).statements.length)
    (hdest : (stmtAt mir bb k).kind.destOf = .Temp index)
    (h : processCandidate fuel mir temps (.Ref ⟨bb, k⟩) = .ok (mir1, temps1)) :
    rvReadTemps (stmtAt mir1 bb k).kind.rhsOf = [] ∨
    temps1.getD index .Undefined = .PromotedOut := by
  have hbb : bb < mir.basic_blocks.length := by
    by_contra hnb
    rw [Mir.blockD, List.getD_eq_default _ _ (not_lt.mp hnb)] at hk
    exact Nat.not_lt_zero k hk
  have hget : (mir.blockD bb).statements.get? k = some (stmtAt mir bb k) := by
    rw [stmtAt, List.getD_eq_getElem?_getD, ← List.get?_eq_getElem?,
      List.get?_eq_get hk]
    rfl
  rw [processCandidate.eq_def] at h
  simp only [] at h
  rw [hget] at h
  rcases hst : stmtAt mir bb k with ⟨sp, sc, kind⟩
  rcases kind with ⟨dest, rhs⟩
  rw [hst] at h hdest
  have hdest' : dest = .Temp index := hdest
  subst hdest'
  simp only [] at h
  by_cases hpo : temps.getD index .Undefined = .PromotedOut
  · rw [if_pos hpo] at h
    rw [bind_ok_iff] at h
    obtain ⟨a, ha, h⟩ := h
    rw [pure_ok_iff] at ha
    subst ha
    simp only [] at h
    rw [pure_ok_iff, Prod.mk.injEq] at h
    obtain ⟨-, ht⟩ := h
    right
    rw [← ht]
    exact hpo
  · rw [if_neg hpo] at h
    cases hty : mir.lvalue_ty (.Temp index) with
    | none =>
      rw [hty] at h
      rw [bind_ok_iff] at h
      obtain ⟨a, ha, -⟩ := h
      cases ha
    | some ty =>
      rw [hty] at h
      rw [bind_ok_iff] at h
      obtain ⟨a, ha, h⟩ := h
      rw [pure_ok_iff] at ha
      subst ha
      simp only [] at h
      -- inside promote_candidate
      rw [Promoter.promote_candidate] at h
      have hrty : (({ source := mir, promoted := Mir.mk [] [] (some ty) [] [] sp, temps := temps, keep_original := false } : Promoter).new_block.1).promoted.return_ty = some ty := rfl
      rw [hrty] at h
      rw [bind_ok_iff] at h
      obtain ⟨ty0, hty0, h⟩ := h
      rw [pure_ok_iff] at hty0
      subst hty0
      simp only [] at h
      have hsrc0 : (({ source := mir, promoted := Mir.mk [] [] (some ty) [] [] sp, temps := temps, keep_original := false } : Promoter).new_block.1).source = mir := rfl
      rw [hsrc0] at h
      rw [hget] at h
      rw [hst] at h
      simp only [] at h
      rw [bind_ok_iff] at h
      obtain ⟨⟨s1, rv1⟩, h1, h⟩ := h
      rw [pure_ok_iff, Prod.mk.injEq] at h1
      obtain ⟨hs1, -⟩ := h1
      simp only [] at h
      rw [bind_ok_iff] at h
      obtain ⟨⟨s2, rv2⟩, h2, h⟩ := h
      simp only [] at h
      rw [pure_ok_iff, Prod.mk.injEq] at h
      obtain ⟨hm, -⟩ := h
      left
      have hstep2 : SrcStep s1 s2 :=
        pvRvalue_step (Promoter.promote_temp fuel)
          (fun a i a' n ha => promote_temp_step fuel a i a' n ha) s1 rv1 s2 rv2 h2
      have hsw : rvReadTemps (stmtAt s1.source bb k).kind.rhsOf = [] := by
        rw [← hs1]
        show rvReadTemps (stmtAt (mir.setStmtRhs bb k _) bb k).kind.rhsOf = []
        rw [setStmtRhs_stmtAt, if_pos ⟨rfl, hbb, rfl, hk⟩]
        rfl
      have hsm : stmtAt mir1 bb k = stmtAt s2.source bb k := by
        rw [← hm, stmtAt, stmtAt, blockD_pushPromoted]
        rfl
      rw [hsm]
      rw [List.eq_nil_iff_forall_not_mem]
      intro j hj
      have := SrcCore_stmt_reads_shrink hstep2.1 bb k j hj
      rw [hsw] at this
      cases this

theorem promoteLoop_root_empty (fuel : Nat) :
    ∀ (cs : List Candidate) (mir : Mir) (temps : List TempState)
      (mir' : Mir) (temps' : List TempState) (bb k index : Nat),
      promoteLoop fuel cs mir temps = .ok (mir', temps') →
      (.Ref ⟨bb, k⟩ : Candidate) ∈ cs →
      k < (mir.blockD bb).statements.length →
      (stmtAt mir bb k).kind.destOf = .Temp index →
      (rvReadTemps (stmtAt mir' bb k).kind.rhsOf = [] ∨
       temps'.getD index .Undefined = .PromotedOut) := by
  intro cs
  induction cs with
  | nil =>
    intro mir temps mir' temps' bb k index h hmem hk hdest
    cases hmem
  | cons c rest ih =>
    intro mir temps mir' temps' bb k index h hmem hk hdest
    rw [promoteLoop] at h
    rw [bind_ok_iff] at h
    obtain ⟨⟨m1, t1⟩, h1, h⟩ := h
    simp only [] at h
    have hls1 : LoopStep mir temps m1 t1 := processCandidate_effects fuel mir temps c m1 t1 h1
    have hls2 : LoopStep m1 t1 mir' temps' := promoteLoop_effects fuel rest m1 t1 mir' temps' h
    rcases List.mem_cons.mp hmem with hc | hrest
    · subst hc
      rcases processCandidate_root_empty fuel mir temps bb k index m1 t1 hk hdest h1
        with hempty | hpo1
      · left
        rw [List.eq_nil_iff_forall_not_mem]
        intro j hj
        have := hls2.2.2.2.2.2.2.2.2.1 bb k j hj
        rw [hempty] at this
        cases this
      · right
        have hev : promoteEvolve t1 temps' := hls2.1
        exact promoteEvolve_po_persist hev hpo1
    · refine ih m1 t1 mir' temps' bb k index h hrest ?_ ?_
      · rw [hls1.2.2.2.2.2.2.1 bb]
        exact hk
      · rw [(hls1.2.2.2.2.2.2.2.1 bb k).2]
        exact hdest
/-! ## Sweep terminator helpers -/

theorem sweepBlock_termWrites (temps : List TempState) (B : BasicBlockData) (i : Nat)
    (h : termWritesTemp i (sweepBlock temps B).terminator.kind = true) :
    termWritesTemp i B.terminator.kind = true := by
  rw [sweepBlock] at h
  simp only [] at h
  split at h
  next j tgt unw heq =>
    split at h
    · simp [termWritesTemp] at h
    · exact h
  next => exact h

theorem sweepBlock_termReads (temps : List TempState) (B : BasicBlockData) (j : Nat)
    (h : j ∈ termReadTemps (sweepBlock temps B).terminator.kind) :
    j ∈ termReadTemps B.terminator.kind := by
  rw [sweepBlock] at h
  simp only [] at h
  split at h
  next j' tgt unw heq =>
    split at h
    · simp [termReadTemps] at h
    · exact h
  next => exact h

theorem sweepBlock_drop (temps : List TempState) (B : BasicBlockData)
    (idx : Nat) (tgt : BasicBlock) (unw : Option BasicBlock)
    (h : (sweepBlock temps B).terminator.kind = .Drop (.Temp idx) tgt unw) :
    isPromotedOut temps idx = false := by
  rw [sweepBlock] at h
  simp only [] at h
  split at h
  next j' tgt' unw' heq =>
    split at h
    · cases h
    · next hnpo =>
      rw [heq] at h
      injection h with h1 h2 h3
      injection h1 with h1'
      subst h1'
      simpa using hnpo
  next hother =>
    rw [h] at hother
    exact absurd rfl (hother _ _ _)
/-- C1 corrected claim, proven: a single-use move eliminates the temporary
from the source body *provided the temporary was actually extracted*, i.e.
its table entry ends `PromotedOut` (a `uses == 1` temporary reached under a
forced `keep_original` — because some ancestor in the extraction has
`uses > 1` — is duplicated instead, and its entry stays `Defined`).  For a
temporary whose entry flips from `Defined` to `PromotedOut` across the
driver, under definition/read-placement hypotheses matching the analyzer's
bookkeeping (its only call-destination write sits at its registered
terminator location; every right-hand-side read of it sits at a site whose
own registered temp ends flipped or at a `Ref` candidate root; every
terminator read of it sits at a flipped call-site), the swept source body
contains no assignment to it, no call destination naming it, no read of it,
and no drop of it. -/
theorem C1_single_use_move_amended (fuel : Nat) (mir : Mir) (temps : List TempState)
    (cs : List Candidate) (mir' : Mir) (temps' : List TempState)
    (i : Nat) (l : Location) (u : Nat)
    (hrun : promote_candidates fuel mir temps cs = .ok (mir', temps'))
    (hdef : temps.getD i .Undefined = .Defined l u)
    (hpo : temps'.getD i .Undefined = .PromotedOut)
    (hwrt : ∀ bb, termWritesTemp i (termAt mir bb).kind = true →
      bb = l.block ∧ (mir.blockD bb).statements.length ≤ l.statement_index)
    (hreads : ∀ bb k, k < (mir.blockD bb).statements.length →
      i ∈ rvReadTemps (stmtAt mir bb k).kind.rhsOf →
      (∃ t u', temps.getD t .Undefined = .Defined ⟨bb, k⟩ u' ∧
               temps'.getD t .Undefined = .PromotedOut) ∨
      (∃ index, (.Ref ⟨bb, k⟩ : Candidate) ∈ cs ∧
        (stmtAt mir bb k).kind.destOf = .Temp index))
    (hreadt : ∀ bb, i ∈ termReadTemps (termAt mir bb).kind →
      ∃ t u' k, (mir.blockD bb).statements.length ≤ k ∧
        temps.getD t .Undefined = .Defined ⟨bb, k⟩ u' ∧
        temps'.getD t .Undefined = .PromotedOut) :
    (∀ bb, ∀ st ∈ (mir'.blockD bb).statements, st.kind.destOf ≠ .Temp i) ∧
    (∀ bb, termWritesTemp i (termAt mir' bb).kind = false) ∧
    (∀ bb, ∀ st ∈ (mir'.blockD bb).statements, i ∉ rvReadTemps st.kind.rhsOf) ∧
    (∀ bb, i ∉ termReadTemps (termAt mir' bb).kind) ∧
    (∀ bb tgt unw, (termAt mir' bb).kind ≠ .Drop (.Temp i) tgt unw) := by
  rw [promote_candidates] at hrun
  rw [bind_ok_iff] at hrun
  obtain ⟨⟨mirL, tempsL⟩, hloop, hrun⟩ := hrun
  simp only [] at hrun
  rw [pure_ok_iff, Prod.mk.injEq] at hrun
  obtain ⟨hm, ht⟩ := hrun
  subst ht
  have hls : LoopStep mir temps mirL tempsL :=
    promoteLoop_effects fuel cs.reverse mir temps mirL tempsL hloop
  have hfe := hls.2.2.2.2.2.2.2.2.2.2.2.2.2 i l u hdef hpo
  have hipo : isPromotedOut tempsL i = true := by
    rw [isPromotedOut, hpo]
    rfl
  refine ⟨?_, ?_, ?_, ?_, ?_⟩
  · -- no assignment destination
    intro bb st hmem hcontra
    by_cases hbbL : bb < mirL.basic_blocks.length
    · rw [← hm, sweep_statements_filter _ _ _ hbbL] at hmem
      obtain ⟨-, hpred⟩ := List.mem_filter.mp hmem
      rcases hkind : st.kind with ⟨d, r⟩
      rw [hkind] at hcontra
      have hd : d = .Temp i := hcontra
      subst hd
      rw [hkind] at hpred
      simp only [] at hpred
      rw [hipo] at hpred
      cases hpred
    · rw [← hm, sweep_blockD_ge _ _ _ (not_lt.mp hbbL)] at hmem
      cases hmem
  · -- no call destination
    intro bb
    by_cases hbbL : bb < mirL.basic_blocks.length
    · by_contra hcontra
      rw [← hm, termAt, sweep_blockD _ _ _ hbbL] at hcontra
      have hw1 : termWritesTemp i (mirL.blockD bb).terminator.kind = true :=
        sweepBlock_termWrites tempsL _ i (by
          cases hcn : termWritesTemp i (sweepBlock tempsL (mirL.blockD bb)).terminator.kind
          · rw [hcn] at hcontra
            exact absurd rfl hcontra
          · rfl)
      have hw0 : termWritesTemp i (termAt mir bb).kind = true :=
        hls.2.2.2.2.2.2.2.2.2.2.2.1 bb i hw1
      obtain ⟨hblk, hge⟩ := hwrt bb hw0
      subst hblk
      obtain ⟨tgt, hgoto⟩ := hfe.2 hge
      rw [termAt] at hgoto
      rw [hgoto] at hw1
      rw [show termWritesTemp i (TerminatorKind.Goto tgt) = false from rfl] at hw1
      cases hw1
    · by_contra hcontra
      rw [← hm, termAt, sweep_blockD_ge _ _ _ (not_lt.mp hbbL)] at hcontra
      exact hcontra rfl
  · -- no statement read
    intro bb st hmem hread
    by_cases hbbL : bb < mirL.basic_blocks.length
    · rw [← hm, sweep_statements_filter _ _ _ hbbL] at hmem
      obtain ⟨hmemL, hpred⟩ := List.mem_filter.mp hmem
      obtain ⟨k, hk, hkst⟩ := List.mem_iff_getElem.mp hmemL
      have hstL : stmtAt mirL bb k = st := by
        rw [stmtAt, List.getD_eq_getElem?_getD, List.getElem?_eq_getElem hk, hkst]
        rfl
      have hkmir : k < (mir.blockD bb).statements.length := by
        rw [← hls.2.2.2.2.2.2.1 bb]
        exact hk
      have hread0 : i ∈ rvReadTemps (stmtAt mir bb k).kind.rhsOf := by
        refine hls.2.2.2.2.2.2.2.2.1 bb k i ?_
        rw [hstL]
        exact hread
      rcases hreads bb k hkmir hread0 with ⟨t, u', hdf, hpo'⟩ | ⟨index, hmemc, hdestc⟩
      · have hfe' := (hls.2.2.2.2.2.2.2.2.2.2.2.2.2 t ⟨bb, k⟩ u' hdf hpo').1 hkmir
        rw [hstL] at hfe'
        rw [hfe'] at hread
        cases hread
      · rcases promoteLoop_root_empty fuel cs.reverse mir temps mirL tempsL
          bb k index hloop (List.mem_reverse.mpr hmemc) hkmir hdestc with hempty | hpoidx
        · rw [hstL] at hempty
          rw [hempty] at hread
          cases hread
        · have hdestL : st.kind.destOf = .Temp index := by
            rw [← hstL, (hls.2.2.2.2.2.2.2.1 bb k).2]
            exact hdestc
          rcases hkind : st.kind with ⟨d, r⟩
          rw [hkind] at hdestL
          have hd : d = .Temp index := hdestL
          subst hd
          rw [hkind] at hpred
          simp only [] at hpred
          rw [show isPromotedOut tempsL index = true from by rw [isPromotedOut, hpoidx]; rfl]
            at hpred
          cases hpred
    · rw [← hm, sweep_blockD_ge _ _ _ (not_lt.mp hbbL)] at hmem
      cases hmem
  · -- no terminator read
    intro bb hread
    by_cases hbbL : bb < mirL.basic_blocks.length
    · rw [← hm, termAt, sweep_blockD _ _ _ hbbL] at hread
      have hr1 : i ∈ termReadTemps (mirL.blockD bb).terminator.kind :=
        sweepBlock_termReads tempsL _ i hread
      have hr0 : i ∈ termReadTemps (termAt mir bb).kind :=
        hls.2.2.2.2.2.2.2.2.2.2.1 bb i hr1
      obtain ⟨t, u', k, hk, hdf, hpo'⟩ := hreadt bb hr0
      obtain ⟨tgt, hgoto⟩ := (hls.2.2.2.2.2.2.2.2.2.2.2.2.2 t ⟨bb, k⟩ u' hdf hpo').2 hk
      rw [termAt] at hgoto
      rw [hgoto] at hr1
      rw [show termReadTemps (TerminatorKind.Goto tgt) = [] from rfl] at hr1
      cases hr1
    · rw [← hm, termAt, sweep_blockD_ge _ _ _ (not_lt.mp hbbL)] at hread
      rw [show termReadTemps ((default : BasicBlockData)).terminator.kind = [] from rfl]
        at hread
      cases hread
  · -- no drop
    intro bb tgt unw hcontra
    by_cases hbbL : bb < mirL.basic_blocks.length
    · rw [← hm, termAt, sweep_blockD _ _ _ hbbL] at hcontra
      have := sweepBlock_drop tempsL (mirL.blockD bb) i tgt unw hcontra
      rw [hipo] at this
      cases this
    · rw [← hm, termAt, sweep_blockD_ge _ _ _ (not_lt.mp hbbL)] at hcontra
      cases hcontra
/-- C1 counterexample to the original claim: in scenario C the temporary
`t0` has `uses == 1`, yet after the full driver run its table entry is still
`Defined` (not `PromotedOut`) and its defining statement remains in the
source body — it was reached beneath the doubly-used `t1`, so it was
duplicated under the forced `keep_original`, not moved. -/
theorem C1_counterexample :
    tempsC.getD 0 .Undefined = .Defined ⟨0, 0⟩ 1 ∧
    tempsC1.getD 0 .Undefined = .Defined ⟨0, 0⟩ 1 ∧
    stmtAt mirC1 0 0
      = { span := 0, scope := 0, kind := .Assign (.Temp 0) (.Use (constOp 1)) } := by
  decide

theorem C1_single_use_move_amended_witness :
    (∀ bb, ∀ st ∈ (mirA1.blockD bb).statements, st.kind.destOf ≠ .Temp 0) ∧
    (∀ bb, ∀ st ∈ (mirA1.blockD bb).statements, 0 ∉ rvReadTemps st.kind.rhsOf) := by
  have h := C1_single_use_move_amended 10 mirA tempsA candsA mirA1 tempsA1 0 ⟨0, 0⟩ 1
    (by rfl) (by decide) (by decide)
    (by
      intro bb hw
      exfalso
      rcases Nat.lt_or_ge bb 1 with hlt | hge
      · interval_cases bb
        revert hw
        decide
      · rw [termAt, Mir.blockD,
          List.getD_eq_default _ _ (le_trans (by decide) hge)] at hw
        revert hw
        decide)
    (by
      intro bb k hk hr
      have hbb : bb = 0 := by
        by_contra hne
        have hge : 1 ≤ bb := Nat.pos_of_ne_zero hne
        rw [Mir.blockD, List.getD_eq_default _ _ (le_trans (by decide) hge)] at hk
        exact Nat.not_lt_zero k hk
      subst hbb
      have hk3 : k < 3 := by
        rw [show (mirA.blockD 0).statements.length = 3 from by decide] at hk
        exact hk
      interval_cases k
      · exact absurd hr (by decide)
      · exact Or.inr ⟨1, by decide, by decide⟩
      · exact absurd hr (by decide))
    (by
      intro bb hr
      exfalso
      rcases Nat.lt_or_ge bb 1 with hlt | hge
      · interval_cases bb
        revert hr
        decide
      · rw [termAt, Mir.blockD,
          List.getD_eq_default _ _ (le_trans (by decide) hge)] at hr
        revert hr
        decide)
  exact ⟨h.1, h.2.2.1⟩
/-! ## Acyclic ranks rule out fuel exhaustion -/

theorem bind_err_iff {α β : Type} (x : PRes α) (f : α → PRes β) (e : PromoteError) :
    (x >>= f) = .error e ↔ x = .error e ∨ ∃ a, x = .ok a ∧ f a = .error e := by
  cases x <;> simp [Bind.bind, Except.bind]

theorem siteReadTemps_subset {s s' : Promoter} (h : SrcCore s s') (l : Location)
    (j : Nat) (hj : j ∈ siteReadTemps s'.source l) : j ∈ siteReadTemps s.source l := by
  have hsl := h.2.2.2.2.2.2.1
  by_cases hc : l.statement_index < (s.source.blockD l.block).statements.length
  · rw [siteReadTemps, if_pos (by rw [hsl l.block]; exact hc)] at hj
    rw [siteReadTemps, if_pos hc]
    exact SrcCore_stmt_reads_shrink h l.block l.statement_index j hj
  · rw [siteReadTemps, if_neg (by rw [hsl l.block]; exact hc)] at hj
    rw [siteReadTemps, if_neg hc]
    exact SrcCore_term_reads_shrink h l.block j hj

theorem siteRanksOk_step (rk : Nat → Nat) {s s' : Promoter} (h : SrcCore s s')
    (hok : siteRanksOk rk s = true) : siteRanksOk rk s' = true := by
  rw [siteRanksOk, List.all_eq_true] at hok ⊢
  intro t ht
  have ht' : t ∈ List.range s.temps.length := by
    rw [List.mem_range] at ht ⊢
    rw [← h.1.1]
    exact ht
  have hokt := hok t ht'
  split
  next l u heq =>
    rcases h.1.2 t with hsame | ⟨-, hpo⟩
    · rw [← hsame, heq] at hokt
      simp only [] at hokt
      rw [List.all_eq_true] at hokt ⊢
      intro j hj
      exact hokt j (siteReadTemps_subset h l j hj)
    · rw [heq] at hpo
      cases hpo
  next => rfl

theorem siteRanksOk_keep (rk : Nat → Nat) {s s' : Promoter} (h : KeepStep s s')
    (hok : siteRanksOk rk s = true) : siteRanksOk rk s' = true := by
  rw [siteRanksOk] at hok ⊢
  rw [h.1, h.2.1]
  exact hok
theorem pvLvalue_nof (pt : PTFun) (rk : Nat → Nat) (B : Nat)
    (hpt_nof : ∀ s i, siteRanksOk rk s = true → rk i < B →
      pt s i ≠ .error .OutOfFuel) :
    ∀ s lv, siteRanksOk rk s = true → (∀ j ∈ lvReadTemps lv, rk j < B) →
      pvLvalue pt s lv ≠ .error .OutOfFuel := by
  intro s lv hok hrk h
  cases lv with
  | Temp index =>
    simp only [pvLvalue] at h
    rw [bind_err_iff] at h
    rcases h with h1 | ⟨⟨s1, n1⟩, -, h2⟩
    · exact hpt_nof s index hok (hrk index (by simp [lvReadTemps])) h1
    · cases h2
  | Var index =>
    simp only [pvLvalue] at h
    cases h
  | ReturnPointer =>
    simp only [pvLvalue] at h
    cases h

theorem pvOperand_nof (pt : PTFun) (rk : Nat → Nat) (B : Nat)
    (hpt_nof : ∀ s i, siteRanksOk rk s = true → rk i < B →
      pt s i ≠ .error .OutOfFuel) :
    ∀ s op, siteRanksOk rk s = true → (∀ j ∈ opReadTemps op, rk j < B) →
      pvOperand pt s op ≠ .error .OutOfFuel := by
  intro s op hok hrk h
  cases op with
  | Consume lv =>
    simp only [pvOperand] at h
    rw [bind_err_iff] at h
    rcases h with h1 | ⟨⟨s1, lv1⟩, -, h2⟩
    · exact pvLvalue_nof pt rk B hpt_nof s lv hok (fun j hj => hrk j hj) h1
    · cases h2
  | Constant c =>
    simp only [pvOperand] at h
    cases h

theorem pvOperands_nof (pt : PTFun) (rk : Nat → Nat) (B : Nat)
    (hpt_step : ∀ s i s' n, pt s i = .ok (s', n) → SrcStep s s')
    (hpt_nof : ∀ s i, siteRanksOk rk s = true → rk i < B →
      pt s i ≠ .error .OutOfFuel) :
    ∀ ops s, siteRanksOk rk s = true → (∀ j ∈ opsReadTemps ops, rk j < B) →
      pvOperands pt s ops ≠ .error .OutOfFuel := by
  intro ops
  induction ops with
  | nil =>
    intro s hok hrk h
    simp only [pvOperands] at h
    cases h
  | cons op rest ih =>
    intro s hok hrk h
    simp only [pvOperands] at h
    rw [bind_err_iff] at h
    rcases h with h1 | ⟨⟨s1, op1⟩, hok1, h⟩
    · refine pvOperand_nof pt rk B hpt_nof s op hok (fun j hj => hrk j ?_) h1
      simp only [opsReadTemps, List.map_cons, List.flatten_cons, List.mem_append]
      exact Or.inl hj
    · simp only [] at h
      rw [bind_err_iff] at h
      rcases h with h2 | ⟨⟨s2, r2⟩, -, h3⟩
      · have hok' : siteRanksOk rk s1 = true :=
          siteRanksOk_step rk (pvOperand_step pt hpt_step s op s1 op1 hok1).1 hok
        refine ih s1 hok' (fun j hj => hrk j ?_) h2
        simp only [opsReadTemps, List.map_cons, List.flatten_cons, List.mem_append]
        exact Or.inr hj
      · cases h3

theorem pvRvalue_nof (pt : PTFun) (rk : Nat → Nat) (B : Nat)
    (hpt_step : ∀ s i s' n, pt s i = .ok (s', n) → SrcStep s s')
    (hpt_nof : ∀ s i, siteRanksOk rk s = true → rk i < B →
      pt s i ≠ .error .OutOfFuel) :
    ∀ s rv, siteRanksOk rk s = true → (∀ j ∈ rvReadTemps rv, rk j < B) →
      pvRvalue pt s rv ≠ .error .OutOfFuel := by
  intro s rv hok hrk h
  cases rv with
  | Use op =>
    simp only [pvRvalue] at h
    rw [bind_err_iff] at h
    rcases h with h1 | ⟨⟨s1, op1⟩, -, h2⟩
    · exact pvOperand_nof pt rk B hpt_nof s op hok (fun j hj => hrk j hj) h1
    · cases h2
  | Ref k lv =>
    simp only [pvRvalue] at h
    rw [bind_err_iff] at h
    rcases h with h1 | ⟨⟨s1, lv1⟩, -, h2⟩
    · exact pvLvalue_nof pt rk B hpt_nof s lv hok (fun j hj => hrk j hj) h1
    · cases h2
  | Len lv =>
    simp only [pvRvalue] at h
    rw [bind_err_iff] at h
    rcases h with h1 | ⟨⟨s1, lv1⟩, -, h2⟩
    · exact pvLvalue_nof pt rk B hpt_nof s lv hok (fun j hj => hrk j hj) h1
    · cases h2
  | BinaryOp op a b =>
    simp only [pvRvalue] at h
    rw [bind_err_iff] at h
    rcases h with h1 | ⟨⟨s1, a1⟩, hok1, h⟩
    · refine pvOperand_nof pt rk B hpt_nof s a hok (fun j hj => hrk j ?_) h1
      simp only [rvReadTemps, List.mem_append]
      exact Or.inl hj
    · simp only [] at h
      rw [bind_err_iff] at h
      rcases h with h2 | ⟨⟨s2, b2⟩, -, h3⟩
      · have hok' : siteRanksOk rk s1 = true :=
          siteRanksOk_step rk (pvOperand_step pt hpt_step s a s1 a1 hok1).1 hok
        refine pvOperand_nof pt rk B hpt_nof s1 b hok' (fun j hj => hrk j ?_) h2
        simp only [rvReadTemps, List.mem_append]
        exact Or.inr hj
      · cases h3
  | Aggregate k ops =>
    simp only [pvRvalue] at h
    rw [bind_err_iff] at h
    rcases h with h1 | ⟨⟨s1, ops1⟩, -, h2⟩
    · exact pvOperands_nof pt rk B hpt_step hpt_nof ops s hok (fun j hj => hrk j hj) h1
    · cases h2

theorem pvTermKind_nof (pt : PTFun) (rk : Nat → Nat) (B : Nat)
    (hpt_step : ∀ s i s' n, pt s i = .ok (s', n) → SrcStep s s')
    (hpt_nof : ∀ s i, siteRanksOk rk s = true → rk i < B →
      pt s i ≠ .error .OutOfFuel) :
    ∀ s kind, siteRanksOk rk s = true → (∀ j ∈ termReadTemps kind, rk j < B) →
      pvTermKind pt s kind ≠ .error .OutOfFuel := by
  intro s kind hok hrk h
  cases kind with
  | Call func args dest cleanup =>
    simp only [pvTermKind] at h
    rw [bind_err_iff] at h
    rcases h with h1 | ⟨⟨s1, f1⟩, hok1, h⟩
    · refine pvOperand_nof pt rk B hpt_nof s func hok (fun j hj => hrk j ?_) h1
      simp only [termReadTemps, List.mem_append]
      exact Or.inl hj
    · simp only [] at h
      rw [bind_err_iff] at h
      rcases h with h2 | ⟨⟨s2, a2⟩, -, h3⟩
      · have hok' : siteRanksOk rk s1 = true :=
          siteRanksOk_step rk (pvOperand_step pt hpt_step s func s1 f1 hok1).1 hok
        refine pvOperands_nof pt rk B hpt_step hpt_nof args s1 hok'
          (fun j hj => hrk j ?_) h2
        simp only [termReadTemps, List.mem_append]
        exact Or.inr hj
      · cases h3
  | Drop value target unwind =>
    simp only [pvTermKind] at h
    rw [bind_err_iff] at h
    rcases h with h1 | ⟨⟨s1, v1⟩, -, h2⟩
    · exact pvLvalue_nof pt rk B hpt_nof s value hok (fun j hj => hrk j hj) h1
    · cases h2
  | Goto target =>
    simp only [pvTermKind] at h
    cases h
  | Return =>
    simp only [pvTermKind] at h
    cases h
  | Resume =>
    simp only [pvTermKind] at h
    cases h
theorem promoteTempBody_nof (pt : PTFun) (rk : Nat → Nat) (B : Nat)
    (hpt_step : ∀ s i s' n, pt s i = .ok (s', n) → SrcStep s s')
    (hpt_nof : ∀ s i, siteRanksOk rk s = true → rk i < B →
      pt s i ≠ .error .OutOfFuel) :
    ∀ s index, siteRanksOk rk s = true → rk index < B + 1 →
      promoteTempBody pt s index ≠ .error .OutOfFuel := by
  intro s0 index hok hlt h
  simp only [promoteTempBody] at h
  split at h
  case h_2 =>
    injection h with h'
    cases h'
  case h_1 bb stmt_idx uses heq =>
    split at h
    case isFalse =>
      injection h with h'
      cases h'
    case isTrue hu0 =>
      have hidx : index < s0.temps.length := getD_defined_lt _ _ _ _ heq
      have hsite : ∀ j ∈ siteReadTemps s0.source ⟨bb, stmt_idx⟩, rk j < B := by
        intro j hj
        rw [siteRanksOk, List.all_eq_true] at hok
        have hokt := hok index (List.mem_range.mpr hidx)
        rw [heq] at hokt
        simp only [] at hokt
        rw [List.all_eq_true] at hokt
        have := of_decide_eq_true (hokt j hj)
        exact lt_of_lt_of_le this (Nat.lt_succ_iff.mp hlt)
      split at h
      case isTrue hlts =>
        have hlts0 : stmt_idx < (s0.source.blockD bb).statements.length := by
          rw [← ptEnter_source s0 index uses]
          exact hlts
        have hrkv : ∀ j ∈ rvReadTemps
            ((((ptEnter s0 index uses).source.blockD bb).statements.getD
              stmt_idx default)).kind.rhsOf, rk j < B := by
          intro j hj
          refine hsite j ?_
          rw [siteReadTemps, if_pos hlts0]
          rw [ptEnter_source] at hj
          exact hj
        rw [bind_err_iff] at h
        rcases h with h1 | ⟨⟨s4, rv4⟩, -, h2⟩
        · by_cases hko : (ptEnter s0 index uses).keep_original = true
          · rw [if_pos hko] at h1
            have hok3 : siteRanksOk rk (ptEnter s0 index uses) = true :=
              siteRanksOk_step rk
                (SrcCore_eq _ _ (ptEnter_source s0 index uses)
                  (ptEnter_temps_of_keep s0 index uses
                    (by rw [← ptEnter_keep]; exact hko))) hok
            exact pvRvalue_nof pt rk B hpt_step hpt_nof _ _ hok3 hrkv h1
          · rw [if_neg hko] at h1
            have hkb : (decide (uses > 1) || s0.keep_original) = false := by
              rw [← ptEnter_keep]
              simpa using hko
            have hcore : SrcCore s0 { ptEnter s0 index uses with source := (ptEnter s0 index uses).source.setStmtRhs bb stmt_idx (.Aggregate .Tuple []) } := by
              refine SrcCore_move_stmt _ _ index bb stmt_idx uses heq hlts0 ?_ ?_
              · show (ptEnter s0 index uses).source.setStmtRhs bb stmt_idx _ = _
                rw [ptEnter_source]
              · show (ptEnter s0 index uses).temps = _
                exact ptEnter_temps_of_move s0 index uses hkb
            have hok3 := siteRanksOk_step rk hcore hok
            exact pvRvalue_nof pt rk B hpt_step hpt_nof _ _ hok3 hrkv h1
        · simp only [] at h2
          cases h2
      case isFalse hges =>
        have hges0 : (s0.source.blockD bb).statements.length ≤ stmt_idx := by
          rw [← ptEnter_source s0 index uses]
          exact not_lt.mp hges
        have hterm : ∀ j ∈ termReadTemps
            ((ptEnter s0 index uses).source.blockD bb).terminator.kind, rk j < B := by
          intro j hj
          refine hsite j ?_
          rw [siteReadTemps, if_neg (not_lt.mpr hges0)]
          rw [ptEnter_source] at hj
          exact hj
        by_cases hko : (ptEnter s0 index uses).keep_original = true
        · rw [if_pos hko] at h
          rw [bind_err_iff] at h
          rcases h with h1 | ⟨y, hy, h⟩
          · cases h1
          · rw [pure_ok_iff] at hy
            subst hy
            rw [bind_err_iff] at h
            rcases h with h1 | ⟨⟨s4, call4⟩, -, h2⟩
            · have hok3 : siteRanksOk rk (ptEnter s0 index uses) = true :=
                siteRanksOk_step rk
                  (SrcCore_eq _ _ (ptEnter_source s0 index uses)
                    (ptEnter_temps_of_keep s0 index uses
                      (by rw [← ptEnter_keep]; exact hko))) hok
              exact pvTermKind_nof pt rk B hpt_step hpt_nof _ _ hok3 hterm h1
            · split at h2
              next => cases h2
              next =>
                injection h2 with h'
                cases h'
        · rw [if_neg hko] at h
          have hkb : (decide (uses > 1) || s0.keep_original) = false := by
            rw [← ptEnter_keep]
            simpa using hko
          split at h
          next f a dlv target cl heqt =>
            rw [bind_err_iff] at h
            rcases h with h1 | ⟨y, hy, h⟩
            · cases h1
            · rw [pure_ok_iff] at hy
              subst hy
              rw [bind_err_iff] at h
              rcases h with h1 | ⟨⟨s4, call4⟩, -, h2⟩
              · have hcore : SrcCore s0 { ptEnter s0 index uses with source := (ptEnter s0 index uses).source.setTermKind bb (.Goto target) } := by
                  refine SrcCore_move_call _ _ index bb stmt_idx uses f a dlv target cl
                    heq hges0 ?_ ?_ ?_
                  · rw [← ptEnter_source s0 index uses]
                    exact heqt
                  · show (ptEnter s0 index uses).source.setTermKind bb (.Goto target) = _
                    rw [ptEnter_source]
                  · show (ptEnter s0 index uses).temps = _
                    exact ptEnter_temps_of_move s0 index uses hkb
                have hok3 := siteRanksOk_step rk hcore hok
                refine pvTermKind_nof pt rk B hpt_step hpt_nof _ _ hok3 ?_ h1
                intro j hj
                refine hterm j ?_
                rw [heqt]
                exact hj
              · split at h2
                next => cases h2
                next =>
                  injection h2 with h'
                  cases h'
          next =>
            rw [bind_err_iff] at h
            rcases h with h1 | ⟨y, hy, -⟩
            · injection h1 with h'
              cases h'
            · cases hy

theorem promote_temp_nof (rk : Nat → Nat) :
    ∀ fuel s index, siteRanksOk rk s = true → rk index < fuel →
      Promoter.promote_temp fuel s index ≠ .error .OutOfFuel := by
  intro fuel
  induction fuel with
  | zero =>
    intro s index hok hlt
    exact absurd hlt (Nat.not_lt_zero _)
  | succ fuel ih =>
    intro s index hok hlt
    rw [promote_temp_succ]
    exact promoteTempBody_nof (Promoter.promote_temp fuel) rk fuel
      (fun a i a' n ha => promote_temp_step fuel a i a' n ha)
      (fun a i hoka hia => ih a i hoka hia) s index hok hlt
/-- C9: for well-formed input, expressed through a ranking of the temporaries
under which every temporary read at the registered definition site of a
`Defined` temporary has strictly smaller rank (the ranking exists exactly
because each temporary has a single definition that cannot reference itself,
so the dependency graph is acyclic; with `N` temporaries reachable from the
root the ranks can be chosen below `N`), the recursive extraction of a
candidate never exhausts its recursion budget: with any fuel of at least `N`
(one unit per nesting level), `promote_temp` never returns the out-of-fuel
error, i.e. the recursion depth is bounded by `N`. -/
theorem C9_acyclic_termination (rk : Nat → Nat) (N : Nat) (s : Promoter)
    (index : Nat) (fuel : Nat)
    (hranks : siteRanksOk rk s = true)
    (hN : ∀ t, rk t < N)
    (hfuel : N ≤ fuel) :
    Promoter.promote_temp fuel s index ≠ .error .OutOfFuel :=
  promote_temp_nof rk fuel s index hranks (lt_of_lt_of_le (hN index) hfuel)

theorem C9_acyclic_termination_witness :
    Promoter.promote_temp 5 sC8 1 ≠ .error .OutOfFuel :=
  C9_acyclic_termination (fun t => min t 1) 2 sC8 1 5 (by decide)
    (fun t => lt_of_le_of_lt (min_le_right t 1) (by decide)) (by decide)

end PC
